import Mathlib

/-!
# Verification of the messages-cli Telegram database core

Shallow embedding of `src/messages_cli/telegram_db.py` (PostboxEncoder binary
decoder, message/peer record extractors, key-derivation integrity check, and
the ChatStore query operations), together with theorems settling the frozen
claims about its natural-language specification.

Embedding conventions:
* Byte buffers are `List Nat` (each entry one byte; well-formedness `< 256`
  is a hypothesis where it matters).
* Python's `io.BytesIO` reader is embedded in consuming style: the state is
  the remaining suffix of the buffer.  `tell() < size` is equivalent to the
  remaining suffix being nonempty, since reads never move the cursor past the
  end.
* A raised-and-not-caught exception (`EOFError`, `struct.error`,
  `ValueError`) is `Option.none` / an error constructor; Python code that
  catches those exceptions pattern-matches on `none`.
* Python `str` values are represented by their UTF-8 byte content; decoding
  valid UTF-8 with `errors="replace"` is the identity on that content.
* `float` values (`read_double`) are represented by their raw 8-byte
  little-endian bit pattern, since the decoder only transports them.
* Machine integers are `Int`/`Nat` with explicit two's-complement conversion
  (`toSigned`).
-/

namespace MessagesCli

/-- Two's-complement interpretation of `n` as a signed `w`-bit integer,
as done by `struct.unpack` with signed format codes. -/
def toSigned (w : Nat) (n : Nat) : Int :=
  if n < 2 ^ (w - 1) then (n : Int) else (n : Int) - 2 ^ w

/-- Little-endian value of a byte list (`struct.unpack` with `<`). -/
def leNat : List Nat → Nat
  | [] => 0
  | b :: bs => b + 256 * leNat bs

/-- Big-endian value of a byte list (`struct.unpack` with `>`). -/
def beNat : List Nat → Nat
  | [] => 0
  | b :: bs => b * 256 ^ bs.length + beNat bs

/-- Little-endian encoding of `n` on `w` bytes (`struct.pack`, value taken
mod `2^(8*w)`). -/
def natLE : Nat → Nat → List Nat
  | 0, _ => []
  | w + 1, n => n % 256 :: natLE w (n / 256)

/-- Big-endian encoding of `n` on `w` bytes. -/
def natBE (w : Nat) (n : Nat) : List Nat :=
  (natLE w n).reverse

/-- Encoding of the signed integer `v` on `w` bytes little-endian
(two's complement, as `struct.pack` does). -/
def intLE (w : Nat) (v : Int) : List Nat :=
  natLE w (v % (2 ^ (8 * w))).toNat

/-- Encoding of the signed integer `v` on `w` bytes big-endian. -/
def intBE (w : Nat) (v : Int) : List Nat :=
  (intLE w v).reverse

@[simp] theorem natLE_length (w n : Nat) : (natLE w n).length = w := by
  induction w generalizing n with
  | zero => rfl
  | succ k ih => simp [natLE, ih]

@[simp] theorem intLE_length (w : Nat) (v : Int) : (intLE w v).length = w := by
  simp [intLE]

@[simp] theorem intBE_length (w : Nat) (v : Int) : (intBE w v).length = w := by
  simp [intBE]

theorem leNat_natLE (w n : Nat) (h : n < 2 ^ (8 * w)) : leNat (natLE w n) = n := by
  induction w generalizing n with
  | zero =>
    simp [natLE, leNat]
    omega
  | succ k ih =>
    have hlt : n / 256 < 2 ^ (8 * k) := by
      have h2 : 2 ^ (8 * (k + 1)) = 2 ^ (8 * k) * 256 := by ring
      rw [h2] at h
      omega
    simp [natLE, leNat, ih (n / 256) hlt]
    omega

theorem toSigned_intLE (w : Nat) (v : Int) (hw : 0 < w)
    (hlo : -(2 ^ (8 * w - 1)) ≤ v) (hhi : v < 2 ^ (8 * w - 1)) :
    toSigned (8 * w) (leNat (natLE w (v % 2 ^ (8 * w)).toNat)) = v := by
  have hcast1 : ((2 ^ (8 * w - 1) : Nat) : Int) = (2 : Int) ^ (8 * w - 1) := by
    push_cast; ring
  have hcast2 : ((2 ^ (8 * w) : Nat) : Int) = (2 : Int) ^ (8 * w) := by
    push_cast; ring
  have hpow : (2 : Int) ^ (8 * w) = 2 ^ (8 * w - 1) * 2 := by
    rw [← pow_succ]
    congr 1
    omega
  have hmodlt : (v % 2 ^ (8 * w)).toNat < 2 ^ (8 * w) := by
    have h1 : (0 : Int) ≤ v % 2 ^ (8 * w) := Int.emod_nonneg v (by positivity)
    have h2 : v % 2 ^ (8 * w) < 2 ^ (8 * w) := Int.emod_lt_of_pos v (by positivity)
    omega
  rw [leNat_natLE w _ hmodlt]
  rcases le_or_lt 0 v with hv | hv
  · have hmod : v % 2 ^ (8 * w) = v := Int.emod_eq_of_lt hv (by omega)
    rw [hmod]
    simp only [toSigned]
    have hlt : v.toNat < 2 ^ (8 * w - 1) := by omega
    simp only [hlt, if_pos]
    omega
  · have hmod : v % 2 ^ (8 * w) = v + 2 ^ (8 * w) := by
      have h1 : (v + 2 ^ (8 * w)) % 2 ^ (8 * w) = v % 2 ^ (8 * w) := by
        have h := Int.add_mul_emod_self_left (a := v) (b := 2 ^ (8 * w)) (c := 1)
        rw [mul_one] at h
        exact h
      have h2 : (v + 2 ^ (8 * w)) % 2 ^ (8 * w) = v + 2 ^ (8 * w) :=
        Int.emod_eq_of_lt (by omega) (by omega)
      omega
    rw [hmod]
    simp only [toSigned]
    have hge : ¬ ((v + 2 ^ (8 * w)).toNat < 2 ^ (8 * w - 1)) := by omega
    simp only [hge, if_neg, not_false_iff]
    omega

/-!
## `_ByteReader`: the little-endian binary reader

The reader state is the remaining byte suffix.  `bufRead` embeds
`io.BytesIO.read(n)` (returns at most `n` bytes, everything for negative
`n`, never raises); `readExact` embeds `_ByteReader._read`, which raises
`EOFError` (here: `none`) when fewer than `size` bytes remain.
-/

/-- Python `BytesIO.read(n)`: up to `n` bytes, all remaining bytes when `n`
is negative; never fails. Returns the bytes read and the remaining suffix. -/
def bufRead (n : Int) (rem : List Nat) : List Nat × List Nat :=
  if n < 0 then (rem, []) else (rem.take n.toNat, rem.drop n.toNat)

/-- `_ByteReader._read`: read exactly `size` bytes or raise `EOFError`. -/
def readExact (size : Nat) (rem : List Nat) : Option (List Nat × List Nat) :=
  if size ≤ rem.length then some (rem.take size, rem.drop size) else none

/-- `_ByteReader.read_uint8`. -/
def readU8 (rem : List Nat) : Option (Nat × List Nat) :=
  (readExact 1 rem).map fun p => (leNat p.1, p.2)

/-- `_ByteReader.read_int8`. -/
def readI8 (rem : List Nat) : Option (Int × List Nat) :=
  (readExact 1 rem).map fun p => (toSigned 8 (leNat p.1), p.2)

/-- `_ByteReader.read_int32`. -/
def readI32 (rem : List Nat) : Option (Int × List Nat) :=
  (readExact 4 rem).map fun p => (toSigned 32 (leNat p.1), p.2)

/-- `_ByteReader.read_uint32`. -/
def readU32 (rem : List Nat) : Option (Nat × List Nat) :=
  (readExact 4 rem).map fun p => (leNat p.1, p.2)

/-- `_ByteReader.read_int64`. -/
def readI64 (rem : List Nat) : Option (Int × List Nat) :=
  (readExact 8 rem).map fun p => (toSigned 64 (leNat p.1), p.2)

/-- `_ByteReader.read_double`: the 8-byte payload is kept as its raw
little-endian bit pattern (the decoder only transports floats). -/
def readDouble (rem : List Nat) : Option (Nat × List Nat) :=
  (readExact 8 rem).map fun p => (leNat p.1, p.2)

/-- `_ByteReader.read_bytes`: `int32` length prefix, then `buf.read(length)`
(which silently returns fewer bytes on truncation, and all remaining bytes
for a negative length). -/
def readBytes (rem : List Nat) : Option (List Nat × List Nat) :=
  (readI32 rem).map fun p => bufRead p.1 p.2

/-- `_ByteReader.read_str`: `read_bytes` followed by UTF-8 decoding with
`errors="replace"`, represented here by the byte content itself. -/
def readStr (rem : List Nat) : Option (List Nat × List Nat) :=
  readBytes rem

/-- `_ByteReader.read_short_str`: `uint8` length prefix, then
`buf.read(length)` (never raises). -/
def readShortStr (rem : List Nat) : Option (List Nat × List Nat) :=
  (readU8 rem).map fun p => bufRead (p.1 : Int) p.2

theorem bufRead_length_le (n : Int) (rem : List Nat) :
    (bufRead n rem).2.length ≤ rem.length := by
  unfold bufRead
  split <;> simp

theorem readExact_eq (size : Nat) (rem : List Nat) (c rem2 : List Nat)
    (h : readExact size rem = some (c, rem2)) :
    c = rem.take size ∧ rem2 = rem.drop size ∧ size ≤ rem.length := by
  unfold readExact at h
  split at h
  · simp_all
  · simp_all

theorem readExact_length_le (size : Nat) (rem : List Nat) (c rem2 : List Nat)
    (h : readExact size rem = some (c, rem2)) : rem2.length ≤ rem.length := by
  obtain ⟨-, h2, -⟩ := readExact_eq size rem c rem2 h
  simp [h2]

theorem readU8_length_lt (rem : List Nat) (b : Nat) (rem2 : List Nat)
    (h : readU8 rem = some (b, rem2)) : rem2.length < rem.length := by
  unfold readU8 at h
  cases hx : readExact 1 rem with
  | none => rw [hx] at h; simp at h
  | some p =>
    rw [hx] at h
    simp at h
    obtain ⟨-, h2, h3⟩ := readExact_eq 1 rem p.1 p.2 hx
    have : rem2 = p.2 := by simp [← h.2]
    simp [this, h2]
    omega

theorem readI8_length_lt (rem : List Nat) (v : Int) (rem2 : List Nat)
    (h : readI8 rem = some (v, rem2)) : rem2.length < rem.length := by
  unfold readI8 at h
  cases hx : readExact 1 rem with
  | none => rw [hx] at h; simp at h
  | some p =>
    rw [hx] at h
    simp at h
    obtain ⟨-, h2, h3⟩ := readExact_eq 1 rem p.1 p.2 hx
    have : rem2 = p.2 := by simp [← h.2]
    simp [this, h2]
    omega

theorem readI32_length_le (rem : List Nat) (v : Int) (rem2 : List Nat)
    (h : readI32 rem = some (v, rem2)) : rem2.length + 4 ≤ rem.length := by
  unfold readI32 at h
  cases hx : readExact 4 rem with
  | none => rw [hx] at h; simp at h
  | some p =>
    rw [hx] at h
    simp at h
    obtain ⟨-, h2, h3⟩ := readExact_eq 4 rem p.1 p.2 hx
    have : rem2 = p.2 := by simp [← h.2]
    simp [this, h2]
    omega

theorem readU32_length_le (rem : List Nat) (v : Nat) (rem2 : List Nat)
    (h : readU32 rem = some (v, rem2)) : rem2.length + 4 ≤ rem.length := by
  unfold readU32 at h
  cases hx : readExact 4 rem with
  | none => rw [hx] at h; simp at h
  | some p =>
    rw [hx] at h
    simp at h
    obtain ⟨-, h2, h3⟩ := readExact_eq 4 rem p.1 p.2 hx
    have : rem2 = p.2 := by simp [← h.2]
    simp [this, h2]
    omega

theorem readI64_length_le (rem : List Nat) (v : Int) (rem2 : List Nat)
    (h : readI64 rem = some (v, rem2)) : rem2.length + 8 ≤ rem.length := by
  unfold readI64 at h
  cases hx : readExact 8 rem with
  | none => rw [hx] at h; simp at h
  | some p =>
    rw [hx] at h
    simp at h
    obtain ⟨-, h2, h3⟩ := readExact_eq 8 rem p.1 p.2 hx
    have : rem2 = p.2 := by simp [← h.2]
    simp [this, h2]
    omega

theorem readDouble_length_le (rem : List Nat) (v : Nat) (rem2 : List Nat)
    (h : readDouble rem = some (v, rem2)) : rem2.length + 8 ≤ rem.length := by
  unfold readDouble at h
  cases hx : readExact 8 rem with
  | none => rw [hx] at h; simp at h
  | some p =>
    rw [hx] at h
    simp at h
    obtain ⟨-, h2, h3⟩ := readExact_eq 8 rem p.1 p.2 hx
    have : rem2 = p.2 := by simp [← h.2]
    simp [this, h2]
    omega

theorem readBytes_length_le (rem : List Nat) (s : List Nat) (rem2 : List Nat)
    (h : readBytes rem = some (s, rem2)) : rem2.length + 4 ≤ rem.length := by
  unfold readBytes at h
  cases hx : readI32 rem with
  | none => rw [hx] at h; simp at h
  | some p =>
    rw [hx] at h
    simp at h
    have h1 := readI32_length_le rem p.1 p.2 hx
    have h2 := bufRead_length_le p.1 p.2
    have : rem2.length = (bufRead p.1 p.2).2.length := by rw [h]
    omega

theorem readStr_length_le (rem : List Nat) (s : List Nat) (rem2 : List Nat)
    (h : readStr rem = some (s, rem2)) : rem2.length + 4 ≤ rem.length :=
  readBytes_length_le rem s rem2 h

theorem readShortStr_length_lt (rem : List Nat) (s : List Nat) (rem2 : List Nat)
    (h : readShortStr rem = some (s, rem2)) : rem2.length < rem.length := by
  unfold readShortStr at h
  cases hx : readU8 rem with
  | none => rw [hx] at h; simp at h
  | some p =>
    rw [hx] at h
    simp at h
    have h1 := readU8_length_lt rem p.1 p.2 hx
    have h2 := bufRead_length_le (p.1 : Int) p.2
    have : rem2.length = (bufRead (p.1 : Int) p.2).2.length := by rw [h]
    omega

/-!
## `_ValueType` and the decoded value domain
-/

/-- The 14 tag types of the PostboxEncoder format (`_ValueType`). -/
inductive ValueType where
  | Int32
  | Int64
  | Bool
  | Double
  | String
  | Object
  | Int32Array
  | Int64Array
  | ObjectArray
  | ObjectDictionary
  | Bytes
  | Nil
  | StringArray
  | BytesArray
  deriving DecidableEq, Repr

/-- `_ValueType(n)`: enum construction raises `ValueError` for values
outside 0–13. -/
def vtOfNat (n : Nat) : Option ValueType :=
  match n with
  | 0 => some .Int32
  | 1 => some .Int64
  | 2 => some .Bool
  | 3 => some .Double
  | 4 => some .String
  | 5 => some .Object
  | 6 => some .Int32Array
  | 7 => some .Int64Array
  | 8 => some .ObjectArray
  | 9 => some .ObjectDictionary
  | 10 => some .Bytes
  | 11 => some .Nil
  | 12 => some .StringArray
  | 13 => some .BytesArray
  | _ => none

/-- The enum value of each tag. -/
def vtToNat : ValueType → Nat
  | .Int32 => 0
  | .Int64 => 1
  | .Bool => 2
  | .Double => 3
  | .String => 4
  | .Object => 5
  | .Int32Array => 6
  | .Int64Array => 7
  | .ObjectArray => 8
  | .ObjectDictionary => 9
  | .Bytes => 10
  | .Nil => 11
  | .StringArray => 12
  | .BytesArray => 13

/-- Values produced (and, for the synthetic encoder, consumed) by the
decoder.  Strings and bytes are byte lists; `object` carries the raw nested
payload (the `int32` type hash is read and discarded by `_read_value`);
`objectDict` carries key/value object payload pairs, which `_read_value`
walks over but never materializes. -/
inductive PValue where
  | int32 (v : Int)
  | int64 (v : Int)
  | bool (b : Bool)
  | double (bits : Nat)
  | str (s : List Nat)
  | object (data : List Nat)
  | int32Array (xs : List Int)
  | int64Array (xs : List Int)
  | objectArray (xs : List (List Nat))
  | objectDict (ps : List (List Nat × List Nat))
  | bytes (bs : List Nat)
  | nil
  | strArray (xs : List (List Nat))
  | bytesArray (xs : List (List Nat))
  deriving DecidableEq, Repr

/-!
## `_PostboxDecoder._read_value`
-/

/-- `[self.reader.read_int32() for _ in range(count)]`. -/
def readN32 : Nat → List Nat → Option (List Int × List Nat)
  | 0, rem => some ([], rem)
  | k + 1, rem =>
    (readI32 rem).bind fun p => (readN32 k p.2).map fun q => (p.1 :: q.1, q.2)

/-- `[self.reader.read_int64() for _ in range(count)]`. -/
def readN64 : Nat → List Nat → Option (List Int × List Nat)
  | 0, rem => some ([], rem)
  | k + 1, rem =>
    (readI64 rem).bind fun p => (readN64 k p.2).map fun q => (p.1 :: q.1, q.2)

/-- One `ObjectArray` item: `int32` type hash (discarded), `int32` length,
then `buf.read(length)`. -/
def readObjItem (rem : List Nat) : Option (List Nat × List Nat) :=
  (readI32 rem).bind fun h => (readI32 h.2).map fun l => bufRead l.1 l.2

/-- The `ObjectArray` item loop. -/
def readNObj : Nat → List Nat → Option (List (List Nat) × List Nat)
  | 0, rem => some ([], rem)
  | k + 1, rem =>
    (readObjItem rem).bind fun p => (readNObj k p.2).map fun q => (p.1 :: q.1, q.2)

/-- The `StringArray` item loop (`read_str` repeatedly). -/
def readNStr : Nat → List Nat → Option (List (List Nat) × List Nat)
  | 0, rem => some ([], rem)
  | k + 1, rem =>
    (readStr rem).bind fun p => (readNStr k p.2).map fun q => (p.1 :: q.1, q.2)

/-- The `BytesArray` item loop (`read_bytes` repeatedly). -/
def readNBytes : Nat → List Nat → Option (List (List Nat) × List Nat)
  | 0, rem => some ([], rem)
  | k + 1, rem =>
    (readBytes rem).bind fun p => (readNBytes k p.2).map fun q => (p.1 :: q.1, q.2)

/-- The `ObjectDictionary` pair loop of `_read_value`: per pair it reads a
key object (`int32` hash, `int32` length, raw bytes) and a value object,
materializing nothing. -/
def readNDict : Nat → List Nat → Option (List Nat)
  | 0, rem => some rem
  | k + 1, rem =>
    (readI32 rem).bind fun h1 =>
      (readI32 h1.2).bind fun kl =>
        match bufRead kl.1 kl.2 with
        | (_, rem3) =>
          (readI32 rem3).bind fun h2 =>
            (readI32 h2.2).bind fun vl =>
              match bufRead vl.1 vl.2 with
              | (_, rem6) => readNDict k rem6

/-- The payload part of `_PostboxDecoder._read_value`, after the tag byte
has been read and recognized. -/
def readPayload : ValueType → List Nat → Option (PValue × List Nat)
  | .Int32, rem => (readI32 rem).map fun p => (.int32 p.1, p.2)
  | .Int64, rem => (readI64 rem).map fun p => (.int64 p.1, p.2)
  | .Bool, rem => (readU8 rem).map fun p => (.bool (p.1 ≠ 0), p.2)
  | .Double, rem => (readDouble rem).map fun p => (.double p.1, p.2)
  | .String, rem => (readStr rem).map fun p => (.str p.1, p.2)
  | .Object, rem =>
    (readI32 rem).bind fun h =>
      (readI32 h.2).map fun l =>
        match bufRead l.1 l.2 with
        | (data, rem3) => (.object data, rem3)
  | .Int32Array, rem =>
    (readI32 rem).bind fun c =>
      (readN32 c.1.toNat c.2).map fun q => (.int32Array q.1, q.2)
  | .Int64Array, rem =>
    (readI32 rem).bind fun c =>
      (readN64 c.1.toNat c.2).map fun q => (.int64Array q.1, q.2)
  | .ObjectArray, rem =>
    (readI32 rem).bind fun c =>
      (readNObj c.1.toNat c.2).map fun q => (.objectArray q.1, q.2)
  | .ObjectDictionary, rem =>
    (readI32 rem).bind fun c =>
      (readNDict c.1.toNat c.2).map fun rem2 => (.objectDict [], rem2)
  | .Bytes, rem => (readBytes rem).map fun p => (.bytes p.1, p.2)
  | .Nil, rem => some (.nil, rem)
  | .StringArray, rem =>
    (readI32 rem).bind fun c =>
      (readNStr c.1.toNat c.2).map fun q => (.strArray q.1, q.2)
  | .BytesArray, rem =>
    (readI32 rem).bind fun c =>
      (readNBytes c.1.toNat c.2).map fun q => (.bytesArray q.1, q.2)

/-- `_PostboxDecoder._read_value`: `uint8` tag byte (an unrecognized value
raises `ValueError`), then the tag-specific payload. -/
def readValue (rem : List Nat) : Option (ValueType × PValue × List Nat) :=
  (readU8 rem).bind fun p =>
    match vtOfNat p.1 with
    | none => none
    | some t => (readPayload t p.2).map fun q => (t, q.1, q.2)

/-!
## `_PostboxDecoder._skip_value`
-/

/-- The `ObjectArray` skip loop: `buf.read(4)`, `int32` length,
`buf.read(length)` per item. -/
def skipNObj : Nat → List Nat → Option (List Nat)
  | 0, rem => some rem
  | k + 1, rem =>
    match bufRead 4 rem with
    | (_, rem1) =>
      (readI32 rem1).bind fun l =>
        match bufRead l.1 l.2 with
        | (_, rem3) => skipNObj k rem3

/-- The `StringArray`/`BytesArray` skip loop: `int32` length then
`buf.read(length)` per item. -/
def skipNStr : Nat → List Nat → Option (List Nat)
  | 0, rem => some rem
  | k + 1, rem =>
    (readI32 rem).bind fun l =>
      match bufRead l.1 l.2 with
      | (_, rem2) => skipNStr k rem2

/-- The `ObjectDictionary` skip loop. -/
def skipNDict : Nat → List Nat → Option (List Nat)
  | 0, rem => some rem
  | k + 1, rem =>
    match bufRead 4 rem with
    | (_, rem1) =>
      (readI32 rem1).bind fun kl =>
        match bufRead kl.1 kl.2 with
        | (_, rem3) =>
          match bufRead 4 rem3 with
          | (_, rem4) =>
            (readI32 rem4).bind fun vl =>
              match bufRead vl.1 vl.2 with
              | (_, rem6) => skipNDict k rem6

/-- `_PostboxDecoder._skip_value`: skip over one value of the given type
without materializing it.  Mirrors the source's branch structure; only the
`read_int32` calls can raise. -/
def skipPayload : ValueType → List Nat → Option (List Nat)
  | .Int32, rem => some (bufRead 4 rem).2
  | .Int32Array, rem =>
    (readI32 rem).map fun c => (bufRead (c.1 * 4) c.2).2
  | .Int64, rem => some (bufRead 8 rem).2
  | .Double, rem => some (bufRead 8 rem).2
  | .Bool, rem => some (bufRead 1 rem).2
  | .String, rem => (readI32 rem).map fun l => (bufRead l.1 l.2).2
  | .Bytes, rem => (readI32 rem).map fun l => (bufRead l.1 l.2).2
  | .Object, rem =>
    match bufRead 4 rem with
    | (_, rem1) => (readI32 rem1).map fun l => (bufRead l.1 l.2).2
  | .Nil, rem => some rem
  | .ObjectArray, rem =>
    (readI32 rem).bind fun c => skipNObj c.1.toNat c.2
  | .Int64Array, rem =>
    (readI32 rem).map fun c => (bufRead (c.1 * 8) c.2).2
  | .StringArray, rem =>
    (readI32 rem).bind fun c => skipNStr c.1.toNat c.2
  | .BytesArray, rem =>
    (readI32 rem).bind fun c => skipNStr c.1.toNat c.2
  | .ObjectDictionary, rem =>
    (readI32 rem).bind fun c => skipNDict c.1.toNat c.2

/-!
## Byte-consumption monotonicity

Every reader step leaves a suffix of its input; these bounds justify the
termination of the scanning loops below.
-/

theorem readN32_length_le (k : Nat) (rem : List Nat) (xs : List Int) (rem2 : List Nat)
    (h : readN32 k rem = some (xs, rem2)) : rem2.length ≤ rem.length := by
  induction k generalizing rem xs rem2 with
  | zero =>
    simp [readN32] at h
    simp [h.2]
  | succ n ih =>
    simp only [readN32, Option.bind_eq_some, Option.map_eq_some'] at h
    obtain ⟨p, hp, q, hq, heq⟩ := h
    have h1 := readI32_length_le rem p.1 p.2 hp
    have h2 := ih p.2 q.1 q.2 hq
    injection heq with e1 e2
    subst e2
    omega

theorem readN64_length_le (k : Nat) (rem : List Nat) (xs : List Int) (rem2 : List Nat)
    (h : readN64 k rem = some (xs, rem2)) : rem2.length ≤ rem.length := by
  induction k generalizing rem xs rem2 with
  | zero =>
    simp [readN64] at h
    simp [h.2]
  | succ n ih =>
    simp only [readN64, Option.bind_eq_some, Option.map_eq_some'] at h
    obtain ⟨p, hp, q, hq, heq⟩ := h
    have h1 := readI64_length_le rem p.1 p.2 hp
    have h2 := ih p.2 q.1 q.2 hq
    injection heq with e1 e2
    subst e2
    omega

theorem readObjItem_length_le (rem : List Nat) (d rem2 : List Nat)
    (h : readObjItem rem = some (d, rem2)) : rem2.length ≤ rem.length := by
  simp only [readObjItem, Option.bind_eq_some, Option.map_eq_some'] at h
  obtain ⟨p, hp, q, hq, heq⟩ := h
  have h1 := readI32_length_le rem p.1 p.2 hp
  have h2 := readI32_length_le p.2 q.1 q.2 hq
  have h3 := bufRead_length_le q.1 q.2
  have h4 : rem2 = (bufRead q.1 q.2).2 := by rw [heq]
  have h5 : rem2.length = (bufRead q.1 q.2).2.length := by rw [h4]
  omega

theorem readNObj_length_le (k : Nat) (rem : List Nat) (xs : List (List Nat)) (rem2 : List Nat)
    (h : readNObj k rem = some (xs, rem2)) : rem2.length ≤ rem.length := by
  induction k generalizing rem xs rem2 with
  | zero =>
    simp [readNObj] at h
    simp [h.2]
  | succ n ih =>
    simp only [readNObj, Option.bind_eq_some, Option.map_eq_some'] at h
    obtain ⟨p, hp, q, hq, heq⟩ := h
    have h1 := readObjItem_length_le rem p.1 p.2 hp
    have h2 := ih p.2 q.1 q.2 hq
    injection heq with e1 e2
    subst e2
    omega

theorem readNStr_length_le (k : Nat) (rem : List Nat) (xs : List (List Nat)) (rem2 : List Nat)
    (h : readNStr k rem = some (xs, rem2)) : rem2.length ≤ rem.length := by
  induction k generalizing rem xs rem2 with
  | zero =>
    simp [readNStr] at h
    simp [h.2]
  | succ n ih =>
    simp only [readNStr, Option.bind_eq_some, Option.map_eq_some'] at h
    obtain ⟨p, hp, q, hq, heq⟩ := h
    have h1 := readStr_length_le rem p.1 p.2 hp
    have h2 := ih p.2 q.1 q.2 hq
    injection heq with e1 e2
    subst e2
    omega

theorem readNBytes_length_le (k : Nat) (rem : List Nat) (xs : List (List Nat)) (rem2 : List Nat)
    (h : readNBytes k rem = some (xs, rem2)) : rem2.length ≤ rem.length := by
  induction k generalizing rem xs rem2 with
  | zero =>
    simp [readNBytes] at h
    simp [h.2]
  | succ n ih =>
    simp only [readNBytes, Option.bind_eq_some, Option.map_eq_some'] at h
    obtain ⟨p, hp, q, hq, heq⟩ := h
    have h1 := readBytes_length_le rem p.1 p.2 hp
    have h2 := ih p.2 q.1 q.2 hq
    injection heq with e1 e2
    subst e2
    omega

theorem readNDict_length_le (k : Nat) (rem : List Nat) (rem2 : List Nat)
    (h : readNDict k rem = some rem2) : rem2.length ≤ rem.length := by
  induction k generalizing rem rem2 with
  | zero =>
    simp [readNDict] at h
    simp [h]
  | succ n ih =>
    simp only [readNDict, Option.bind_eq_some] at h
    obtain ⟨p1, hp1, p2, hp2, p3, hp3, p4, hp4, hrec⟩ := h
    have h1 := readI32_length_le rem p1.1 p1.2 hp1
    have h2 := readI32_length_le p1.2 p2.1 p2.2 hp2
    have h3 := bufRead_length_le p2.1 p2.2
    have h4 := readI32_length_le (bufRead p2.1 p2.2).2 p3.1 p3.2 hp3
    have h5 := readI32_length_le p3.2 p4.1 p4.2 hp4
    have h6 := bufRead_length_le p4.1 p4.2
    have h7 := ih (bufRead p4.1 p4.2).2 rem2 hrec
    omega

theorem readPayload_length_le (t : ValueType) (rem : List Nat) (v : PValue) (rem2 : List Nat)
    (h : readPayload t rem = some (v, rem2)) : rem2.length ≤ rem.length := by
  cases t with
  | Int32 =>
    simp only [readPayload, Option.map_eq_some'] at h
    obtain ⟨p, hp, heq⟩ := h
    have := readI32_length_le rem p.1 p.2 hp
    injection heq with e1 e2
    subst e2
    omega
  | Int64 =>
    simp only [readPayload, Option.map_eq_some'] at h
    obtain ⟨p, hp, heq⟩ := h
    have := readI64_length_le rem p.1 p.2 hp
    injection heq with e1 e2
    subst e2
    omega
  | Bool =>
    simp only [readPayload, Option.map_eq_some'] at h
    obtain ⟨p, hp, heq⟩ := h
    have := readU8_length_lt rem p.1 p.2 hp
    injection heq with e1 e2
    subst e2
    omega
  | Double =>
    simp only [readPayload, Option.map_eq_some'] at h
    obtain ⟨p, hp, heq⟩ := h
    have := readDouble_length_le rem p.1 p.2 hp
    injection heq with e1 e2
    subst e2
    omega
  | String =>
    simp only [readPayload, Option.map_eq_some'] at h
    obtain ⟨p, hp, heq⟩ := h
    have := readStr_length_le rem p.1 p.2 hp
    injection heq with e1 e2
    subst e2
    omega
  | Object =>
    simp only [readPayload, Option.bind_eq_some, Option.map_eq_some'] at h
    obtain ⟨p, hp, q, hq, heq⟩ := h
    have h1 := readI32_length_le rem p.1 p.2 hp
    have h2 := readI32_length_le p.2 q.1 q.2 hq
    have h3 := bufRead_length_le q.1 q.2
    have he : rem2 = (bufRead q.1 q.2).2 := by
      have h5 := congrArg Prod.snd heq
      simpa using h5.symm
    have hlen : rem2.length = (bufRead q.1 q.2).2.length := by rw [he]
    omega
  | Int32Array =>
    simp only [readPayload, Option.bind_eq_some, Option.map_eq_some'] at h
    obtain ⟨p, hp, q, hq, heq⟩ := h
    have h1 := readI32_length_le rem p.1 p.2 hp
    have h2 := readN32_length_le p.1.toNat p.2 q.1 q.2 hq
    injection heq with e1 e2
    subst e2
    omega
  | Int64Array =>
    simp only [readPayload, Option.bind_eq_some, Option.map_eq_some'] at h
    obtain ⟨p, hp, q, hq, heq⟩ := h
    have h1 := readI32_length_le rem p.1 p.2 hp
    have h2 := readN64_length_le p.1.toNat p.2 q.1 q.2 hq
    injection heq with e1 e2
    subst e2
    omega
  | ObjectArray =>
    simp only [readPayload, Option.bind_eq_some, Option.map_eq_some'] at h
    obtain ⟨p, hp, q, hq, heq⟩ := h
    have h1 := readI32_length_le rem p.1 p.2 hp
    have h2 := readNObj_length_le p.1.toNat p.2 q.1 q.2 hq
    injection heq with e1 e2
    subst e2
    omega
  | ObjectDictionary =>
    simp only [readPayload, Option.bind_eq_some, Option.map_eq_some'] at h
    obtain ⟨p, hp, q, hq, heq⟩ := h
    have h1 := readI32_length_le rem p.1 p.2 hp
    have h2 := readNDict_length_le p.1.toNat p.2 q hq
    injection heq with e1 e2
    subst e2
    omega
  | Bytes =>
    simp only [readPayload, Option.map_eq_some'] at h
    obtain ⟨p, hp, heq⟩ := h
    have := readBytes_length_le rem p.1 p.2 hp
    injection heq with e1 e2
    subst e2
    omega
  | Nil =>
    simp only [readPayload, Option.some_inj] at h
    injection h with e1 e2
    subst e2
    omega
  | StringArray =>
    simp only [readPayload, Option.bind_eq_some, Option.map_eq_some'] at h
    obtain ⟨p, hp, q, hq, heq⟩ := h
    have h1 := readI32_length_le rem p.1 p.2 hp
    have h2 := readNStr_length_le p.1.toNat p.2 q.1 q.2 hq
    injection heq with e1 e2
    subst e2
    omega
  | BytesArray =>
    simp only [readPayload, Option.bind_eq_some, Option.map_eq_some'] at h
    obtain ⟨p, hp, q, hq, heq⟩ := h
    have h1 := readI32_length_le rem p.1 p.2 hp
    have h2 := readNBytes_length_le p.1.toNat p.2 q.1 q.2 hq
    injection heq with e1 e2
    subst e2
    omega

theorem readValue_length_lt (rem : List Nat) (t : ValueType) (v : PValue) (rem2 : List Nat)
    (h : readValue rem = some (t, v, rem2)) : rem2.length < rem.length := by
  simp only [readValue, Option.bind_eq_some] at h
  obtain ⟨p, hp, hrest⟩ := h
  have h1 := readU8_length_lt rem p.1 p.2 hp
  cases hv : vtOfNat p.1 with
  | none => rw [hv] at hrest; simp at hrest
  | some t2 =>
    rw [hv] at hrest
    simp only [Option.map_eq_some'] at hrest
    obtain ⟨q, hq, heq⟩ := hrest
    have h2 := readPayload_length_le t2 p.2 q.1 q.2 hq
    have he : rem2 = q.2 := by
      have h5 := congrArg (fun x => x.2.2) heq
      simpa using h5.symm
    have hlen : rem2.length = q.2.length := by rw [he]
    omega

theorem skipNObj_length_le (k : Nat) (rem : List Nat) (rem2 : List Nat)
    (h : skipNObj k rem = some rem2) : rem2.length ≤ rem.length := by
  induction k generalizing rem rem2 with
  | zero =>
    simp [skipNObj] at h
    simp [h]
  | succ n ih =>
    simp only [skipNObj, Option.bind_eq_some] at h
    obtain ⟨p, hp, hrec⟩ := h
    have h1 := bufRead_length_le 4 rem
    have h2 := readI32_length_le (bufRead 4 rem).2 p.1 p.2 hp
    have h3 := bufRead_length_le p.1 p.2
    have h4 := ih (bufRead p.1 p.2).2 rem2 hrec
    omega

theorem skipNStr_length_le (k : Nat) (rem : List Nat) (rem2 : List Nat)
    (h : skipNStr k rem = some rem2) : rem2.length ≤ rem.length := by
  induction k generalizing rem rem2 with
  | zero =>
    simp [skipNStr] at h
    simp [h]
  | succ n ih =>
    simp only [skipNStr, Option.bind_eq_some] at h
    obtain ⟨p, hp, hrec⟩ := h
    have h1 := readI32_length_le rem p.1 p.2 hp
    have h2 := bufRead_length_le p.1 p.2
    have h3 := ih (bufRead p.1 p.2).2 rem2 hrec
    omega

theorem skipNDict_length_le (k : Nat) (rem : List Nat) (rem2 : List Nat)
    (h : skipNDict k rem = some rem2) : rem2.length ≤ rem.length := by
  induction k generalizing rem rem2 with
  | zero =>
    simp [skipNDict] at h
    simp [h]
  | succ n ih =>
    simp only [skipNDict, Option.bind_eq_some] at h
    obtain ⟨p, hp, q, hq, hrec⟩ := h
    have h1 := bufRead_length_le 4 rem
    have h2 := readI32_length_le (bufRead 4 rem).2 p.1 p.2 hp
    have h3 := bufRead_length_le p.1 p.2
    have h4 := bufRead_length_le 4 (bufRead p.1 p.2).2
    have h5 := readI32_length_le (bufRead 4 (bufRead p.1 p.2).2).2 q.1 q.2 hq
    have h6 := bufRead_length_le q.1 q.2
    have h7 := ih (bufRead q.1 q.2).2 rem2 hrec
    omega

theorem skipPayload_length_le (t : ValueType) (rem : List Nat) (rem2 : List Nat)
    (h : skipPayload t rem = some rem2) : rem2.length ≤ rem.length := by
  cases t with
  | Int32 =>
    simp only [skipPayload, Option.some_inj] at h
    subst h
    have h1 := bufRead_length_le 4 rem
    omega
  | Int64 =>
    simp only [skipPayload, Option.some_inj] at h
    subst h
    have h1 := bufRead_length_le 8 rem
    omega
  | Double =>
    simp only [skipPayload, Option.some_inj] at h
    subst h
    have h1 := bufRead_length_le 8 rem
    omega
  | Bool =>
    simp only [skipPayload, Option.some_inj] at h
    subst h
    have h1 := bufRead_length_le 1 rem
    omega
  | Nil =>
    simp only [skipPayload, Option.some_inj] at h
    subst h
    omega
  | Int32Array =>
    simp only [skipPayload, Option.map_eq_some'] at h
    obtain ⟨p, hp, heq⟩ := h
    have h1 := readI32_length_le rem p.1 p.2 hp
    have h2 := bufRead_length_le (p.1 * 4) p.2
    have : rem2.length = (bufRead (p.1 * 4) p.2).2.length := by rw [heq]
    omega
  | Int64Array =>
    simp only [skipPayload, Option.map_eq_some'] at h
    obtain ⟨p, hp, heq⟩ := h
    have h1 := readI32_length_le rem p.1 p.2 hp
    have h2 := bufRead_length_le (p.1 * 8) p.2
    have : rem2.length = (bufRead (p.1 * 8) p.2).2.length := by rw [heq]
    omega
  | String =>
    simp only [skipPayload, Option.map_eq_some'] at h
    obtain ⟨p, hp, heq⟩ := h
    have h1 := readI32_length_le rem p.1 p.2 hp
    have h2 := bufRead_length_le p.1 p.2
    have : rem2.length = (bufRead p.1 p.2).2.length := by rw [heq]
    omega
  | Bytes =>
    simp only [skipPayload, Option.map_eq_some'] at h
    obtain ⟨p, hp, heq⟩ := h
    have h1 := readI32_length_le rem p.1 p.2 hp
    have h2 := bufRead_length_le p.1 p.2
    have : rem2.length = (bufRead p.1 p.2).2.length := by rw [heq]
    omega
  | Object =>
    simp only [skipPayload, Option.map_eq_some'] at h
    obtain ⟨p, hp, heq⟩ := h
    have h1 := bufRead_length_le 4 rem
    have h2 := readI32_length_le (bufRead 4 rem).2 p.1 p.2 hp
    have h3 := bufRead_length_le p.1 p.2
    have : rem2.length = (bufRead p.1 p.2).2.length := by rw [heq]
    omega
  | ObjectArray =>
    simp only [skipPayload, Option.bind_eq_some] at h
    obtain ⟨p, hp, hrec⟩ := h
    have h1 := readI32_length_le rem p.1 p.2 hp
    have h2 := skipNObj_length_le p.1.toNat p.2 rem2 hrec
    omega
  | StringArray =>
    simp only [skipPayload, Option.bind_eq_some] at h
    obtain ⟨p, hp, hrec⟩ := h
    have h1 := readI32_length_le rem p.1 p.2 hp
    have h2 := skipNStr_length_le p.1.toNat p.2 rem2 hrec
    omega
  | BytesArray =>
    simp only [skipPayload, Option.bind_eq_some] at h
    obtain ⟨p, hp, hrec⟩ := h
    have h1 := readI32_length_le rem p.1 p.2 hp
    have h2 := skipNStr_length_le p.1.toNat p.2 rem2 hrec
    omega
  | ObjectDictionary =>
    simp only [skipPayload, Option.bind_eq_some] at h
    obtain ⟨p, hp, hrec⟩ := h
    have h1 := readI32_length_le rem p.1 p.2 hp
    have h2 := skipNDict_length_le p.1.toNat p.2 rem2 hrec
    omega

/-!
## Synthetic encoder for the TaggedStream format

There is no encoder in the source; this one follows the payload table of the
format so that "well-formed payload of shape `T`" can be expressed as "image
of the encoder".  The `int32` type hashes of object values (read and
discarded by the decoder) are emitted as `0`.
-/

/-- Concatenation of the encodings of a list of items. -/
def concatMap (f : α → List β) : List α → List β
  | [] => []
  | x :: xs => f x ++ concatMap f xs

/-- Encoding of one object item: type hash, `int32` length, raw bytes. -/
def encObjItem (d : List Nat) : List Nat :=
  intLE 4 0 ++ intLE 4 d.length ++ d

/-- Encoding of one length-prefixed string/bytes item. -/
def encStrItem (s : List Nat) : List Nat :=
  intLE 4 s.length ++ s

/-- Encoding of one dictionary pair (key object then value object). -/
def encDictPair (p : List Nat × List Nat) : List Nat :=
  encObjItem p.1 ++ encObjItem p.2

/-- The payload encoding for each tag. -/
def encPayload : PValue → List Nat
  | .int32 v => intLE 4 v
  | .int64 v => intLE 8 v
  | .bool b => [if b then 1 else 0]
  | .double bits => natLE 8 bits
  | .str s => encStrItem s
  | .object d => encObjItem d
  | .int32Array xs => intLE 4 xs.length ++ concatMap (intLE 4) xs
  | .int64Array xs => intLE 4 xs.length ++ concatMap (intLE 8) xs
  | .objectArray xs => intLE 4 xs.length ++ concatMap encObjItem xs
  | .objectDict ps => intLE 4 ps.length ++ concatMap encDictPair ps
  | .bytes bs => encStrItem bs
  | .nil => []
  | .strArray xs => intLE 4 xs.length ++ concatMap encStrItem xs
  | .bytesArray xs => intLE 4 xs.length ++ concatMap encStrItem xs

/-- The tag of a value. -/
def vtag : PValue → ValueType
  | .int32 _ => .Int32
  | .int64 _ => .Int64
  | .bool _ => .Bool
  | .double _ => .Double
  | .str _ => .String
  | .object _ => .Object
  | .int32Array _ => .Int32Array
  | .int64Array _ => .Int64Array
  | .objectArray _ => .ObjectArray
  | .objectDict _ => .ObjectDictionary
  | .bytes _ => .Bytes
  | .nil => .Nil
  | .strArray _ => .StringArray
  | .bytesArray _ => .BytesArray

/-- Full encoding of a tagged value: tag byte then payload. -/
def encValue (v : PValue) : List Nat :=
  vtToNat (vtag v) :: encPayload v

/-- Machine-representability of a value: integers in range, lengths and
counts representable as nonnegative `int32`. -/
def validVal : PValue → Bool
  | .int32 v => decide (-(2 ^ 31) ≤ v ∧ v < 2 ^ 31)
  | .int64 v => decide (-(2 ^ 63) ≤ v ∧ v < 2 ^ 63)
  | .bool _ => true
  | .double bits => decide (bits < 2 ^ 64)
  | .str s => decide (s.length < 2 ^ 31)
  | .object d => decide (d.length < 2 ^ 31)
  | .int32Array xs =>
    decide (xs.length < 2 ^ 31) && xs.all fun x => decide (-(2 ^ 31) ≤ x ∧ x < 2 ^ 31)
  | .int64Array xs =>
    decide (xs.length < 2 ^ 31) && xs.all fun x => decide (-(2 ^ 63) ≤ x ∧ x < 2 ^ 63)
  | .objectArray xs =>
    decide (xs.length < 2 ^ 31) && xs.all fun d => decide (d.length < 2 ^ 31)
  | .objectDict ps =>
    decide (ps.length < 2 ^ 31) &&
      ps.all fun p => decide (p.1.length < 2 ^ 31) && decide (p.2.length < 2 ^ 31)
  | .bytes bs => decide (bs.length < 2 ^ 31)
  | .nil => true
  | .strArray xs =>
    decide (xs.length < 2 ^ 31) && xs.all fun s => decide (s.length < 2 ^ 31)
  | .bytesArray xs =>
    decide (xs.length < 2 ^ 31) && xs.all fun s => decide (s.length < 2 ^ 31)

/-- What `_read_value` makes of a value: the identity, except that
`ObjectDictionary` contents are dropped (the decoding loop never appends to
its `items` accumulator). -/
def decImage : PValue → PValue
  | .objectDict _ => .objectDict []
  | v => v

/-!
## Reading back encoded primitives
-/

theorem readI32_intLE (v : Int) (rest : List Nat)
    (hlo : -(2 ^ 31) ≤ v) (hhi : v < 2 ^ 31) :
    readI32 (intLE 4 v ++ rest) = some (v, rest) := by
  have hlen : (intLE 4 v).length = 4 := intLE_length 4 v
  have htake : (intLE 4 v ++ rest).take 4 = intLE 4 v := List.take_left' hlen
  have hdrop : (intLE 4 v ++ rest).drop 4 = rest := List.drop_left' hlen
  have hle : 4 ≤ (intLE 4 v ++ rest).length := by
    rw [List.length_append, hlen]
    omega
  simp only [readI32, readExact, if_pos hle, Option.map_some', htake, hdrop]
  have := toSigned_intLE 4 v (by omega) (by norm_num at hlo ⊢; exact hlo)
    (by norm_num at hhi ⊢; exact hhi)
  simp only [intLE] at this ⊢
  norm_num at this ⊢
  rw [this]

theorem readI64_intLE (v : Int) (rest : List Nat)
    (hlo : -(2 ^ 63) ≤ v) (hhi : v < 2 ^ 63) :
    readI64 (intLE 8 v ++ rest) = some (v, rest) := by
  have hlen : (intLE 8 v).length = 8 := intLE_length 8 v
  have htake : (intLE 8 v ++ rest).take 8 = intLE 8 v := List.take_left' hlen
  have hdrop : (intLE 8 v ++ rest).drop 8 = rest := List.drop_left' hlen
  have hle : 8 ≤ (intLE 8 v ++ rest).length := by
    rw [List.length_append, hlen]
    omega
  simp only [readI64, readExact, if_pos hle, Option.map_some', htake, hdrop]
  have := toSigned_intLE 8 v (by omega) (by norm_num at hlo ⊢; exact hlo)
    (by norm_num at hhi ⊢; exact hhi)
  simp only [intLE] at this ⊢
  norm_num at this ⊢
  rw [this]

theorem readU8_cons (b : Nat) (rest : List Nat) :
    readU8 (b :: rest) = some (b, rest) := by
  simp [readU8, readExact, leNat]

theorem readU32_natLE (n : Nat) (rest : List Nat) (h : n < 2 ^ 32) :
    readU32 (natLE 4 n ++ rest) = some (n, rest) := by
  have hlen : (natLE 4 n).length = 4 := natLE_length 4 n
  have htake : (natLE 4 n ++ rest).take 4 = natLE 4 n := List.take_left' hlen
  have hdrop : (natLE 4 n ++ rest).drop 4 = rest := List.drop_left' hlen
  have hle : 4 ≤ (natLE 4 n ++ rest).length := by
    rw [List.length_append, hlen]
    omega
  simp only [readU32, readExact, if_pos hle, Option.map_some', htake, hdrop]
  rw [leNat_natLE 4 n (by norm_num; omega)]

theorem readDouble_natLE (n : Nat) (rest : List Nat) (h : n < 2 ^ 64) :
    readDouble (natLE 8 n ++ rest) = some (n, rest) := by
  have hlen : (natLE 8 n).length = 8 := natLE_length 8 n
  have htake : (natLE 8 n ++ rest).take 8 = natLE 8 n := List.take_left' hlen
  have hdrop : (natLE 8 n ++ rest).drop 8 = rest := List.drop_left' hlen
  have hle : 8 ≤ (natLE 8 n ++ rest).length := by
    rw [List.length_append, hlen]
    omega
  simp only [readDouble, readExact, if_pos hle, Option.map_some', htake, hdrop]
  rw [leNat_natLE 8 n (by norm_num; omega)]

theorem bufRead_exact (xs rest : List Nat) (n : Int)
    (h : n = (xs.length : Int)) : bufRead n (xs ++ rest) = (xs, rest) := by
  subst h
  have hn : ¬ ((xs.length : Int) < 0) := by omega
  have ht : (xs.length : Int).toNat = xs.length := by omega
  simp only [bufRead, if_neg hn, ht]
  rw [List.take_left' rfl, List.drop_left' rfl]

theorem readBytes_enc (s rest : List Nat) (h : s.length < 2 ^ 31) :
    readBytes (encStrItem s ++ rest) = some (s, rest) := by
  have h32 : readI32 (intLE 4 (s.length : Int) ++ (s ++ rest)) =
      some ((s.length : Int), s ++ rest) := by
    apply readI32_intLE
    · omega
    · exact_mod_cast h
  simp only [encStrItem, List.append_assoc]
  simp only [readBytes, h32, Option.map_some']
  rw [bufRead_exact s rest _ rfl]

theorem readStr_enc (s rest : List Nat) (h : s.length < 2 ^ 31) :
    readStr (encStrItem s ++ rest) = some (s, rest) :=
  readBytes_enc s rest h

theorem readShortStr_enc (k rest : List Nat) :
    readShortStr (k.length :: (k ++ rest)) = some (k, rest) := by
  simp only [readShortStr, readU8_cons, Option.map_some']
  rw [bufRead_exact k rest _ rfl]

theorem readObjItem_enc (d rest : List Nat) (h : d.length < 2 ^ 31) :
    readObjItem (encObjItem d ++ rest) = some (d, rest) := by
  have h0 : readI32 (intLE 4 0 ++ (intLE 4 (d.length : Int) ++ d ++ rest)) =
      some (0, intLE 4 (d.length : Int) ++ d ++ rest) := by
    apply readI32_intLE <;> norm_num
  have h1 : readI32 (intLE 4 (d.length : Int) ++ (d ++ rest)) =
      some ((d.length : Int), d ++ rest) := by
    apply readI32_intLE
    · omega
    · exact_mod_cast h
  simp only [encObjItem, List.append_assoc] at h0 ⊢
  simp [readObjItem, h0, h1, bufRead_exact d rest ((d.length : Nat) : Int) rfl]

/-!
## Decoding an encoded payload
-/

theorem readN32_enc (xs : List Int) (rest : List Nat)
    (hx : ∀ x ∈ xs, -(2 ^ 31) ≤ x ∧ x < 2 ^ 31) :
    readN32 xs.length (concatMap (intLE 4) xs ++ rest) = some (xs, rest) := by
  induction xs with
  | nil => simp [readN32, concatMap]
  | cons x ys ih =>
    have hx1 := hx x (by simp)
    have hys : ∀ y ∈ ys, -(2 ^ 31) ≤ y ∧ y < 2 ^ 31 := fun y hy => hx y (by simp [hy])
    simp only [concatMap, List.append_assoc, List.length_cons, readN32]
    rw [readI32_intLE x _ hx1.1 hx1.2]
    simp [ih hys]

theorem readN64_enc (xs : List Int) (rest : List Nat)
    (hx : ∀ x ∈ xs, -(2 ^ 63) ≤ x ∧ x < 2 ^ 63) :
    readN64 xs.length (concatMap (intLE 8) xs ++ rest) = some (xs, rest) := by
  induction xs with
  | nil => simp [readN64, concatMap]
  | cons x ys ih =>
    have hx1 := hx x (by simp)
    have hys : ∀ y ∈ ys, -(2 ^ 63) ≤ y ∧ y < 2 ^ 63 := fun y hy => hx y (by simp [hy])
    simp only [concatMap, List.append_assoc, List.length_cons, readN64]
    rw [readI64_intLE x _ hx1.1 hx1.2]
    simp [ih hys]

theorem readNObj_enc (xs : List (List Nat)) (rest : List Nat)
    (hx : ∀ d ∈ xs, d.length < 2 ^ 31) :
    readNObj xs.length (concatMap encObjItem xs ++ rest) = some (xs, rest) := by
  induction xs with
  | nil => simp [readNObj, concatMap]
  | cons d ys ih =>
    have hd := hx d (by simp)
    have hys : ∀ y ∈ ys, y.length < 2 ^ 31 := fun y hy => hx y (by simp [hy])
    simp only [concatMap, List.append_assoc, List.length_cons, readNObj]
    rw [readObjItem_enc d _ hd]
    simp [ih hys]

theorem readNStr_enc (xs : List (List Nat)) (rest : List Nat)
    (hx : ∀ s ∈ xs, s.length < 2 ^ 31) :
    readNStr xs.length (concatMap encStrItem xs ++ rest) = some (xs, rest) := by
  induction xs with
  | nil => simp [readNStr, concatMap]
  | cons d ys ih =>
    have hd := hx d (by simp)
    have hys : ∀ y ∈ ys, y.length < 2 ^ 31 := fun y hy => hx y (by simp [hy])
    simp only [concatMap, List.append_assoc, List.length_cons, readNStr]
    rw [readStr_enc d _ hd]
    simp [ih hys]

theorem readNBytes_enc (xs : List (List Nat)) (rest : List Nat)
    (hx : ∀ s ∈ xs, s.length < 2 ^ 31) :
    readNBytes xs.length (concatMap encStrItem xs ++ rest) = some (xs, rest) := by
  induction xs with
  | nil => simp [readNBytes, concatMap]
  | cons d ys ih =>
    have hd := hx d (by simp)
    have hys : ∀ y ∈ ys, y.length < 2 ^ 31 := fun y hy => hx y (by simp [hy])
    simp only [concatMap, List.append_assoc, List.length_cons, readNBytes]
    rw [readBytes_enc d _ hd]
    simp [ih hys]

theorem readNDict_step (p : List Nat × List Nat) (tail : List Nat) (k : Nat)
    (h1 : p.1.length < 2 ^ 31) (h2 : p.2.length < 2 ^ 31) :
    readNDict (k + 1) (encDictPair p ++ tail) = readNDict k tail := by
  have e : encDictPair p ++ tail =
      intLE 4 0 ++ (intLE 4 (p.1.length : Int) ++ (p.1 ++
        (intLE 4 0 ++ (intLE 4 (p.2.length : Int) ++ (p.2 ++ tail))))) := by
    simp [encDictPair, encObjItem, List.append_assoc]
  rw [e]
  simp only [readNDict]
  rw [readI32_intLE 0 _ (by norm_num) (by norm_num)]
  simp only [Option.some_bind]
  rw [readI32_intLE (p.1.length : Int) _ (by omega) (by exact_mod_cast h1)]
  simp only [Option.some_bind]
  rw [bufRead_exact p.1 _ ((p.1.length : Nat) : Int) rfl]
  rw [readI32_intLE 0 _ (by norm_num) (by norm_num)]
  simp only [Option.some_bind]
  rw [readI32_intLE (p.2.length : Int) _ (by omega) (by exact_mod_cast h2)]
  simp only [Option.some_bind]
  rw [bufRead_exact p.2 _ ((p.2.length : Nat) : Int) rfl]

theorem readNDict_enc (ps : List (List Nat × List Nat)) (rest : List Nat)
    (hx : ∀ p ∈ ps, p.1.length < 2 ^ 31 ∧ p.2.length < 2 ^ 31) :
    readNDict ps.length (concatMap encDictPair ps ++ rest) = some rest := by
  induction ps with
  | nil => simp [readNDict, concatMap]
  | cons p ys ih =>
    have hp := hx p (by simp)
    have hys : ∀ y ∈ ys, y.1.length < 2 ^ 31 ∧ y.2.length < 2 ^ 31 :=
      fun y hy => hx y (by simp [hy])
    simp only [concatMap, List.append_assoc, List.length_cons]
    rw [readNDict_step p _ ys.length hp.1 hp.2]
    exact ih hys

theorem readPayload_enc (v : PValue) (rest : List Nat) (hv : validVal v = true) :
    readPayload (vtag v) (encPayload v ++ rest) = some (decImage v, rest) := by
  cases v with
  | int32 x =>
    simp only [validVal, decide_eq_true_eq] at hv
    simp only [vtag, encPayload, readPayload, decImage]
    rw [readI32_intLE x rest hv.1 hv.2]
    rfl
  | int64 x =>
    simp only [validVal, decide_eq_true_eq] at hv
    simp only [vtag, encPayload, readPayload, decImage]
    rw [readI64_intLE x rest hv.1 hv.2]
    rfl
  | bool b =>
    simp only [vtag, encPayload, readPayload, decImage]
    cases b with
    | false =>
      simp only [if_neg, Bool.false_eq_true, not_false_iff, List.cons_append,
        List.nil_append]
      rw [readU8_cons]
      simp
    | true =>
      simp only [if_pos]
      rw [List.singleton_append, readU8_cons]
      simp
  | double bits =>
    simp only [validVal, decide_eq_true_eq] at hv
    simp only [vtag, encPayload, readPayload, decImage]
    rw [readDouble_natLE bits rest hv]
    rfl
  | str s =>
    simp only [validVal, decide_eq_true_eq] at hv
    simp only [vtag, encPayload, readPayload, decImage]
    rw [readStr_enc s rest hv]
    rfl
  | object d =>
    simp only [validVal, decide_eq_true_eq] at hv
    simp only [vtag, encPayload, readPayload, decImage, encObjItem, List.append_assoc]
    have h0 : readI32 (intLE 4 0 ++ (intLE 4 (d.length : Int) ++ (d ++ rest))) =
        some (0, intLE 4 (d.length : Int) ++ (d ++ rest)) := by
      apply readI32_intLE <;> norm_num
    have h1 : readI32 (intLE 4 (d.length : Int) ++ (d ++ rest)) =
        some ((d.length : Int), d ++ rest) := by
      apply readI32_intLE
      · omega
      · exact_mod_cast hv
    rw [h0]
    simp only [Option.some_bind]
    rw [h1]
    simp only [Option.map_some']
    rw [bufRead_exact d rest ((d.length : Nat) : Int) rfl]
  | int32Array xs =>
    simp only [validVal, Bool.and_eq_true, decide_eq_true_eq, List.all_eq_true] at hv
    simp only [vtag, encPayload, readPayload, decImage, List.append_assoc]
    have hc : readI32 (intLE 4 (xs.length : Int) ++ (concatMap (intLE 4) xs ++ rest)) =
        some ((xs.length : Int), concatMap (intLE 4) xs ++ rest) := by
      apply readI32_intLE
      · omega
      · exact_mod_cast hv.1
    rw [hc]
    simp only [Option.some_bind]
    have ht : ((xs.length : Int)).toNat = xs.length := by omega
    rw [ht, readN32_enc xs rest (fun x hx => by
      have := hv.2 x hx
      simpa using this)]
    rfl
  | int64Array xs =>
    simp only [validVal, Bool.and_eq_true, decide_eq_true_eq, List.all_eq_true] at hv
    simp only [vtag, encPayload, readPayload, decImage, List.append_assoc]
    have hc : readI32 (intLE 4 (xs.length : Int) ++ (concatMap (intLE 8) xs ++ rest)) =
        some ((xs.length : Int), concatMap (intLE 8) xs ++ rest) := by
      apply readI32_intLE
      · omega
      · exact_mod_cast hv.1
    rw [hc]
    simp only [Option.some_bind]
    have ht : ((xs.length : Int)).toNat = xs.length := by omega
    rw [ht, readN64_enc xs rest (fun x hx => by
      have := hv.2 x hx
      simpa using this)]
    rfl
  | objectArray xs =>
    simp only [validVal, Bool.and_eq_true, decide_eq_true_eq, List.all_eq_true] at hv
    simp only [vtag, encPayload, readPayload, decImage, List.append_assoc]
    have hc : readI32 (intLE 4 (xs.length : Int) ++ (concatMap encObjItem xs ++ rest)) =
        some ((xs.length : Int), concatMap encObjItem xs ++ rest) := by
      apply readI32_intLE
      · omega
      · exact_mod_cast hv.1
    rw [hc]
    simp only [Option.some_bind]
    have ht : ((xs.length : Int)).toNat = xs.length := by omega
    rw [ht, readNObj_enc xs rest (fun x hx => by
      have := hv.2 x hx
      simpa using this)]
    rfl
  | objectDict ps =>
    simp only [validVal, Bool.and_eq_true, decide_eq_true_eq, List.all_eq_true] at hv
    simp only [vtag, encPayload, readPayload, decImage, List.append_assoc]
    have hc : readI32 (intLE 4 (ps.length : Int) ++ (concatMap encDictPair ps ++ rest)) =
        some ((ps.length : Int), concatMap encDictPair ps ++ rest) := by
      apply readI32_intLE
      · omega
      · exact_mod_cast hv.1
    rw [hc]
    simp only [Option.some_bind]
    have ht : ((ps.length : Int)).toNat = ps.length := by omega
    rw [ht, readNDict_enc ps rest (fun p hp => by
      have := hv.2 p hp
      simp only [Bool.and_eq_true, decide_eq_true_eq] at this
      exact this)]
    rfl
  | bytes bs =>
    simp only [validVal, decide_eq_true_eq] at hv
    simp only [vtag, encPayload, readPayload, decImage]
    rw [readBytes_enc bs rest hv]
    rfl
  | nil =>
    simp [vtag, encPayload, readPayload, decImage]
  | strArray xs =>
    simp only [validVal, Bool.and_eq_true, decide_eq_true_eq, List.all_eq_true] at hv
    simp only [vtag, encPayload, readPayload, decImage, List.append_assoc]
    have hc : readI32 (intLE 4 (xs.length : Int) ++ (concatMap encStrItem xs ++ rest)) =
        some ((xs.length : Int), concatMap encStrItem xs ++ rest) := by
      apply readI32_intLE
      · omega
      · exact_mod_cast hv.1
    rw [hc]
    simp only [Option.some_bind]
    have ht : ((xs.length : Int)).toNat = xs.length := by omega
    rw [ht, readNStr_enc xs rest (fun x hx => by
      have := hv.2 x hx
      simpa using this)]
    rfl
  | bytesArray xs =>
    simp only [validVal, Bool.and_eq_true, decide_eq_true_eq, List.all_eq_true] at hv
    simp only [vtag, encPayload, readPayload, decImage, List.append_assoc]
    have hc : readI32 (intLE 4 (xs.length : Int) ++ (concatMap encStrItem xs ++ rest)) =
        some ((xs.length : Int), concatMap encStrItem xs ++ rest) := by
      apply readI32_intLE
      · omega
      · exact_mod_cast hv.1
    rw [hc]
    simp only [Option.some_bind]
    have ht : ((xs.length : Int)).toNat = xs.length := by omega
    rw [ht, readNBytes_enc xs rest (fun x hx => by
      have := hv.2 x hx
      simpa using this)]
    rfl

theorem vtOfNat_vtToNat (t : ValueType) : vtOfNat (vtToNat t) = some t := by
  cases t <;> rfl

theorem readValue_enc (v : PValue) (rest : List Nat) (hv : validVal v = true) :
    readValue (encValue v ++ rest) = some (vtag v, decImage v, rest) := by
  simp only [encValue, List.cons_append, readValue]
  rw [readU8_cons]
  simp only [Option.some_bind, vtOfNat_vtToNat]
  rw [readPayload_enc v rest hv]
  rfl

/-!
## Skipping an encoded payload
-/

theorem concatMap_intLE_length (w : Nat) (xs : List Int) :
    (concatMap (intLE w) xs).length = xs.length * w := by
  induction xs with
  | nil => simp [concatMap]
  | cons x ys ih =>
    simp [concatMap, ih]
    ring

theorem bufRead_four (rest : List Nat) :
    bufRead 4 (intLE 4 0 ++ rest) = (intLE 4 0, rest) :=
  bufRead_exact (intLE 4 0) rest 4 (by simp)

theorem skipNObj_enc (xs : List (List Nat)) (rest : List Nat)
    (hx : ∀ d ∈ xs, d.length < 2 ^ 31) :
    skipNObj xs.length (concatMap encObjItem xs ++ rest) = some rest := by
  induction xs with
  | nil => simp [skipNObj, concatMap]
  | cons d ys ih =>
    have hd := hx d (by simp)
    have hys : ∀ y ∈ ys, y.length < 2 ^ 31 := fun y hy => hx y (by simp [hy])
    simp only [concatMap, encObjItem, List.append_assoc, List.length_cons, skipNObj]
    rw [bufRead_four]
    rw [readI32_intLE (d.length : Int) _ (by omega) (by exact_mod_cast hd)]
    simp only [Option.some_bind]
    rw [bufRead_exact d _ ((d.length : Nat) : Int) rfl]
    exact ih hys

theorem skipNStr_enc (xs : List (List Nat)) (rest : List Nat)
    (hx : ∀ s ∈ xs, s.length < 2 ^ 31) :
    skipNStr xs.length (concatMap encStrItem xs ++ rest) = some rest := by
  induction xs with
  | nil => simp [skipNStr, concatMap]
  | cons d ys ih =>
    have hd := hx d (by simp)
    have hys : ∀ y ∈ ys, y.length < 2 ^ 31 := fun y hy => hx y (by simp [hy])
    simp only [concatMap, encStrItem, List.append_assoc, List.length_cons, skipNStr]
    rw [readI32_intLE (d.length : Int) _ (by omega) (by exact_mod_cast hd)]
    simp only [Option.some_bind]
    rw [bufRead_exact d _ ((d.length : Nat) : Int) rfl]
    exact ih hys

theorem skipNDict_step (p : List Nat × List Nat) (tail : List Nat) (k : Nat)
    (h1 : p.1.length < 2 ^ 31) (h2 : p.2.length < 2 ^ 31) :
    skipNDict (k + 1) (encDictPair p ++ tail) = skipNDict k tail := by
  have e : encDictPair p ++ tail =
      intLE 4 0 ++ (intLE 4 (p.1.length : Int) ++ (p.1 ++
        (intLE 4 0 ++ (intLE 4 (p.2.length : Int) ++ (p.2 ++ tail))))) := by
    simp [encDictPair, encObjItem, List.append_assoc]
  rw [e]
  simp only [skipNDict]
  rw [bufRead_four]
  rw [readI32_intLE (p.1.length : Int) _ (by omega) (by exact_mod_cast h1)]
  simp only [Option.some_bind]
  rw [bufRead_exact p.1 _ ((p.1.length : Nat) : Int) rfl]
  rw [bufRead_four]
  rw [readI32_intLE (p.2.length : Int) _ (by omega) (by exact_mod_cast h2)]
  simp only [Option.some_bind]
  rw [bufRead_exact p.2 _ ((p.2.length : Nat) : Int) rfl]

theorem skipNDict_enc (ps : List (List Nat × List Nat)) (rest : List Nat)
    (hx : ∀ p ∈ ps, p.1.length < 2 ^ 31 ∧ p.2.length < 2 ^ 31) :
    skipNDict ps.length (concatMap encDictPair ps ++ rest) = some rest := by
  induction ps with
  | nil => simp [skipNDict, concatMap]
  | cons p ys ih =>
    have hp := hx p (by simp)
    have hys : ∀ y ∈ ys, y.1.length < 2 ^ 31 ∧ y.2.length < 2 ^ 31 :=
      fun y hy => hx y (by simp [hy])
    simp only [concatMap, List.append_assoc, List.length_cons]
    rw [skipNDict_step p _ ys.length hp.1 hp.2]
    exact ih hys

/-- `_skip_value` consumes exactly the encoding of any representable value:
skipping a well-formed payload leaves precisely the bytes that follow it. -/
theorem skipPayload_enc (v : PValue) (rest : List Nat) (hv : validVal v = true) :
    skipPayload (vtag v) (encPayload v ++ rest) = some rest := by
  cases v with
  | int32 x =>
    simp only [vtag, encPayload, skipPayload]
    rw [bufRead_exact (intLE 4 x) rest 4 (by simp)]
  | int64 x =>
    simp only [vtag, encPayload, skipPayload]
    rw [bufRead_exact (intLE 8 x) rest 8 (by simp)]
  | bool b =>
    simp only [vtag, encPayload, skipPayload]
    rw [bufRead_exact [if b then 1 else 0] rest 1 (by simp)]
  | double bits =>
    simp only [vtag, encPayload, skipPayload]
    rw [bufRead_exact (natLE 8 bits) rest 8 (by simp)]
  | str s =>
    simp only [validVal, decide_eq_true_eq] at hv
    simp only [vtag, encPayload, encStrItem, List.append_assoc, skipPayload]
    rw [readI32_intLE (s.length : Int) _ (by omega) (by exact_mod_cast hv)]
    simp only [Option.map_some']
    rw [bufRead_exact s rest ((s.length : Nat) : Int) rfl]
  | bytes bs =>
    simp only [validVal, decide_eq_true_eq] at hv
    simp only [vtag, encPayload, encStrItem, List.append_assoc, skipPayload]
    rw [readI32_intLE (bs.length : Int) _ (by omega) (by exact_mod_cast hv)]
    simp only [Option.map_some']
    rw [bufRead_exact bs rest ((bs.length : Nat) : Int) rfl]
  | object d =>
    simp only [validVal, decide_eq_true_eq] at hv
    simp only [vtag, encPayload, encObjItem, List.append_assoc, skipPayload]
    rw [bufRead_four]
    rw [readI32_intLE (d.length : Int) _ (by omega) (by exact_mod_cast hv)]
    simp only [Option.map_some']
    rw [bufRead_exact d rest ((d.length : Nat) : Int) rfl]
  | nil =>
    simp [vtag, encPayload, skipPayload]
  | int32Array xs =>
    simp only [validVal, Bool.and_eq_true, decide_eq_true_eq, List.all_eq_true] at hv
    simp only [vtag, encPayload, skipPayload, List.append_assoc]
    rw [readI32_intLE (xs.length : Int) _ (by omega) (by exact_mod_cast hv.1)]
    simp only [Option.map_some']
    rw [bufRead_exact (concatMap (intLE 4) xs) rest ((xs.length : Int) * 4) (by
      rw [concatMap_intLE_length]
      push_cast
      ring)]
  | int64Array xs =>
    simp only [validVal, Bool.and_eq_true, decide_eq_true_eq, List.all_eq_true] at hv
    simp only [vtag, encPayload, skipPayload, List.append_assoc]
    rw [readI32_intLE (xs.length : Int) _ (by omega) (by exact_mod_cast hv.1)]
    simp only [Option.map_some']
    rw [bufRead_exact (concatMap (intLE 8) xs) rest ((xs.length : Int) * 8) (by
      rw [concatMap_intLE_length]
      push_cast
      ring)]
  | objectArray xs =>
    simp only [validVal, Bool.and_eq_true, decide_eq_true_eq, List.all_eq_true] at hv
    simp only [vtag, encPayload, skipPayload, List.append_assoc]
    rw [readI32_intLE (xs.length : Int) _ (by omega) (by exact_mod_cast hv.1)]
    simp only [Option.some_bind]
    have ht : ((xs.length : Int)).toNat = xs.length := by omega
    rw [ht]
    exact skipNObj_enc xs rest fun d hd => by
      have := hv.2 d hd
      simpa using this
  | strArray xs =>
    simp only [validVal, Bool.and_eq_true, decide_eq_true_eq, List.all_eq_true] at hv
    simp only [vtag, encPayload, skipPayload, List.append_assoc]
    rw [readI32_intLE (xs.length : Int) _ (by omega) (by exact_mod_cast hv.1)]
    simp only [Option.some_bind]
    have ht : ((xs.length : Int)).toNat = xs.length := by omega
    rw [ht]
    exact skipNStr_enc xs rest fun d hd => by
      have := hv.2 d hd
      simpa using this
  | bytesArray xs =>
    simp only [validVal, Bool.and_eq_true, decide_eq_true_eq, List.all_eq_true] at hv
    simp only [vtag, encPayload, skipPayload, List.append_assoc]
    rw [readI32_intLE (xs.length : Int) _ (by omega) (by exact_mod_cast hv.1)]
    simp only [Option.some_bind]
    have ht : ((xs.length : Int)).toNat = xs.length := by omega
    rw [ht]
    exact skipNStr_enc xs rest fun d hd => by
      have := hv.2 d hd
      simpa using this
  | objectDict ps =>
    simp only [validVal, Bool.and_eq_true, decide_eq_true_eq, List.all_eq_true] at hv
    simp only [vtag, encPayload, skipPayload, List.append_assoc]
    rw [readI32_intLE (ps.length : Int) _ (by omega) (by exact_mod_cast hv.1)]
    simp only [Option.some_bind]
    have ht : ((ps.length : Int)).toNat = ps.length := by omega
    rw [ht]
    exact skipNDict_enc ps rest fun p hp => by
      have := hv.2 p hp
      simp only [Bool.and_eq_true, decide_eq_true_eq] at this
      exact this

/-!
## `_PostboxDecoder.decode_all_fields` and the seek operations

The loop guard `self.reader.buf.tell() < self.size` is the nonemptiness of
the remaining suffix.  `fields[key] = value` is dictionary assignment:
an existing entry for the key is overwritten in place, otherwise the pair
is appended (`insertField`).
-/

/-- Python dict assignment on an association list. -/
def insertField (fs : List (List Nat × PValue)) (k : List Nat) (v : PValue) :
    List (List Nat × PValue) :=
  match fs with
  | [] => [(k, v)]
  | (k2, v2) :: rest =>
    if k2 = k then (k, v) :: rest else (k2, v2) :: insertField rest k v

/-- Python dict lookup on an association list (keys are unique by
construction of `insertField`). -/
def lookupField : List (List Nat × PValue) → List Nat → Option PValue
  | [], _ => none
  | (k, v) :: rest, key => if k = key then some v else lookupField rest key

/-- The loop of `_PostboxDecoder.decode_all_fields`: read a short string
key and a value per iteration, stopping (and keeping what was parsed) on
any decode error. -/
def decodeAllGo : List Nat → List (List Nat × PValue) → List (List Nat × PValue)
  | [], acc => acc
  | b :: bs, acc =>
    match hb : bufRead (b : Int) bs with
    | (key, rem1) =>
      match h : readValue rem1 with
      | none => acc
      | some (_, v, rem2) => decodeAllGo rem2 (insertField acc key v)
termination_by rem _ => rem.length
decreasing_by
  have h1 : rem1.length ≤ bs.length := by
    have hle := bufRead_length_le (b : Int) bs
    rw [hb] at hle
    exact hle
  have h2 := readValue_length_lt rem1 _ v rem2 h
  simp only [List.length_cons]
  omega

/-- `_PostboxDecoder.decode_all_fields`. -/
def decodeAllFields (data : List Nat) : List (List Nat × PValue) :=
  decodeAllGo data []

/-- The common loop of `_PostboxDecoder.get_string` / `get_int64`: scan
from the start, decode each record, return the first value whose key and
tag both match; stop with "absent" on any decode error. -/
def seekField (want : ValueType) (key : List Nat) : List Nat → Option PValue
  | [] => none
  | b :: bs =>
    match hb : bufRead (b : Int) bs with
    | (k, rem1) =>
      match h : readValue rem1 with
      | none => none
      | some (t, v, rem2) =>
        if k = key ∧ t = want then some v else seekField want key rem2
termination_by rem => rem.length
decreasing_by
  have h1 : rem1.length ≤ bs.length := by
    have hle := bufRead_length_le (b : Int) bs
    rw [hb] at hle
    exact hle
  have h2 := readValue_length_lt rem1 t v rem2 h
  simp only [List.length_cons]
  omega

/-- `_PostboxDecoder.get_string`. -/
def getString (data : List Nat) (key : List Nat) : Option PValue :=
  seekField .String key data

/-- `_PostboxDecoder.get_int64`. -/
def getInt64 (data : List Nat) (key : List Nat) : Option PValue :=
  seekField .Int64 key data

/-!
## Stream encoding: a sequence of records
-/

/-- Encoding of one `(key, value)` record: short-string key then tagged
value. -/
def encField (f : List Nat × PValue) : List Nat :=
  f.1.length :: (f.1 ++ encValue f.2)

/-- Encoding of a record sequence. -/
def encStream (fields : List (List Nat × PValue)) : List Nat :=
  concatMap encField fields

/-- Representability of one record: the key fits the `uint8` length prefix
and the value is representable. -/
def validField (f : List Nat × PValue) : Prop :=
  f.1.length < 256 ∧ validVal f.2 = true

/-!
## Scanning an encoded stream
-/

theorem decodeAllGo_encField (k : List Nat) (v : PValue) (rest : List Nat)
    (acc : List (List Nat × PValue)) (hk : k.length < 256) (hv : validVal v = true) :
    decodeAllGo (encField (k, v) ++ rest) acc =
      decodeAllGo rest (insertField acc k (decImage v)) := by
  have he : encField (k, v) ++ rest = k.length :: (k ++ (encValue v ++ rest)) := by
    simp [encField, List.append_assoc]
  rw [he, decodeAllGo]
  simp only [bufRead_exact k (encValue v ++ rest) ((k.length : Nat) : Int) rfl,
    readValue_enc v rest hv]
  rw [show (bufRead ((k.length : Nat) : Int) (k ++ (encValue v ++ rest))).2 =
      encValue v ++ rest by
    rw [bufRead_exact k (encValue v ++ rest) ((k.length : Nat) : Int) rfl]]
  rw [readValue_enc v rest hv]

theorem seekField_encField (want : ValueType) (key k : List Nat) (v : PValue)
    (rest : List Nat) (hk : k.length < 256) (hv : validVal v = true) :
    seekField want key (encField (k, v) ++ rest) =
      if k = key ∧ vtag v = want then some (decImage v)
      else seekField want key rest := by
  have he : encField (k, v) ++ rest = k.length :: (k ++ (encValue v ++ rest)) := by
    simp [encField, List.append_assoc]
  rw [he, seekField]
  simp only [bufRead_exact k (encValue v ++ rest) ((k.length : Nat) : Int) rfl,
    readValue_enc v rest hv]
  rw [show (bufRead ((k.length : Nat) : Int) (k ++ (encValue v ++ rest))).2 =
      encValue v ++ rest by
    rw [bufRead_exact k (encValue v ++ rest) ((k.length : Nat) : Int) rfl]]
  rw [readValue_enc v rest hv]

theorem lookupField_insertField_self (acc : List (List Nat × PValue))
    (k : List Nat) (v : PValue) :
    lookupField (insertField acc k v) k = some v := by
  induction acc with
  | nil => simp [insertField, lookupField]
  | cons f rest ih =>
    obtain ⟨k2, v2⟩ := f
    by_cases h : k2 = k
    · simp [insertField, h, lookupField]
    · simp [insertField, h, lookupField, ih]

theorem lookupField_insertField_ne (acc : List (List Nat × PValue))
    (k k2 : List Nat) (v : PValue) (h : k2 ≠ k) :
    lookupField (insertField acc k v) k2 = lookupField acc k2 := by
  induction acc with
  | nil =>
    simp only [insertField, lookupField]
    rw [if_neg (fun he => h he.symm)]
  | cons f rest ih =>
    obtain ⟨k3, v3⟩ := f
    by_cases h3 : k3 = k
    · subst h3
      simp only [insertField, if_pos rfl, lookupField]
      rw [if_neg (fun he : k3 = k2 => h he.symm), if_neg (fun he : k3 = k2 => h he.symm)]
    · simp only [insertField, if_neg h3, lookupField]
      by_cases h32 : k3 = k2
      · rw [if_pos h32, if_pos h32]
      · rw [if_neg h32, if_neg h32]
        exact ih

theorem lookupField_decodeAllGo_not_mem (fields : List (List Nat × PValue))
    (acc : List (List Nat × PValue)) (key : List Nat)
    (hval : ∀ f ∈ fields, validField f)
    (hmem : key ∉ fields.map (fun f => f.1)) :
    lookupField (decodeAllGo (encStream fields) acc) key = lookupField acc key := by
  induction fields generalizing acc with
  | nil => simp [encStream, concatMap, decodeAllGo]
  | cons f fs ih =>
    obtain ⟨hne, hmem2⟩ : key ≠ f.1 ∧ key ∉ fs.map (fun f => f.1) := by
      simp only [List.map_cons, List.mem_cons, not_or] at hmem
      exact hmem
    have hf := hval f (by simp)
    have hfs : ∀ g ∈ fs, validField g := fun g hg => hval g (by simp [hg])
    have he : encStream (f :: fs) = encField f ++ encStream fs := by
      simp [encStream, concatMap]
    rw [he]
    obtain ⟨k, v⟩ := f
    rw [decodeAllGo_encField k v _ acc hf.1 hf.2]
    rw [ih _ hfs hmem2]
    exact lookupField_insertField_ne acc k key (decImage v) hne

/-- Over an encoded stream with pairwise-distinct keys, a successful
`seek` (first match wins) and the full-map decode (last assignment wins)
agree. -/
theorem seek_agrees_decodeAll (fields : List (List Nat × PValue))
    (acc : List (List Nat × PValue)) (want : ValueType) (key : List Nat) (v : PValue)
    (hval : ∀ f ∈ fields, validField f)
    (hnodup : (fields.map (fun f => f.1)).Nodup)
    (hseek : seekField want key (encStream fields) = some v) :
    lookupField (decodeAllGo (encStream fields) acc) key = some v := by
  induction fields generalizing acc with
  | nil =>
    simp [encStream, concatMap, seekField] at hseek
  | cons f fs ih =>
    have hf := hval f (by simp)
    have hfs : ∀ g ∈ fs, validField g := fun g hg => hval g (by simp [hg])
    obtain ⟨hnotin, hnd⟩ : f.1 ∉ fs.map (fun g => g.1) ∧
        (fs.map (fun g => g.1)).Nodup := by
      simp only [List.map_cons, List.nodup_cons] at hnodup
      exact hnodup
    have he : encStream (f :: fs) = encField f ++ encStream fs := by
      simp [encStream, concatMap]
    rw [he] at hseek ⊢
    obtain ⟨k, v2⟩ := f
    rw [seekField_encField want key k v2 _ hf.1 hf.2] at hseek
    rw [decodeAllGo_encField k v2 _ acc hf.1 hf.2]
    by_cases hc : k = key ∧ vtag v2 = want
    · rw [if_pos hc] at hseek
      obtain ⟨rfl, -⟩ := hc
      have hv2 : v = decImage v2 := by
        injection hseek with h2
        exact h2.symm
      subst hv2
      rw [lookupField_decodeAllGo_not_mem fs _ k hfs hnotin]
      exact lookupField_insertField_self acc k (decImage v2)
    · rw [if_neg hc] at hseek
      exact ih _ hfs hnd hseek

theorem decodeAllGo_nil (acc : List (List Nat × PValue)) : decodeAllGo [] acc = acc := by
  rw [decodeAllGo]

theorem seekField_nil (want : ValueType) (key : List Nat) :
    seekField want key [] = none := by
  rw [seekField]

/-!
## Claims C1–C3: decoder round trip, skip/decode agreement, seek vs map
-/

/-- C1 counterexample: encoding a one-pair `ObjectDictionary` value and
decoding it does not return the original value — `_read_value` never
appends to its `items` accumulator, so every dictionary decodes to the
empty collection.  The claimed identity round trip fails on this tag. -/
theorem C1_counterexample :
    readValue (encValue (PValue.objectDict [([97], [98])]) ++ []) =
      some (ValueType.ObjectDictionary, PValue.objectDict [], []) ∧
    PValue.objectDict [([97], [98])] ≠ PValue.objectDict [] := by
  constructor
  · rw [readValue_enc (PValue.objectDict [([97], [98])]) [] (by decide)]
    rfl
  · decide

/-- C1 (amended): for every representable value, decoding its encoding
consumes exactly the encoding and returns `decImage` of the value; and
`decImage` is the identity for every tag except `ObjectDictionary`
(whose contents the decoder drops).  So the type-specific round trip holds
for the 13 non-dictionary tags, and for `ObjectDictionary` only the empty
dictionary survives unchanged. -/
theorem C1_round_trip (v : PValue) (rest : List Nat) (hv : validVal v = true) :
    readValue (encValue v ++ rest) = some (vtag v, decImage v, rest) ∧
    ((∀ ps, v ≠ PValue.objectDict ps) → decImage v = v) := by
  refine ⟨readValue_enc v rest hv, ?_⟩
  intro hnd
  cases v with
  | objectDict ps => exact absurd rfl (hnd ps)
  | int32 x => rfl
  | int64 x => rfl
  | bool b => rfl
  | double bits => rfl
  | str s => rfl
  | object d => rfl
  | int32Array xs => rfl
  | int64Array xs => rfl
  | objectArray xs => rfl
  | bytes bs => rfl
  | nil => rfl
  | strArray xs => rfl
  | bytesArray xs => rfl

theorem C1_round_trip_witness :
    validVal (PValue.int64 (-7)) = true ∧
    (readValue (encValue (PValue.int64 (-7)) ++ [9]) =
        some (ValueType.Int64, decImage (PValue.int64 (-7)), [9]) ∧
      ((∀ ps, PValue.int64 (-7) ≠ PValue.objectDict ps) →
        decImage (PValue.int64 (-7)) = PValue.int64 (-7))) :=
  ⟨by decide, C1_round_trip (PValue.int64 (-7)) [9] (by decide)⟩

/-- C2: for every tag and every well-formed payload of that tag (the image
of the synthetic encoder), the type-aware `_skip_value` consumes exactly
the bytes of the payload — the same suffix at which `_read_value` ends. -/
theorem C2_skip_matches_decode (v : PValue) (rest : List Nat)
    (hv : validVal v = true) :
    skipPayload (vtag v) (encPayload v ++ rest) = some rest ∧
    readPayload (vtag v) (encPayload v ++ rest) = some (decImage v, rest) :=
  ⟨skipPayload_enc v rest hv, readPayload_enc v rest hv⟩

theorem C2_skip_matches_decode_witness :
    validVal (PValue.strArray [[104, 105], [33]]) = true ∧
    (skipPayload (vtag (PValue.strArray [[104, 105], [33]]))
        (encPayload (PValue.strArray [[104, 105], [33]]) ++ [7]) = some [7] ∧
      readPayload (vtag (PValue.strArray [[104, 105], [33]]))
        (encPayload (PValue.strArray [[104, 105], [33]]) ++ [7]) =
        some (decImage (PValue.strArray [[104, 105], [33]]), [7])) :=
  ⟨by decide, C2_skip_matches_decode (PValue.strArray [[104, 105], [33]]) [7] (by decide)⟩

/-- C3 counterexample: on a stream with a duplicated key, `get_string`
(first matching occurrence wins) and `decode_all_fields` (last assignment
wins) disagree on that key, with both results defined.  The claimed
agreement fails for valid streams with duplicate keys. -/
theorem C3_counterexample :
    getString (encStream [([97], PValue.str [120]), ([97], PValue.int64 5)]) [97] =
      some (PValue.str [120]) ∧
    lookupField
      (decodeAllFields (encStream [([97], PValue.str [120]), ([97], PValue.int64 5)]))
      [97] = some (PValue.int64 5) ∧
    PValue.str [120] ≠ PValue.int64 5 := by
  have he : encStream [([97], PValue.str [120]), ([97], PValue.int64 5)] =
      encField ([97], PValue.str [120]) ++
        (encField ([97], PValue.int64 5) ++ []) := by
    simp [encStream, concatMap]
  refine ⟨?_, ?_, by decide⟩
  · rw [getString, he]
    rw [seekField_encField ValueType.String [97] [97] (PValue.str [120]) _
      (by decide) (by decide)]
    rw [if_pos (by exact ⟨rfl, rfl⟩)]
    rfl
  · rw [decodeAllFields, he]
    rw [decodeAllGo_encField [97] (PValue.str [120]) _ [] (by decide) (by decide)]
    rw [decodeAllGo_encField [97] (PValue.int64 5) [] _ (by decide) (by decide)]
    rw [decodeAllGo_nil]
    decide

/-- C3 (amended): over a valid stream whose record keys are pairwise
distinct, whenever the linear seek (`get_string` / `get_int64`) returns a
value for a key, the `decode_all_fields` map holds the same value at that
key. -/
theorem C3_seek_agrees_decode_all (fields : List (List Nat × PValue))
    (key : List Nat) (v : PValue)
    (hval : ∀ f ∈ fields, validField f)
    (hnodup : (fields.map (fun f => f.1)).Nodup) :
    (getString (encStream fields) key = some v →
      lookupField (decodeAllFields (encStream fields)) key = some v) ∧
    (getInt64 (encStream fields) key = some v →
      lookupField (decodeAllFields (encStream fields)) key = some v) :=
  ⟨fun h => seek_agrees_decodeAll fields [] ValueType.String key v hval hnodup h,
   fun h => seek_agrees_decodeAll fields [] ValueType.Int64 key v hval hnodup h⟩

theorem C3_seek_agrees_decode_all_witness :
    (∀ f ∈ [([97], PValue.str [120])], validField f) ∧
    (([([97], PValue.str [120])].map (fun f => f.1)).Nodup) ∧
    ((getString (encStream [([97], PValue.str [120])]) [97] = some (PValue.str [120]) →
        lookupField (decodeAllFields (encStream [([97], PValue.str [120])])) [97] =
          some (PValue.str [120])) ∧
      (getInt64 (encStream [([97], PValue.str [120])]) [97] = some (PValue.str [120]) →
        lookupField (decodeAllFields (encStream [([97], PValue.str [120])])) [97] =
          some (PValue.str [120]))) :=
  ⟨by
    intro f hf
    simp only [List.mem_singleton] at hf
    subst hf
    exact ⟨by decide, by decide⟩,
   by decide,
   C3_seek_agrees_decode_all [([97], PValue.str [120])] [97] (PValue.str [120])
    (by
      intro f hf
      simp only [List.mem_singleton] at hf
      subst hf
      exact ⟨by decide, by decide⟩)
    (by decide)⟩

/-!
## Message parsing (`_parse_message_key`, `_parse_fwd_info`,
`_parse_message_value`)

`IntFlag` membership (`Member in flags`) is the bit test `flags & m == m`
on the two's-complement value; for the single-bit members used here this
is `Nat.testBit` on the width-sized bit pattern.
-/

/-- The 8-bit two's-complement pattern of a signed byte value. -/
def i8bits (v : Int) : Nat := (v % 256).toNat

/-- Big-endian `read_int32` (the `>` endian of `_parse_message_key`). -/
def readI32be (rem : List Nat) : Option (Int × List Nat) :=
  (readExact 4 rem).map fun p => (toSigned 32 (beNat p.1), p.2)

/-- Big-endian `read_int64`. -/
def readI64be (rem : List Nat) : Option (Int × List Nat) :=
  (readExact 8 rem).map fun p => (toSigned 64 (beNat p.1), p.2)

/-- The four fields of a `t7` message key. -/
structure MsgKey where
  peer_id : Int
  nspace : Int
  timestamp : Int
  message_id : Int
  deriving DecidableEq, Repr

/-- The result of `_parse_message_value`. -/
structure MsgVal where
  text : List Nat
  author_id : Option Int
  incoming : Bool
  deriving DecidableEq, Repr

/-- The result of `_parse_fwd_info` when forward info is present. -/
structure FwdInfo where
  author_id : Int
  date : Int
  deriving DecidableEq, Repr

/-- `_parse_message_key`: `peerId (i64) + namespace (i32) + timestamp (i32)
+ messageId (i32)`, all big-endian.  The `EOFError` on a short key is not
caught by this function. -/
def parseMessageKey (key : List Nat) : Option MsgKey :=
  (readI64be key).bind fun p =>
    (readI32be p.2).bind fun ns =>
      (readI32be ns.2).bind fun ts =>
        (readI32be ts.2).map fun mid =>
          ⟨p.1, ns.1, ts.1, mid.1⟩

/-- `_parse_fwd_info`: flag byte `0` means no forward info and nothing
more is consumed; otherwise author and date are read and the bit-gated
optional fields are read and discarded. -/
def parseFwdInfo (rem : List Nat) : Option (Option FwdInfo × List Nat) :=
  (readI8 rem).bind fun fl =>
    if fl.1 = 0 then some (none, fl.2)
    else
      (readI64 fl.2).bind fun a =>
        (readI32 a.2).bind fun d =>
          (if Nat.testBit (i8bits fl.1) 1 then (readI64 d.2).map (fun p => p.2)
            else some d.2).bind fun r1 =>
            (if Nat.testBit (i8bits fl.1) 2 then
                (readI64 r1).bind fun x =>
                  (readI32 x.2).bind fun y => (readI32 y.2).map (fun p => p.2)
              else some r1).bind fun r2 =>
              (if Nat.testBit (i8bits fl.1) 3 then (readStr r2).map (fun p => p.2)
                else some r2).bind fun r3 =>
                (if Nat.testBit (i8bits fl.1) 4 then (readStr r3).map (fun p => p.2)
                  else some r3).bind fun r4 =>
                  (if Nat.testBit (i8bits fl.1) 5 then (readI32 r4).map (fun p => p.2)
                    else some r4).map fun r5 =>
                    (some ⟨a.1, d.1⟩, r5)

/-- `_parse_message_value`: the whole sequence is wrapped in
`try/except (EOFError, struct.error)`, so any failed fixed-width read or
length-prefix read yields `none` ("unparsable"). -/
def parseMessageValue (data : List Nat) : Option MsgVal :=
  (readI8 data).bind fun mt =>
    if mt.1 ≠ 0 then none
    else
      (readU32 mt.2).bind fun sid =>
        (readU32 sid.2).bind fun sver =>
          (readU8 sver.2).bind fun df =>
            (if Nat.testBit df.1 0 then (readI64 df.2).map (fun p => p.2)
              else some df.2).bind fun r0 =>
              (if Nat.testBit df.1 1 then (readU32 r0).map (fun p => p.2)
                else some r0).bind fun r1 =>
                (if Nat.testBit df.1 2 then (readI64 r1).map (fun p => p.2)
                  else some r1).bind fun r2 =>
                  (if Nat.testBit df.1 3 then (readU32 r2).map (fun p => p.2)
                    else some r2).bind fun r3 =>
                    (if Nat.testBit df.1 4 then (readU32 r3).map (fun p => p.2)
                      else some r3).bind fun r4 =>
                      (if Nat.testBit df.1 5 then (readI64 r4).map (fun p => p.2)
                        else some r4).bind fun r5 =>
                        (readU32 r5).bind fun flags =>
                          (readU32 flags.2).bind fun tags =>
                            (parseFwdInfo tags.2).bind fun fwd =>
                              (readI8 fwd.2).bind fun ha =>
                                (if ha.1 = 1 then
                                    (readI64 ha.2).map (fun p => (some p.1, p.2))
                                  else some (none, ha.2)).bind fun auth =>
                                  (readStr auth.2).map fun t =>
                                    ⟨t.1, auth.1, Nat.testBit flags.1 2⟩

/-- A minimal well-formed regular message: zero discriminator, no optional
fields, no forward info, no author, text "hi" (length prefix 2). -/
def msgMinimal : List Nat :=
  [0, 0, 0, 0, 0, 0, 0, 0, 0, 0, 0, 0, 0, 0, 0, 0, 0, 0, 0, 0, 2, 0, 0, 0, 104, 105]

/-- The text bytes of `msgMinimal`. -/
def msgText : List Nat := [104, 105]

/-!
## Claim C4: message parser error behavior
-/

/-- C4 counterexample: a buffer that ends prematurely inside the text
string body (its `int32` length prefix declares 10 bytes but only 2
follow) is not "unparsable": `buf.read` silently returns the short read
and the parser returns a partial record with the truncated text.
Extending the same buffer changes the parsed text, confirming the declared
length was never satisfied. -/
theorem C4_counterexample :
    parseMessageValue
      [0, 0, 0, 0, 0, 0, 0, 0, 0, 0, 0, 0, 0, 0, 0, 0, 0, 0, 0, 0, 10, 0, 0, 0,
        104, 105] = some ⟨[104, 105], none, false⟩ ∧
    parseMessageValue
      ([0, 0, 0, 0, 0, 0, 0, 0, 0, 0, 0, 0, 0, 0, 0, 0, 0, 0, 0, 0, 10, 0, 0, 0,
        104, 105] ++ [33, 33, 33, 33, 33, 33, 33, 33]) =
      some ⟨[104, 105, 33, 33, 33, 33, 33, 33, 33, 33], none, false⟩ := by
  constructor
  · decide
  · decide

/-!
### Truncation behavior of every read in the parse sequence

The following lemmas characterize each reader on every truncation
`rem.take k` of a buffer it succeeds on: a fixed-width read or a length
prefix either completes identically or fails (`EOFError`, hence
"unparsable"), while a `buf.read` body read silently shortens.  They
compose into a full characterization of `_parse_message_value` on
arbitrary truncated buffers, covering every presence-bit combination,
the forward-info block and the author block.
-/

theorem readExact_take (s : Nat) (rem : List Nat) (hs : s ≤ rem.length)
    (k : Nat) :
    readExact s (rem.take k) =
      if s ≤ k then some (rem.take s, (rem.drop s).take (k - s)) else none := by
  by_cases hk : s ≤ k
  · rw [if_pos hk, readExact, if_pos (by rw [List.length_take]; omega)]
    rw [List.take_take, Nat.min_eq_left hk, List.drop_take]
  · rw [if_neg hk, readExact, if_neg (by rw [List.length_take]; omega)]

theorem readMapF_take {α : Type} (s : Nat) (f : List Nat → α) (rem : List Nat)
    (v : α) (rem2 : List Nat)
    (h : (readExact s rem).map (fun p => (f p.1, p.2)) = some (v, rem2)) :
    rem2 = rem.drop s ∧ s ≤ rem.length ∧
    ∀ k, (readExact s (rem.take k)).map (fun p => (f p.1, p.2)) =
      if s ≤ k then some (v, (rem.drop s).take (k - s)) else none := by
  rcases Option.map_eq_some'.1 h with ⟨p, hp, he⟩
  obtain ⟨c, r3⟩ := p
  rcases readExact_eq s rem c r3 hp with ⟨hc, hr3, hs⟩
  injection he with he1 he2
  refine ⟨by rw [← he2, hr3], hs, fun k => ?_⟩
  rw [readExact_take s rem hs k]
  by_cases hk : s ≤ k
  · rw [if_pos hk, if_pos hk, Option.map_some']
    rw [← he1, hc]
  · rw [if_neg hk, if_neg hk, Option.map_none']

theorem readI8_take (rem : List Nat) (v : Int) (rem2 : List Nat)
    (h : readI8 rem = some (v, rem2)) :
    rem2 = rem.drop 1 ∧ 1 ≤ rem.length ∧
    ∀ k, readI8 (rem.take k) =
      if 1 ≤ k then some (v, (rem.drop 1).take (k - 1)) else none := by
  rw [readI8] at h
  have hg := readMapF_take 1 (fun c => toSigned 8 (leNat c)) rem v rem2 h
  exact ⟨hg.1, hg.2.1, fun k => by rw [readI8]; exact hg.2.2 k⟩

theorem readU8_take (rem : List Nat) (v : Nat) (rem2 : List Nat)
    (h : readU8 rem = some (v, rem2)) :
    rem2 = rem.drop 1 ∧ 1 ≤ rem.length ∧
    ∀ k, readU8 (rem.take k) =
      if 1 ≤ k then some (v, (rem.drop 1).take (k - 1)) else none := by
  rw [readU8] at h
  have hg := readMapF_take 1 (fun c => leNat c) rem v rem2 h
  exact ⟨hg.1, hg.2.1, fun k => by rw [readU8]; exact hg.2.2 k⟩

theorem readU32_take (rem : List Nat) (v : Nat) (rem2 : List Nat)
    (h : readU32 rem = some (v, rem2)) :
    rem2 = rem.drop 4 ∧ 4 ≤ rem.length ∧
    ∀ k, readU32 (rem.take k) =
      if 4 ≤ k then some (v, (rem.drop 4).take (k - 4)) else none := by
  rw [readU32] at h
  have hg := readMapF_take 4 (fun c => leNat c) rem v rem2 h
  exact ⟨hg.1, hg.2.1, fun k => by rw [readU32]; exact hg.2.2 k⟩

theorem readI32_take (rem : List Nat) (v : Int) (rem2 : List Nat)
    (h : readI32 rem = some (v, rem2)) :
    rem2 = rem.drop 4 ∧ 4 ≤ rem.length ∧
    ∀ k, readI32 (rem.take k) =
      if 4 ≤ k then some (v, (rem.drop 4).take (k - 4)) else none := by
  rw [readI32] at h
  have hg := readMapF_take 4 (fun c => toSigned 32 (leNat c)) rem v rem2 h
  exact ⟨hg.1, hg.2.1, fun k => by rw [readI32]; exact hg.2.2 k⟩

theorem readI64_take (rem : List Nat) (v : Int) (rem2 : List Nat)
    (h : readI64 rem = some (v, rem2)) :
    rem2 = rem.drop 8 ∧ 8 ≤ rem.length ∧
    ∀ k, readI64 (rem.take k) =
      if 8 ≤ k then some (v, (rem.drop 8).take (k - 8)) else none := by
  rw [readI64] at h
  have hg := readMapF_take 8 (fun c => toSigned 64 (leNat c)) rem v rem2 h
  exact ⟨hg.1, hg.2.1, fun k => by rw [readI64]; exact hg.2.2 k⟩

theorem skip64_take (c : Prop) [Decidable c] (rem r2 : List Nat)
    (h : (if c then (readI64 rem).map (fun p => p.2) else some rem) = some r2) :
    ∃ d, r2 = rem.drop d ∧ d ≤ rem.length ∧
      ∀ k, (if c then (readI64 (rem.take k)).map (fun p => p.2)
          else some (rem.take k)) =
        if d ≤ k then some ((rem.drop d).take (k - d)) else none := by
  by_cases hc : c
  · rw [if_pos hc] at h
    rcases Option.map_eq_some'.1 h with ⟨⟨v, r3⟩, hv, he⟩
    rcases readI64_take rem v r3 hv with ⟨h1, h2, h3⟩
    refine ⟨8, by rw [← he]; exact h1, h2, fun k => ?_⟩
    rw [if_pos hc, h3 k]
    by_cases hk : 8 ≤ k
    · rw [if_pos hk, if_pos hk, Option.map_some']
    · rw [if_neg hk, if_neg hk, Option.map_none']
  · rw [if_neg hc] at h
    injection h with h2
    refine ⟨0, by rw [← h2, List.drop_zero], Nat.zero_le _, fun k => ?_⟩
    rw [if_neg hc, if_pos (Nat.zero_le k), List.drop_zero, Nat.sub_zero]

theorem skipU32_take (c : Prop) [Decidable c] (rem r2 : List Nat)
    (h : (if c then (readU32 rem).map (fun p => p.2) else some rem) = some r2) :
    ∃ d, r2 = rem.drop d ∧ d ≤ rem.length ∧
      ∀ k, (if c then (readU32 (rem.take k)).map (fun p => p.2)
          else some (rem.take k)) =
        if d ≤ k then some ((rem.drop d).take (k - d)) else none := by
  by_cases hc : c
  · rw [if_pos hc] at h
    rcases Option.map_eq_some'.1 h with ⟨⟨v, r3⟩, hv, he⟩
    rcases readU32_take rem v r3 hv with ⟨h1, h2, h3⟩
    refine ⟨4, by rw [← he]; exact h1, h2, fun k => ?_⟩
    rw [if_pos hc, h3 k]
    by_cases hk : 4 ≤ k
    · rw [if_pos hk, if_pos hk, Option.map_some']
    · rw [if_neg hk, if_neg hk, Option.map_none']
  · rw [if_neg hc] at h
    injection h with h2
    refine ⟨0, by rw [← h2, List.drop_zero], Nat.zero_le _, fun k => ?_⟩
    rw [if_neg hc, if_pos (Nat.zero_le k), List.drop_zero, Nat.sub_zero]

theorem skip32_take (c : Prop) [Decidable c] (rem r2 : List Nat)
    (h : (if c then (readI32 rem).map (fun p => p.2) else some rem) = some r2) :
    ∃ d, r2 = rem.drop d ∧ d ≤ rem.length ∧
      ∀ k, (if c then (readI32 (rem.take k)).map (fun p => p.2)
          else some (rem.take k)) =
        if d ≤ k then some ((rem.drop d).take (k - d)) else none := by
  by_cases hc : c
  · rw [if_pos hc] at h
    rcases Option.map_eq_some'.1 h with ⟨⟨v, r3⟩, hv, he⟩
    rcases readI32_take rem v r3 hv with ⟨h1, h2, h3⟩
    refine ⟨4, by rw [← he]; exact h1, h2, fun k => ?_⟩
    rw [if_pos hc, h3 k]
    by_cases hk : 4 ≤ k
    · rw [if_pos hk, if_pos hk, Option.map_some']
    · rw [if_neg hk, if_neg hk, Option.map_none']
  · rw [if_neg hc] at h
    injection h with h2
    refine ⟨0, by rw [← h2, List.drop_zero], Nat.zero_le _, fun k => ?_⟩
    rw [if_neg hc, if_pos (Nat.zero_le k), List.drop_zero, Nat.sub_zero]

theorem skipTriple_take (c : Prop) [Decidable c] (rem r2 : List Nat)
    (h : (if c then
        (readI64 rem).bind fun x =>
          (readI32 x.2).bind fun y => (readI32 y.2).map (fun p => p.2)
      else some rem) = some r2) :
    ∃ d, r2 = rem.drop d ∧ d ≤ rem.length ∧
      ∀ k, (if c then
          (readI64 (rem.take k)).bind fun x =>
            (readI32 x.2).bind fun y => (readI32 y.2).map (fun p => p.2)
        else some (rem.take k)) =
        if d ≤ k then some ((rem.drop d).take (k - d)) else none := by
  by_cases hc : c
  · rw [if_pos hc] at h
    rcases Option.bind_eq_some.1 h with ⟨⟨x, rx⟩, hx, h⟩
    rcases readI64_take rem x rx hx with ⟨hrx, hlx, hcx⟩
    rcases Option.bind_eq_some.1 h with ⟨⟨y, ry⟩, hy, h⟩
    rcases readI32_take rx y ry hy with ⟨hry, hly, hcy⟩
    rcases Option.map_eq_some'.1 h with ⟨⟨z, rz⟩, hz, he⟩
    rcases readI32_take ry z rz hz with ⟨hrz, hlz, hcz⟩
    have hd : r2 = rem.drop 16 := by
      rw [← he]
      show rz = rem.drop 16
      rw [hrz, hry, hrx]
      simp only [List.drop_drop]
    have hdl : 16 ≤ rem.length := by
      have e1 : rx.length = rem.length - 8 := by rw [hrx, List.length_drop]
      have e2 : ry.length = rx.length - 4 := by rw [hry, List.length_drop]
      omega
    refine ⟨16, hd, hdl, fun k => ?_⟩
    rw [if_pos hc, hcx k]
    by_cases hk8 : 8 ≤ k
    · rw [if_pos hk8, Option.some_bind]
      rw [show (rem.drop 8).take (k - 8) = rx.take (k - 8) by rw [hrx]]
      rw [hcy (k - 8)]
      by_cases hk12 : 12 ≤ k
      · rw [if_pos (by omega : 4 ≤ k - 8), Option.some_bind]
        rw [show (rx.drop 4).take (k - 8 - 4) = ry.take (k - 8 - 4) by rw [hry]]
        rw [hcz (k - 8 - 4)]
        by_cases hk16 : 16 ≤ k
        · rw [if_pos (by omega : 4 ≤ k - 8 - 4), Option.map_some',
            if_pos hk16]
          have e3 : ry.drop 4 = rem.drop 16 := by
            rw [hry, hrx]
            simp only [List.drop_drop]
          have e4 : k - 8 - 4 - 4 = k - 16 := by omega
          rw [e3, e4]
        · rw [if_neg (by omega : ¬ 4 ≤ k - 8 - 4), Option.map_none',
            if_neg hk16]
      · rw [if_neg (by omega : ¬ 4 ≤ k - 8), Option.none_bind,
          if_neg (by omega : ¬ 16 ≤ k)]
    · rw [if_neg hk8, Option.none_bind, if_neg (by omega : ¬ 16 ≤ k)]
  · rw [if_neg hc] at h
    injection h with h2
    refine ⟨0, by rw [← h2, List.drop_zero], Nat.zero_le _, fun k => ?_⟩
    rw [if_neg hc, if_pos (Nat.zero_le k), List.drop_zero, Nat.sub_zero]

theorem skipStr_take (c : Prop) [Decidable c] (rem r2 : List Nat)
    (h : (if c then (readStr rem).map (fun p => p.2) else some rem) = some r2)
    (hne : r2 ≠ []) :
    ∃ d, r2 = rem.drop d ∧ d ≤ rem.length ∧
      ∀ k, (d ≤ k → (if c then (readStr (rem.take k)).map (fun p => p.2)
            else some (rem.take k)) = some ((rem.drop d).take (k - d))) ∧
        (k < d → (if c then (readStr (rem.take k)).map (fun p => p.2)
            else some (rem.take k)) = none ∨
          (if c then (readStr (rem.take k)).map (fun p => p.2)
            else some (rem.take k)) = some []) := by
  by_cases hc : c
  · rw [if_pos hc] at h
    rcases Option.map_eq_some'.1 h with ⟨⟨t, r3⟩, ht, he⟩
    rw [readStr, readBytes] at ht
    rcases Option.map_eq_some'.1 ht with ⟨⟨len, r4⟩, hl, hb⟩
    rcases readI32_take rem len r4 hl with ⟨hr4, hl4, hc4⟩
    have hr2 : r3 = r2 := by rw [← he]
    subst hr4
    by_cases hneg : len < 0
    · rw [bufRead, if_pos hneg] at hb
      injection hb with hb1 hb2
      exact absurd (by rw [← hr2, ← hb2]) hne
    · rw [bufRead, if_neg hneg] at hb
      injection hb with hb1 hb2
      have hr2d : r2 = (rem.drop 4).drop len.toNat := by
        rw [← hr2, ← hb2]
      have hlt : len.toNat < (rem.drop 4).length := by
        by_contra hcon
        exact hne (by rw [hr2d]; exact List.drop_eq_nil_iff.2 (by omega))
      have hlen4 : (rem.drop 4).length = rem.length - 4 := List.length_drop 4 rem
      refine ⟨4 + len.toNat, by rw [hr2d, List.drop_drop], by omega,
        fun k => ⟨fun hk => ?_, fun hk => ?_⟩⟩
      · rw [if_pos hc, readStr, readBytes, hc4 k,
          if_pos (by omega : 4 ≤ k)]
        simp only [Option.map_some']
        rw [bufRead, if_neg hneg, List.drop_take, List.drop_drop,
          show k - 4 - len.toNat = k - (4 + len.toNat) from by omega]
      · by_cases hk4 : 4 ≤ k
        · refine Or.inr ?_
          rw [if_pos hc, readStr, readBytes, hc4 k, if_pos hk4]
          simp only [Option.map_some']
          rw [bufRead, if_neg hneg,
            show ((rem.drop 4).take (k - 4)).drop len.toNat = [] from
              List.drop_eq_nil_iff.2 (by rw [List.length_take]; omega)]
        · refine Or.inl ?_
          rw [if_pos hc, readStr, readBytes, hc4 k, if_neg hk4]
          simp only [Option.map_none']
  · rw [if_neg hc] at h
    injection h with h2
    refine ⟨0, by rw [← h2, List.drop_zero], Nat.zero_le _,
      fun k => ⟨fun hk => ?_, fun hk => ?_⟩⟩
    · rw [if_neg hc, List.drop_zero, Nat.sub_zero]
    · exact absurd hk (by omega)

theorem authKeep_take (c : Prop) [Decidable c] (rem : List Nat) (a : Option Int)
    (r2 : List Nat)
    (h : (if c then (readI64 rem).map (fun p => (some p.1, p.2))
        else some (none, rem)) = some (a, r2)) :
    ∃ d, r2 = rem.drop d ∧ d ≤ rem.length ∧
      ∀ k, (if c then (readI64 (rem.take k)).map (fun p => (some p.1, p.2))
          else some (none, rem.take k)) =
        if d ≤ k then some (a, (rem.drop d).take (k - d)) else none := by
  by_cases hc : c
  · rw [if_pos hc] at h
    rcases Option.map_eq_some'.1 h with ⟨⟨v, r3⟩, hv, he⟩
    injection he with he1 he2
    rcases readI64_take rem v r3 hv with ⟨h1, h2, h3⟩
    refine ⟨8, by rw [← he2]; exact h1, h2, fun k => ?_⟩
    rw [if_pos hc, h3 k]
    by_cases hk : 8 ≤ k
    · rw [if_pos hk, if_pos hk, Option.map_some', ← he1]
    · rw [if_neg hk, if_neg hk, Option.map_none']
  · rw [if_neg hc] at h
    injection h with h2
    injection h2 with ha hr
    refine ⟨0, by rw [← hr, List.drop_zero], Nat.zero_le _, fun k => ?_⟩
    rw [if_neg hc, if_pos (Nat.zero_le k), List.drop_zero, Nat.sub_zero, ← ha]

/-- Truncation behavior of the whole forward-info block on a buffer it
succeeds on (with bytes left over): a truncation strictly inside the block
yields `EOFError` (`none`) — or, when it lands inside one of the block's
length-prefixed string bodies, a silently completed block with the buffer
exhausted — and a truncation at or past the block's end replays it
identically. -/
theorem parseFwdInfo_take (rem : List Nat) (ofi : Option FwdInfo)
    (rem2 : List Nat) (h : parseFwdInfo rem = some (ofi, rem2))
    (hne : rem2 ≠ []) :
    ∃ c, rem2 = rem.drop c ∧ c ≤ rem.length ∧ 1 ≤ c ∧
      ∀ k, (c ≤ k → parseFwdInfo (rem.take k) =
          some (ofi, rem2.take (k - c))) ∧
        (k < c → parseFwdInfo (rem.take k) = none ∨
          parseFwdInfo (rem.take k) = some (ofi, [])) := by
  rw [parseFwdInfo] at h
  rcases Option.bind_eq_some.1 h with ⟨⟨flv, s1⟩, hfl, h⟩
  simp only [] at h
  rcases readI8_take rem flv s1 hfl with ⟨hs1, hL1, hC1⟩
  by_cases hfl0 : flv = 0
  · rw [if_pos hfl0] at h
    injection h with h2
    injection h2 with ho hr
    refine ⟨1, by rw [← hr]; exact hs1, hL1, le_refl 1,
      fun k => ⟨fun hk => ?_, fun hk => ?_⟩⟩
    · rw [parseFwdInfo, hC1 k, if_pos hk, Option.some_bind]
      simp only []
      rw [if_pos hfl0, ← ho, ← hr, hs1]
    · left
      rw [parseFwdInfo, hC1 k, if_neg (by omega), Option.none_bind]
  · rw [if_neg hfl0] at h
    rcases Option.bind_eq_some.1 h with ⟨⟨av, s2⟩, hav, h⟩
    simp only [] at h
    rcases readI64_take s1 av s2 hav with ⟨hs2, hL2, hC2⟩
    rcases Option.bind_eq_some.1 h with ⟨⟨dv, s3⟩, hdv, h⟩
    simp only [] at h
    rcases readI32_take s2 dv s3 hdv with ⟨hs3, hL3, hC3⟩
    rcases Option.bind_eq_some.1 h with ⟨r1, hr1, h⟩
    rcases skip64_take _ s3 r1 hr1 with ⟨d1, he1, hL4, hC4⟩
    rcases Option.bind_eq_some.1 h with ⟨r2, hr2, h⟩
    rcases skipTriple_take _ r1 r2 hr2 with ⟨d2, he2, hL5, hC5⟩
    rcases Option.bind_eq_some.1 h with ⟨r3, hr3, h⟩
    rcases Option.bind_eq_some.1 h with ⟨r4, hr4, h⟩
    rcases Option.map_eq_some'.1 h with ⟨r5, hr5, hfin⟩
    have hfin2 : ((some ⟨av, dv⟩ : Option FwdInfo), r5) = (ofi, rem2) := hfin
    injection hfin2 with ho hr5e
    rcases skip32_take _ r4 r5 hr5 with ⟨d5, he5, hL8, hC8⟩
    have hne4 : r4 ≠ [] := by
      intro hc4e
      exact hne (by rw [← hr5e, he5, hc4e, List.drop_nil])
    rcases skipStr_take _ r3 r4 hr4 hne4 with ⟨d4, he4, hL7, hC7⟩
    have hne3 : r3 ≠ [] := by
      intro hc3e
      exact hne4 (by rw [he4, hc3e, List.drop_nil])
    rcases skipStr_take _ r2 r3 hr3 hne3 with ⟨d3, he3, hL6, hC6⟩
    have hglob : rem2 = rem.drop (1 + 8 + 4 + d1 + d2 + d3 + d4 + d5) := by
      rw [← hr5e, he5, he4, he3, he2, he1, hs3, hs2, hs1]
      simp only [List.drop_drop]
    have e1 : s1.length = rem.length - 1 := by rw [hs1, List.length_drop]
    have e2 : s2.length = s1.length - 8 := by rw [hs2, List.length_drop]
    have e3 : s3.length = s2.length - 4 := by rw [hs3, List.length_drop]
    have e4 : r1.length = s3.length - d1 := by rw [he1, List.length_drop]
    have e5 : r2.length = r1.length - d2 := by rw [he2, List.length_drop]
    have e6 : r3.length = r2.length - d3 := by rw [he3, List.length_drop]
    have e7 : r4.length = r3.length - d4 := by rw [he4, List.length_drop]
    have haux : ∀ k,
        (k < 1 + 8 + 4 + d1 + d2 + d3 + d4 + d5 ∧
          (parseFwdInfo (rem.take k) = none ∨
            parseFwdInfo (rem.take k) = some (ofi, []))) ∨
        parseFwdInfo (rem.take k) =
          some (ofi, rem2.take (k - (1 + 8 + 4 + d1 + d2 + d3 + d4 + d5))) := by
      intro k
      rw [parseFwdInfo, hC1 k]
      by_cases hk1 : 1 ≤ k
      case neg =>
        rw [if_neg hk1, Option.none_bind]
        exact Or.inl ⟨by omega, Or.inl rfl⟩
      case pos =>
      rw [if_pos hk1, Option.some_bind]
      simp only []
      rw [if_neg hfl0,
        show (rem.drop 1).take (k - 1) = s1.take (k - 1) from by rw [hs1],
        hC2 (k - 1)]
      by_cases hk2 : 8 ≤ k - 1
      case neg =>
        rw [if_neg hk2, Option.none_bind]
        exact Or.inl ⟨by omega, Or.inl rfl⟩
      case pos =>
      rw [if_pos hk2, Option.some_bind]
      simp only []
      rw [show (s1.drop 8).take (k - 1 - 8) = s2.take (k - 1 - 8) from
          by rw [hs2],
        hC3 (k - 1 - 8)]
      by_cases hk3 : 4 ≤ k - 1 - 8
      case neg =>
        rw [if_neg hk3, Option.none_bind]
        exact Or.inl ⟨by omega, Or.inl rfl⟩
      case pos =>
      rw [if_pos hk3, Option.some_bind]
      simp only []
      rw [show (s2.drop 4).take (k - 1 - 8 - 4) = s3.take (k - 1 - 8 - 4) from
          by rw [hs3],
        hC4 (k - 1 - 8 - 4)]
      by_cases hk4 : d1 ≤ k - 1 - 8 - 4
      case neg =>
        rw [if_neg hk4, Option.none_bind]
        exact Or.inl ⟨by omega, Or.inl rfl⟩
      case pos =>
      rw [if_pos hk4, Option.some_bind]
      rw [show (s3.drop d1).take (k - 1 - 8 - 4 - d1) =
            r1.take (k - 1 - 8 - 4 - d1) from by rw [he1],
        hC5 (k - 1 - 8 - 4 - d1)]
      by_cases hk5 : d2 ≤ k - 1 - 8 - 4 - d1
      case neg =>
        rw [if_neg hk5, Option.none_bind]
        exact Or.inl ⟨by omega, Or.inl rfl⟩
      case pos =>
      rw [if_pos hk5, Option.some_bind]
      rw [show (r1.drop d2).take (k - 1 - 8 - 4 - d1 - d2) =
            r2.take (k - 1 - 8 - 4 - d1 - d2) from by rw [he2]]
      by_cases hk6 : d3 ≤ k - 1 - 8 - 4 - d1 - d2
      case pos =>
        rw [(hC6 (k - 1 - 8 - 4 - d1 - d2)).1 hk6, Option.some_bind]
        rw [show (r2.drop d3).take (k - 1 - 8 - 4 - d1 - d2 - d3) =
              r3.take (k - 1 - 8 - 4 - d1 - d2 - d3) from by rw [he3]]
        by_cases hk7 : d4 ≤ k - 1 - 8 - 4 - d1 - d2 - d3
        case pos =>
          rw [(hC7 (k - 1 - 8 - 4 - d1 - d2 - d3)).1 hk7, Option.some_bind]
          rw [show (r3.drop d4).take (k - 1 - 8 - 4 - d1 - d2 - d3 - d4) =
                r4.take (k - 1 - 8 - 4 - d1 - d2 - d3 - d4) from by rw [he4],
            hC8 (k - 1 - 8 - 4 - d1 - d2 - d3 - d4)]
          by_cases hk8 : d5 ≤ k - 1 - 8 - 4 - d1 - d2 - d3 - d4
          case pos =>
            rw [if_pos hk8, Option.map_some']
            refine Or.inr ?_
            rw [show (r4.drop d5).take (k - 1 - 8 - 4 - d1 - d2 - d3 - d4 - d5) =
                  rem2.take (k - 1 - 8 - 4 - d1 - d2 - d3 - d4 - d5) from
                by rw [← he5, hr5e],
              show k - 1 - 8 - 4 - d1 - d2 - d3 - d4 - d5 =
                  k - (1 + 8 + 4 + d1 + d2 + d3 + d4 + d5) from by omega,
              ← ho]
          case neg =>
            rw [if_neg hk8, Option.map_none']
            exact Or.inl ⟨by omega, Or.inl rfl⟩
        case neg =>
          rcases (hC7 (k - 1 - 8 - 4 - d1 - d2 - d3)).2 (by omega) with hn | hesc
          · rw [hn, Option.none_bind]
            exact Or.inl ⟨by omega, Or.inl rfl⟩
          · rw [hesc, Option.some_bind]
            by_cases hb5 : Nat.testBit (i8bits flv) 5 = true
            · rw [if_pos hb5,
                show readI32 ([] : List Nat) = none from rfl,
                Option.map_none', Option.map_none']
              exact Or.inl ⟨by omega, Or.inl rfl⟩
            · rw [if_neg hb5, Option.map_some']
              exact Or.inl ⟨by omega, Or.inr (by rw [← ho])⟩
      case neg =>
        rcases (hC6 (k - 1 - 8 - 4 - d1 - d2)).2 (by omega) with hn | hesc
        · rw [hn, Option.none_bind]
          exact Or.inl ⟨by omega, Or.inl rfl⟩
        · rw [hesc, Option.some_bind]
          by_cases hb4 : Nat.testBit (i8bits flv) 4 = true
          · rw [if_pos hb4,
              show readStr ([] : List Nat) = none from rfl,
              Option.map_none', Option.none_bind]
            exact Or.inl ⟨by omega, Or.inl rfl⟩
          · rw [if_neg hb4, Option.some_bind]
            by_cases hb5 : Nat.testBit (i8bits flv) 5 = true
            · rw [if_pos hb5,
                show readI32 ([] : List Nat) = none from rfl,
                Option.map_none', Option.map_none']
              exact Or.inl ⟨by omega, Or.inl rfl⟩
            · rw [if_neg hb5, Option.map_some']
              exact Or.inl ⟨by omega, Or.inr (by rw [← ho])⟩
    refine ⟨1 + 8 + 4 + d1 + d2 + d3 + d4 + d5, hglob, by omega, by omega,
      fun k => ⟨fun hk => ?_, fun hk => ?_⟩⟩
    · rcases haux k with ⟨hlt, _⟩ | heq
      · exact absurd hk (by omega)
      · exact heq
    · rcases haux k with ⟨_, hres⟩ | heq
      · exact hres
      · refine Or.inr ?_
        rw [show k - (1 + 8 + 4 + d1 + d2 + d3 + d4 + d5) = 0 from by omega,
          List.take_zero] at heq
        exact heq

/-- Truncation behavior of `_parse_message_value` on any buffer it parses
successfully: there is a cut offset `c` — the end of the text length
prefix — such that every truncation strictly before `c` is "unparsable"
(`none`, never a raised error or a partial record), and every truncation
at or past `c` yields the same record with correspondingly truncated
text.  The proof walks every read of the documented sequence, covering
every presence-bit combination, the forward-info block and the author
block the buffer exercises. -/
theorem parseMessageValue_take (data : List Nat) (m : MsgVal)
    (h : parseMessageValue data = some m) :
    ∃ c, c ≤ data.length ∧
      (∀ k, k < c → parseMessageValue (data.take k) = none) ∧
      (∀ k, c ≤ k → parseMessageValue (data.take k) =
        some ⟨m.text.take (k - c), m.author_id, m.incoming⟩) := by
  rw [parseMessageValue] at h
  rcases Option.bind_eq_some.1 h with ⟨⟨mtv, s1⟩, hmt, h⟩
  simp only [] at h
  rcases readI8_take data mtv s1 hmt with ⟨hs1, hL1, hC1⟩
  by_cases hmt0 : mtv ≠ 0
  · rw [if_pos hmt0] at h
    exact absurd h (by simp)
  · rw [if_neg hmt0] at h
    rcases Option.bind_eq_some.1 h with ⟨⟨sidv, s2⟩, hsid, h⟩
    simp only [] at h
    rcases readU32_take s1 sidv s2 hsid with ⟨hs2, hL2, hC2⟩
    rcases Option.bind_eq_some.1 h with ⟨⟨sverv, s3⟩, hsver, h⟩
    simp only [] at h
    rcases readU32_take s2 sverv s3 hsver with ⟨hs3, hL3, hC3⟩
    rcases Option.bind_eq_some.1 h with ⟨⟨dfv, s4⟩, hdf, h⟩
    simp only [] at h
    rcases readU8_take s3 dfv s4 hdf with ⟨hs4, hL4, hC4⟩
    rcases Option.bind_eq_some.1 h with ⟨q0, hq0, h⟩
    rcases skip64_take _ s4 q0 hq0 with ⟨b0, hf0, hL5, hC5⟩
    rcases Option.bind_eq_some.1 h with ⟨q1, hq1, h⟩
    rcases skipU32_take _ q0 q1 hq1 with ⟨b1, hf1, hL6, hC6⟩
    rcases Option.bind_eq_some.1 h with ⟨q2, hq2, h⟩
    rcases skip64_take _ q1 q2 hq2 with ⟨b2, hf2, hL7, hC7⟩
    rcases Option.bind_eq_some.1 h with ⟨q3, hq3, h⟩
    rcases skipU32_take _ q2 q3 hq3 with ⟨b3, hf3, hL8, hC8⟩
    rcases Option.bind_eq_some.1 h with ⟨q4, hq4, h⟩
    rcases skipU32_take _ q3 q4 hq4 with ⟨b4, hf4, hL9, hC9⟩
    rcases Option.bind_eq_some.1 h with ⟨q5, hq5, h⟩
    rcases skip64_take _ q4 q5 hq5 with ⟨b5, hf5, hL10, hC10⟩
    rcases Option.bind_eq_some.1 h with ⟨⟨flagsv, s11⟩, hflags, h⟩
    simp only [] at h
    rcases readU32_take q5 flagsv s11 hflags with ⟨hs11, hL11, hC11⟩
    rcases Option.bind_eq_some.1 h with ⟨⟨tagsv, s12⟩, htags, h⟩
    simp only [] at h
    rcases readU32_take s11 tagsv s12 htags with ⟨hs12, hL12, hC12⟩
    rcases Option.bind_eq_some.1 h with ⟨⟨ofi, s13⟩, hfwd, h⟩
    simp only [] at h
    rcases Option.bind_eq_some.1 h with ⟨⟨hav, s14⟩, hha, h⟩
    simp only [] at h
    rcases readI8_take s13 hav s14 hha with ⟨hs14, hL14, hC14⟩
    have hne13 : s13 ≠ [] := by
      intro hemp
      rw [hemp] at hL14
      exact absurd hL14 (by simp)
    rcases parseFwdInfo_take s12 ofi s13 hfwd hne13 with ⟨cf, hgf, hLf, hcf1, hCf⟩
    rcases Option.bind_eq_some.1 h with ⟨⟨authv, s15⟩, hauth, h⟩
    simp only [] at h
    rcases authKeep_take _ s14 authv s15 hauth with ⟨dA, hfA, hLA, hCA⟩
    rcases Option.map_eq_some'.1 h with ⟨⟨tx, s16⟩, hrt, hm⟩
    have hm2 : (⟨tx, authv, Nat.testBit flagsv 2⟩ : MsgVal) = m := hm
    rw [readStr, readBytes] at hrt
    rcases Option.map_eq_some'.1 hrt with ⟨⟨len, s15b⟩, hlen, hbuf⟩
    rcases readI32_take s15 len s15b hlen with ⟨hs15b, hL16, hC16⟩
    have hbuf2 : bufRead len s15b = (tx, s16) := hbuf
    have hmt2 : m.text = tx := by rw [← hm2]
    have hma : m.author_id = authv := by rw [← hm2]
    have hmi : m.incoming = Nat.testBit flagsv 2 := by rw [← hm2]
    have E1 : s1.length = data.length - 1 := by rw [hs1, List.length_drop]
    have E2 : s2.length = s1.length - 4 := by rw [hs2, List.length_drop]
    have E3 : s3.length = s2.length - 4 := by rw [hs3, List.length_drop]
    have E4 : s4.length = s3.length - 1 := by rw [hs4, List.length_drop]
    have Eq0 : q0.length = s4.length - b0 := by rw [hf0, List.length_drop]
    have Eq1 : q1.length = q0.length - b1 := by rw [hf1, List.length_drop]
    have Eq2 : q2.length = q1.length - b2 := by rw [hf2, List.length_drop]
    have Eq3 : q3.length = q2.length - b3 := by rw [hf3, List.length_drop]
    have Eq4 : q4.length = q3.length - b4 := by rw [hf4, List.length_drop]
    have Eq5 : q5.length = q4.length - b5 := by rw [hf5, List.length_drop]
    have E11 : s11.length = q5.length - 4 := by rw [hs11, List.length_drop]
    have E12 : s12.length = s11.length - 4 := by rw [hs12, List.length_drop]
    have Ef : s13.length = s12.length - cf := by rw [hgf, List.length_drop]
    have E14 : s14.length = s13.length - 1 := by rw [hs14, List.length_drop]
    have EA : s15.length = s14.length - dA := by rw [hfA, List.length_drop]
    have haux : ∀ k,
        (k < 1 + 4 + 4 + 1 + b0 + b1 + b2 + b3 + b4 + b5 + 4 + 4 + cf + 1 + dA + 4 ∧
          parseMessageValue (data.take k) = none) ∨
        (1 + 4 + 4 + 1 + b0 + b1 + b2 + b3 + b4 + b5 + 4 + 4 + cf + 1 + dA + 4 ≤ k ∧
          parseMessageValue (data.take k) =
            some ⟨m.text.take
                (k - (1 + 4 + 4 + 1 + b0 + b1 + b2 + b3 + b4 + b5 + 4 + 4 + cf + 1 + dA + 4)),
              m.author_id, m.incoming⟩) := by
      intro k
      rw [parseMessageValue, hC1 k]
      by_cases hk1 : 1 ≤ k
      case neg =>
        rw [if_neg hk1, Option.none_bind]
        exact Or.inl ⟨by omega, rfl⟩
      case pos =>
      rw [if_pos hk1, Option.some_bind]
      simp only []
      rw [if_neg hmt0,
        show (data.drop 1).take (k - 1) = s1.take (k - 1) from by rw [hs1],
        hC2 (k - 1)]
      by_cases hk2 : 4 ≤ k - 1
      case neg =>
        rw [if_neg hk2, Option.none_bind]
        exact Or.inl ⟨by omega, rfl⟩
      case pos =>
      rw [if_pos hk2, Option.some_bind]
      simp only []
      rw [show (s1.drop 4).take (k - 1 - 4) = s2.take (k - 1 - 4) from
          by rw [hs2],
        hC3 (k - 1 - 4)]
      by_cases hk3 : 4 ≤ k - 1 - 4
      case neg =>
        rw [if_neg hk3, Option.none_bind]
        exact Or.inl ⟨by omega, rfl⟩
      case pos =>
      rw [if_pos hk3, Option.some_bind]
      simp only []
      rw [show (s2.drop 4).take (k - 1 - 4 - 4) = s3.take (k - 1 - 4 - 4) from
          by rw [hs3],
        hC4 (k - 1 - 4 - 4)]
      by_cases hk4 : 1 ≤ k - 1 - 4 - 4
      case neg =>
        rw [if_neg hk4, Option.none_bind]
        exact Or.inl ⟨by omega, rfl⟩
      case pos =>
      rw [if_pos hk4, Option.some_bind]
      simp only []
      rw [show (s3.drop 1).take (k - 1 - 4 - 4 - 1) =
            s4.take (k - 1 - 4 - 4 - 1) from by rw [hs4],
        hC5 (k - 1 - 4 - 4 - 1)]
      by_cases hk5 : b0 ≤ k - 1 - 4 - 4 - 1
      case neg =>
        rw [if_neg hk5, Option.none_bind]
        exact Or.inl ⟨by omega, rfl⟩
      case pos =>
      rw [if_pos hk5, Option.some_bind]
      rw [show (s4.drop b0).take (k - 1 - 4 - 4 - 1 - b0) =
            q0.take (k - 1 - 4 - 4 - 1 - b0) from by rw [hf0],
        hC6 (k - 1 - 4 - 4 - 1 - b0)]
      by_cases hk6 : b1 ≤ k - 1 - 4 - 4 - 1 - b0
      case neg =>
        rw [if_neg hk6, Option.none_bind]
        exact Or.inl ⟨by omega, rfl⟩
      case pos =>
      rw [if_pos hk6, Option.some_bind]
      rw [show (q0.drop b1).take (k - 1 - 4 - 4 - 1 - b0 - b1) =
            q1.take (k - 1 - 4 - 4 - 1 - b0 - b1) from by rw [hf1],
        hC7 (k - 1 - 4 - 4 - 1 - b0 - b1)]
      by_cases hk7 : b2 ≤ k - 1 - 4 - 4 - 1 - b0 - b1
      case neg =>
        rw [if_neg hk7, Option.none_bind]
        exact Or.inl ⟨by omega, rfl⟩
      case pos =>
      rw [if_pos hk7, Option.some_bind]
      rw [show (q1.drop b2).take (k - 1 - 4 - 4 - 1 - b0 - b1 - b2) =
            q2.take (k - 1 - 4 - 4 - 1 - b0 - b1 - b2) from by rw [hf2],
        hC8 (k - 1 - 4 - 4 - 1 - b0 - b1 - b2)]
      by_cases hk8 : b3 ≤ k - 1 - 4 - 4 - 1 - b0 - b1 - b2
      case neg =>
        rw [if_neg hk8, Option.none_bind]
        exact Or.inl ⟨by omega, rfl⟩
      case pos =>
      rw [if_pos hk8, Option.some_bind]
      rw [show (q2.drop b3).take (k - 1 - 4 - 4 - 1 - b0 - b1 - b2 - b3) =
            q3.take (k - 1 - 4 - 4 - 1 - b0 - b1 - b2 - b3) from by rw [hf3],
        hC9 (k - 1 - 4 - 4 - 1 - b0 - b1 - b2 - b3)]
      by_cases hk9 : b4 ≤ k - 1 - 4 - 4 - 1 - b0 - b1 - b2 - b3
      case neg =>
        rw [if_neg hk9, Option.none_bind]
        exact Or.inl ⟨by omega, rfl⟩
      case pos =>
      rw [if_pos hk9, Option.some_bind]
      rw [show (q3.drop b4).take (k - 1 - 4 - 4 - 1 - b0 - b1 - b2 - b3 - b4) =
            q4.take (k - 1 - 4 - 4 - 1 - b0 - b1 - b2 - b3 - b4) from
          by rw [hf4],
        hC10 (k - 1 - 4 - 4 - 1 - b0 - b1 - b2 - b3 - b4)]
      by_cases hk10 : b5 ≤ k - 1 - 4 - 4 - 1 - b0 - b1 - b2 - b3 - b4
      case neg =>
        rw [if_neg hk10, Option.none_bind]
        exact Or.inl ⟨by omega, rfl⟩
      case pos =>
      rw [if_pos hk10, Option.some_bind]
      rw [show (q4.drop b5).take (k - 1 - 4 - 4 - 1 - b0 - b1 - b2 - b3 - b4 - b5) =
            q5.take (k - 1 - 4 - 4 - 1 - b0 - b1 - b2 - b3 - b4 - b5) from
          by rw [hf5],
        hC11 (k - 1 - 4 - 4 - 1 - b0 - b1 - b2 - b3 - b4 - b5)]
      by_cases hk11 : 4 ≤ k - 1 - 4 - 4 - 1 - b0 - b1 - b2 - b3 - b4 - b5
      case neg =>
        rw [if_neg hk11, Option.none_bind]
        exact Or.inl ⟨by omega, rfl⟩
      case pos =>
      rw [if_pos hk11, Option.some_bind]
      simp only []
      rw [show (q5.drop 4).take (k - 1 - 4 - 4 - 1 - b0 - b1 - b2 - b3 - b4 - b5 - 4) =
            s11.take (k - 1 - 4 - 4 - 1 - b0 - b1 - b2 - b3 - b4 - b5 - 4) from
          by rw [hs11],
        hC12 (k - 1 - 4 - 4 - 1 - b0 - b1 - b2 - b3 - b4 - b5 - 4)]
      by_cases hk12 : 4 ≤ k - 1 - 4 - 4 - 1 - b0 - b1 - b2 - b3 - b4 - b5 - 4
      case neg =>
        rw [if_neg hk12, Option.none_bind]
        exact Or.inl ⟨by omega, rfl⟩
      case pos =>
      rw [if_pos hk12, Option.some_bind]
      simp only []
      rw [show (s11.drop 4).take
            (k - 1 - 4 - 4 - 1 - b0 - b1 - b2 - b3 - b4 - b5 - 4 - 4) =
          s12.take (k - 1 - 4 - 4 - 1 - b0 - b1 - b2 - b3 - b4 - b5 - 4 - 4) from
          by rw [hs12]]
      by_cases hkf : cf ≤ k - 1 - 4 - 4 - 1 - b0 - b1 - b2 - b3 - b4 - b5 - 4 - 4
      case neg =>
        rcases (hCf (k - 1 - 4 - 4 - 1 - b0 - b1 - b2 - b3 - b4 - b5 - 4 - 4)).2
          (by omega) with hn | hesc
        · rw [hn, Option.none_bind]
          exact Or.inl ⟨by omega, rfl⟩
        · rw [hesc, Option.some_bind]
          simp only []
          rw [show readI8 ([] : List Nat) = none from rfl, Option.none_bind]
          exact Or.inl ⟨by omega, rfl⟩
      case pos =>
      rw [(hCf (k - 1 - 4 - 4 - 1 - b0 - b1 - b2 - b3 - b4 - b5 - 4 - 4)).1 hkf,
        Option.some_bind]
      simp only []
      rw [hC14 (k - 1 - 4 - 4 - 1 - b0 - b1 - b2 - b3 - b4 - b5 - 4 - 4 - cf)]
      by_cases hk14 : 1 ≤ k - 1 - 4 - 4 - 1 - b0 - b1 - b2 - b3 - b4 - b5 - 4 - 4 - cf
      case neg =>
        rw [if_neg hk14, Option.none_bind]
        exact Or.inl ⟨by omega, rfl⟩
      case pos =>
      rw [if_pos hk14, Option.some_bind]
      simp only []
      rw [show (s13.drop 1).take
            (k - 1 - 4 - 4 - 1 - b0 - b1 - b2 - b3 - b4 - b5 - 4 - 4 - cf - 1) =
          s14.take
            (k - 1 - 4 - 4 - 1 - b0 - b1 - b2 - b3 - b4 - b5 - 4 - 4 - cf - 1) from
          by rw [hs14],
        hCA (k - 1 - 4 - 4 - 1 - b0 - b1 - b2 - b3 - b4 - b5 - 4 - 4 - cf - 1)]
      by_cases hkA : dA ≤ k - 1 - 4 - 4 - 1 - b0 - b1 - b2 - b3 - b4 - b5 - 4 - 4 - cf - 1
      case neg =>
        rw [if_neg hkA, Option.none_bind]
        exact Or.inl ⟨by omega, rfl⟩
      case pos =>
      rw [if_pos hkA, Option.some_bind]
      simp only []
      rw [show (s14.drop dA).take
            (k - 1 - 4 - 4 - 1 - b0 - b1 - b2 - b3 - b4 - b5 - 4 - 4 - cf - 1 - dA) =
          s15.take
            (k - 1 - 4 - 4 - 1 - b0 - b1 - b2 - b3 - b4 - b5 - 4 - 4 - cf - 1 - dA) from
          by rw [hfA],
        readStr, readBytes,
        hC16 (k - 1 - 4 - 4 - 1 - b0 - b1 - b2 - b3 - b4 - b5 - 4 - 4 - cf - 1 - dA)]
      by_cases hk16 : 4 ≤ k - 1 - 4 - 4 - 1 - b0 - b1 - b2 - b3 - b4 - b5 - 4 - 4 - cf - 1 - dA
      case neg =>
        rw [if_neg hk16, Option.map_none', Option.map_none']
        exact Or.inl ⟨by omega, rfl⟩
      case pos =>
      rw [if_pos hk16]
      simp only [Option.map_some']
      rw [show (s15.drop 4).take
            (k - 1 - 4 - 4 - 1 - b0 - b1 - b2 - b3 - b4 - b5 - 4 - 4 - cf - 1 - dA - 4) =
          s15b.take
            (k - 1 - 4 - 4 - 1 - b0 - b1 - b2 - b3 - b4 - b5 - 4 - 4 - cf - 1 - dA - 4) from
          by rw [hs15b]]
      by_cases hneg : len < 0
      · rw [bufRead, if_pos hneg] at hbuf2
        injection hbuf2 with htx hs16e
        refine Or.inr ⟨by omega, ?_⟩
        rw [hmt2, hma, hmi, bufRead, if_pos hneg,
          show k - 1 - 4 - 4 - 1 - b0 - b1 - b2 - b3 - b4 - b5 - 4 - 4 - cf - 1 - dA - 4 =
            k - (1 + 4 + 4 + 1 + b0 + b1 + b2 + b3 + b4 + b5 + 4 + 4 + cf + 1 + dA + 4) from
            by omega,
          htx]
      · rw [bufRead, if_neg hneg] at hbuf2
        injection hbuf2 with htx hs16e
        refine Or.inr ⟨by omega, ?_⟩
        rw [hmt2, hma, hmi, bufRead, if_neg hneg, ← htx,
          List.take_take, List.take_take,
          show min len.toNat
              (k - 1 - 4 - 4 - 1 - b0 - b1 - b2 - b3 - b4 - b5 - 4 - 4 - cf - 1 - dA - 4) =
            min (k - (1 + 4 + 4 + 1 + b0 + b1 + b2 + b3 + b4 + b5 + 4 + 4 + cf + 1 + dA + 4))
              len.toNat from by omega]
    refine ⟨1 + 4 + 4 + 1 + b0 + b1 + b2 + b3 + b4 + b5 + 4 + 4 + cf + 1 + dA + 4,
      by omega, fun k hk => ?_, fun k hk => ?_⟩
    · rcases haux k with ⟨_, hres⟩ | ⟨hge, _⟩
      · exact hres
      · exact absurd hk (by omega)
    · rcases haux k with ⟨hlt, _⟩ | ⟨_, hres⟩
      · exact absurd hk (by omega)
      · exact hres

/-- C4 (amended): a nonzero discriminator always yields "unparsable"; an
empty buffer yields "unparsable"; and on any buffer the parser accepts —
whatever presence bits, forward-info fields and author block it exercises
— every truncation strictly before the end of the text length prefix
yields "unparsable" (`none`), never a raised error and never a partial
record; but a truncation inside the text body, after a complete length
prefix, yields a record carrying the correspondingly truncated text
instead of "unparsable". -/
theorem C4_unparsable_behavior :
    (∀ (b : Nat) (rest : List Nat), toSigned 8 b ≠ 0 →
      parseMessageValue (b :: rest) = none) ∧
    parseMessageValue [] = none ∧
    (∀ (data : List Nat) (m : MsgVal), parseMessageValue data = some m →
      ∃ c, c ≤ data.length ∧
        (∀ k, k < c → parseMessageValue (data.take k) = none) ∧
        (∀ k, c ≤ k → parseMessageValue (data.take k) =
          some ⟨m.text.take (k - c), m.author_id, m.incoming⟩)) := by
  refine ⟨?_, by decide, parseMessageValue_take⟩
  intro b rest hb
  simp only [parseMessageValue, readI8, readExact, List.length_cons]
  have h1 : 1 ≤ rest.length + 1 := by omega
  simp only [if_pos h1, Option.map_some', Option.some_bind]
  have ht : (b :: rest).take 1 = [b] := by simp
  rw [ht]
  have hle : leNat [b] = b := by simp [leNat]
  rw [hle]
  rw [if_pos hb]

theorem C4_unparsable_behavior_witness :
    (toSigned 8 7 ≠ 0 ∧ parseMessageValue (7 :: [0, 0, 0]) = none) ∧
    (∃ c, c ≤ msgMinimal.length ∧
      (∀ k, k < c → parseMessageValue (msgMinimal.take k) = none) ∧
      (∀ k, c ≤ k → parseMessageValue (msgMinimal.take k) =
        some ⟨msgText.take (k - c), none, false⟩)) :=
  ⟨⟨by decide, C4_unparsable_behavior.1 7 [0, 0, 0] (by decide)⟩,
   C4_unparsable_behavior.2.2 msgMinimal ⟨msgText, none, false⟩ (by decide)⟩

/-!
## Peer parsing (`_parse_peer`)
-/

/-- The peer record built by `_parse_peer`; field values are whatever the
nested stream holds (`fields.get(..., "")`, default empty string). -/
structure Peer where
  first_name : PValue
  last_name : PValue
  username : PValue
  title : PValue
  phone : PValue
  deriving DecidableEq, Repr

/-- `fields.get(key, "")`. -/
def getOr (fs : List (List Nat × PValue)) (k : List Nat) : PValue :=
  (lookupField fs k).getD (PValue.str [])

/-- Mapping of short field keys to semantic peer fields:
`fn, ln, un, t, p`. -/
def peerOfFields (fs : List (List Nat × PValue)) : Peer :=
  ⟨getOr fs [102, 110], getOr fs [108, 110], getOr fs [117, 110],
    getOr fs [116], getOr fs [112]⟩

/-- The all-empty peer used as a default by callers of `_parse_peer`. -/
def emptyPeer : Peer :=
  ⟨PValue.str [], PValue.str [], PValue.str [], PValue.str [], PValue.str []⟩

/-- The scanning loop of `_parse_peer`: look for key `"_"` (byte `0x5f`)
with tag `Object` (raw tag byte 5); on a match decode the nested stream
and build the peer; otherwise skip the value and continue.  Any raised
`EOFError`/`ValueError` is caught and yields `none`, as does scan
exhaustion. -/
def parsePeerGo : List Nat → Option Peer
  | [] => none
  | b :: bs =>
    match hb : bufRead (b : Int) bs with
    | (key, rem1) =>
      match h2 : readU8 rem1 with
      | none => none
      | some (vr, rem2) =>
        if key = [95] ∧ vr = 5 then
          match readI32 rem2 with
          | none => none
          | some th =>
            match readI32 th.2 with
            | none => none
            | some dl =>
              match bufRead dl.1 dl.2 with
              | (inner, _) => some (peerOfFields (decodeAllFields inner))
        else
          match vtOfNat vr with
          | none => none
          | some t =>
            match h3 : skipPayload t rem2 with
            | none => none
            | some rem3 => parsePeerGo rem3
termination_by rem => rem.length
decreasing_by
  have hle := bufRead_length_le (b : Int) bs
  rw [hb] at hle
  have hle2 : rem1.length ≤ bs.length := hle
  have h4 := readU8_length_lt rem1 vr rem2 h2
  have h5 := skipPayload_length_le t rem2 rem3 h3
  simp only [List.length_cons]
  omega

/-- `_parse_peer`: blobs shorter than 8 bytes are rejected up front;
otherwise the stream is scanned for the root object. -/
def parsePeer (data : List Nat) : Option Peer :=
  if data.length < 8 then none else parsePeerGo data

/-- `_parse_peer(value) or all-empty-default`, the form used by
`TelegramDB._get_peer`. -/
def peerOrEmpty (data : List Nat) : Peer :=
  (parsePeer data).getD emptyPeer

theorem vtToNat_eq_five_iff (t : ValueType) : vtToNat t = 5 ↔ t = ValueType.Object := by
  cases t <;> simp [vtToNat]

theorem parsePeerGo_nil : parsePeerGo [] = none := by
  rw [parsePeerGo.eq_def]

theorem parsePeerGo_skip (f : List Nat × PValue) (rest : List Nat)
    (hf : validField f) (hnot : ¬(f.1 = [95] ∧ vtag f.2 = ValueType.Object)) :
    parsePeerGo (encField f ++ rest) = parsePeerGo rest := by
  obtain ⟨k, v⟩ := f
  obtain ⟨hk, hv⟩ := hf
  have hc : ¬ (k = [95] ∧ vtToNat (vtag v) = 5) := by
    intro hcon
    exact hnot ⟨hcon.1, (vtToNat_eq_five_iff (vtag v)).1 hcon.2⟩
  have he : encField (k, v) ++ rest =
      k.length :: (k ++ (vtToNat (vtag v) :: (encPayload v ++ rest))) := by
    simp [encField, encValue, List.append_assoc]
  rw [he, parsePeerGo.eq_def]
  simp only []
  rw [bufRead_exact k (vtToNat (vtag v) :: (encPayload v ++ rest))
    ((k.length : Nat) : Int) rfl]
  split
  next h2 =>
    rw [readU8_cons] at h2
    exact Option.noConfusion h2
  next vr rem2 h2 =>
    rw [readU8_cons] at h2
    injection h2 with h4
    injection h4 with h5 h6
    subst h5
    subst h6
    rw [if_neg hc]
    simp only [vtOfNat_vtToNat]
    split
    next h3 =>
      rw [skipPayload_enc v rest hv] at h3
      exact Option.noConfusion h3
    next rem3 h3 =>
      rw [skipPayload_enc v rest hv] at h3
      injection h3 with h7
      rw [← h7]

theorem parsePeerGo_match (inner rest : List Nat) (hinner : inner.length < 2 ^ 31) :
    parsePeerGo (encField ([95], PValue.object inner) ++ rest) =
      some (peerOfFields (decodeAllFields inner)) := by
  have he : encField ([95], PValue.object inner) ++ rest =
      (1 : Nat) :: ([95] ++ ((5 : Nat) :: (intLE 4 0 ++
        (intLE 4 (inner.length : Int) ++ (inner ++ rest))))) := by
    simp [encField, encValue, encPayload, encObjItem, vtToNat, vtag,
      List.append_assoc]
  rw [he, parsePeerGo.eq_def]
  simp only []
  rw [bufRead_exact [95] ((5 : Nat) :: (intLE 4 0 ++
    (intLE 4 (inner.length : Int) ++ (inner ++ rest)))) ((1 : Nat) : Int) (by simp)]
  split
  next h2 =>
    rw [readU8_cons] at h2
    exact Option.noConfusion h2
  next vr rem2 h2 =>
    rw [readU8_cons] at h2
    injection h2 with h4
    injection h4 with h5 h6
    subst h5
    subst h6
    rw [if_pos ⟨rfl, rfl⟩]
    rw [readI32_intLE 0 _ (by norm_num) (by norm_num)]
    simp only []
    rw [readI32_intLE (inner.length : Int) _ (by omega) (by exact_mod_cast hinner)]
    simp only []
    rw [bufRead_exact inner rest ((inner.length : Nat) : Int) rfl]

theorem parsePeerGo_no_match (fields : List (List Nat × PValue))
    (hval : ∀ f ∈ fields, validField f)
    (hno : ∀ f ∈ fields, ¬(f.1 = [95] ∧ vtag f.2 = ValueType.Object)) :
    parsePeerGo (encStream fields) = none := by
  induction fields with
  | nil =>
    simp only [encStream, concatMap]
    exact parsePeerGo_nil
  | cons f fs ih =>
    have he : encStream (f :: fs) = encField f ++ encStream fs := by
      simp [encStream, concatMap]
    rw [he]
    rw [parsePeerGo_skip f _ (hval f (by simp)) (hno f (by simp))]
    exact ih (fun g hg => hval g (by simp [hg])) (fun g hg => hno g (by simp [hg]))

/-!
## Claim C5: peer parser behavior when the root object is absent
-/

/-- C5 counterexample: on a well-formed 8-byte stream with a single
non-root field, `_parse_peer` returns an absent result (`None`), not an
all-empty `Peer`. -/
theorem C5_counterexample :
    parsePeer (encStream [([97, 98], PValue.int32 1)]) = none ∧
    ∀ p : Peer, parsePeer (encStream [([97, 98], PValue.int32 1)]) ≠ some p := by
  have h : parsePeer (encStream [([97, 98], PValue.int32 1)]) = none := by
    rw [parsePeer]
    rw [if_neg (by decide)]
    exact parsePeerGo_no_match [([97, 98], PValue.int32 1)]
      (by
        intro f hf
        simp only [List.mem_singleton] at hf
        subst hf
        exact ⟨by decide, by decide⟩)
      (by
        intro f hf
        simp only [List.mem_singleton] at hf
        subst hf
        decide)
  exact ⟨h, fun p hp => by rw [h] at hp; exact Option.noConfusion hp⟩

/-- C5 (amended): when the stream contains no field with key `"_"` of
type `Object`, `_parse_peer` itself returns `None` (absent); the all-empty
peer is substituted by its caller `_get_peer` (`_parse_peer(value) or
default`). -/
theorem C5_no_root_object (fields : List (List Nat × PValue))
    (hval : ∀ f ∈ fields, validField f)
    (hno : ∀ f ∈ fields, ¬(f.1 = [95] ∧ vtag f.2 = ValueType.Object)) :
    parsePeer (encStream fields) = none ∧
    peerOrEmpty (encStream fields) = emptyPeer := by
  have h : parsePeer (encStream fields) = none := by
    rw [parsePeer]
    by_cases hlen : (encStream fields).length < 8
    · rw [if_pos hlen]
    · rw [if_neg hlen]
      exact parsePeerGo_no_match fields hval hno
  exact ⟨h, by rw [peerOrEmpty, h]; rfl⟩

theorem C5_no_root_object_witness :
    (∀ f ∈ [([107, 107], PValue.int64 2)], validField f) ∧
    (∀ f ∈ [([107, 107], PValue.int64 2)],
      ¬(f.1 = [95] ∧ vtag f.2 = ValueType.Object)) ∧
    (parsePeer (encStream [([107, 107], PValue.int64 2)]) = none ∧
      peerOrEmpty (encStream [([107, 107], PValue.int64 2)]) = emptyPeer) :=
  ⟨by
    intro f hf
    simp only [List.mem_singleton] at hf
    subst hf
    exact ⟨by decide, by decide⟩,
   by
    intro f hf
    simp only [List.mem_singleton] at hf
    subst hf
    decide,
   C5_no_root_object [([107, 107], PValue.int64 2)]
    (by
      intro f hf
      simp only [List.mem_singleton] at hf
      subst hf
      exact ⟨by decide, by decide⟩)
    (by
      intro f hf
      simp only [List.mem_singleton] at hf
      subst hf
      decide)⟩

/-!
## Key derivation integrity check (`_decrypt_key`)

The SHA-512 passphrase digest and the AES-256-CBC decryption are external
cryptographic library calls; the embedding models `_decrypt_key` at the
boundary where they return, i.e. as a function of the decrypted plaintext
blob.  MurmurHash3_x86_32 (the `mmh3.hash` call) is implemented in full.
-/

/-- 32-bit rotate left, written arithmetically: for `x < 2^32` this equals
`(x << r) | (x >> (32 - r))` on `uint32`. -/
def rotl32 (x r : Nat) : Nat :=
  (x % 2 ^ (32 - r)) * 2 ^ r + x / 2 ^ (32 - r)

/-- The per-block key transformation of MurmurHash3_x86_32:
`k *= c1; k = rotl(k, 15); k *= c2`. -/
def kmix (k : Nat) : Nat :=
  rotl32 (k * 0xcc9e2d51 % 2 ^ 32) 15 * 0x1b873593 % 2 ^ 32

/-- One body round: `h ^= kmix k; h = rotl(h, 13); h = h * 5 + 0xe6546b64`. -/
def mstep (h k : Nat) : Nat :=
  (rotl32 (h ^^^ kmix k) 13 * 5 + 0xe6546b64) % 2 ^ 32

/-- Fold of `mstep` over the 4-byte blocks. -/
def murmurBody (h : Nat) (blocks : List Nat) : Nat :=
  blocks.foldl mstep h

theorem murmurBody_nil (h : Nat) : murmurBody h [] = h := by simp [murmurBody]

theorem murmurBody_cons (h k : Nat) (ks : List Nat) :
    murmurBody h (k :: ks) = murmurBody (mstep h k) ks := by
  simp [murmurBody]

/-- Split a byte list into little-endian 4-byte blocks and the trailing
tail of fewer than 4 bytes. -/
def leBlocks : List Nat → List Nat × List Nat
  | b0 :: b1 :: b2 :: b3 :: rest =>
    match leBlocks rest with
    | (bs, t) => ((b0 + 256 * b1 + 65536 * b2 + 16777216 * b3) :: bs, t)
  | rest => ([], rest)

/-- The tail accumulation of MurmurHash3_x86_32 (`len & 3` leftover
bytes). -/
def tailK : List Nat → Nat
  | [t0] => t0
  | [t0, t1] => t0 ^^^ (t1 <<< 8)
  | [t0, t1, t2] => t0 ^^^ (t1 <<< 8) ^^^ (t2 <<< 16)
  | _ => 0

/-- The final avalanche `fmix32`. -/
def fmix32 (h : Nat) : Nat :=
  let a := h ^^^ (h >>> 16)
  let b := a * 0x85ebca6b % 2 ^ 32
  let c := b ^^^ (b >>> 13)
  let d := c * 0xc2b2ae35 % 2 ^ 32
  d ^^^ (d >>> 16)

/-- MurmurHash3_x86_32 with an unsigned 32-bit seed. -/
def murmur32 (data : List Nat) (seed : Nat) : Nat :=
  match leBlocks data with
  | (blocks, tl) =>
    let h := murmurBody seed blocks
    let h1 := if tl.isEmpty then h else h ^^^ kmix (tailK tl)
    fmix32 (h1 ^^^ data.length % 2 ^ 32)

/-- `mmh3.hash(data, seed)`: signed seed taken mod `2^32`, signed 32-bit
result. -/
def mmh3hash (data : List Nat) (seed : Int) : Int :=
  toSigned 32 (murmur32 data ((seed % 2 ^ 32).toNat))

/-- `_MURMUR_SEED = -137723950`. -/
def murmurSeed : Int := -137723950

/-- `_murmur(data)`. -/
def murmurTelegram (data : List Nat) : Int :=
  mmh3hash data murmurSeed

/-- Outcome of `_decrypt_key` after AES decryption: success with
`(db_key, db_salt)`, the `RuntimeError` on hash mismatch, or the uncaught
`struct.error` when fewer than 4 bytes exist at offset 48. -/
inductive KeyResult where
  | ok (key salt : List Nat)
  | integrityError
  | structError
  deriving DecidableEq, Repr

/-- The tail of `_decrypt_key` as a function of the AES-decrypted bytes:
`db_key = decrypted[:32]`, `db_salt = decrypted[32:48]`,
`db_hash = unpack("<i", decrypted[48:52])`, recompute
`_murmur(db_key + db_salt)` and compare. -/
def decryptKeyCheck (decrypted : List Nat) : KeyResult :=
  let dbKey := decrypted.take 32
  let dbSalt := (decrypted.drop 32).take 16
  let hashBytes := (decrypted.drop 48).take 4
  if hashBytes.length = 4 then
    let dbHash := toSigned 32 (leNat hashBytes)
    let calcHash := murmurTelegram (dbKey ++ dbSalt)
    if dbHash ≠ calcHash then KeyResult.integrityError
    else KeyResult.ok dbKey dbSalt
  else KeyResult.structError

/-- Flip bit `j` of byte `i` of a blob. -/
def flipBit (d : List Nat) (i j : Nat) : List Nat :=
  d.set i (d.getD i 0 ^^^ (1 <<< j))

/-!
## MurmurHash3 injectivity under a single-block change

These lemmas show each stage of the hash is injective in the evolving
state, so that flipping one bit of a fixed-length input always changes
the final hash.
-/

theorem xor_cancel_left_nat (a b c : Nat) (h : a ^^^ b = a ^^^ c) : b = c := by
  have h2 := congrArg (fun z => a ^^^ z) h
  simpa [← Nat.xor_assoc, Nat.xor_self, Nat.zero_xor] using h2

theorem xor_cancel_right_nat (a b c : Nat) (h : b ^^^ a = c ^^^ a) : b = c := by
  apply xor_cancel_left_nat a
  rw [Nat.xor_comm a b, Nat.xor_comm a c]
  exact h

theorem xor_flip_ne (b j : Nat) : b ^^^ (1 <<< j) ≠ b := by
  intro h
  have h0 : b ^^^ (1 <<< j) = b ^^^ 0 := by simpa using h
  have h1 : 1 <<< j = 0 := xor_cancel_left_nat b _ _ h0
  rw [Nat.one_shiftLeft] at h1
  exact absurd h1 (Nat.pos_iff_ne_zero.1 (Nat.pos_pow_of_pos j (by omega)))

theorem coprime_pow32_of_odd (c : Nat) (hodd : c % 2 = 1) :
    Nat.gcd (2 ^ 32) c = 1 := by
  have h2 : Nat.Coprime 2 c := by
    refine (Nat.Prime.coprime_iff_not_dvd Nat.prime_two).2 ?_
    intro hdvd
    have h0 : c % 2 = 0 := Nat.dvd_iff_mod_eq_zero.1 hdvd
    omega
  exact Nat.Coprime.pow_left 32 h2

theorem mulMod_inj (c : Nat) (hodd : c % 2 = 1) (a b : Nat)
    (ha : a < 2 ^ 32) (hb : b < 2 ^ 32)
    (h : a * c % 2 ^ 32 = b * c % 2 ^ 32) : a = b := by
  have hm : a * c ≡ b * c [MOD 2 ^ 32] := h
  have h2 : a ≡ b [MOD 2 ^ 32] :=
    Nat.ModEq.cancel_right_of_coprime (coprime_pow32_of_odd c hodd) hm
  have h3 : a % 2 ^ 32 = b % 2 ^ 32 := h2
  rw [Nat.mod_eq_of_lt ha, Nat.mod_eq_of_lt hb] at h3
  exact h3

theorem rotl15_inj (x y : Nat) (hx : x < 2 ^ 32) (hy : y < 2 ^ 32)
    (h : rotl32 x 15 = rotl32 y 15) : x = y := by
  simp only [rotl32] at h
  norm_num at h hx hy
  omega

theorem rotl13_inj (x y : Nat) (hx : x < 2 ^ 32) (hy : y < 2 ^ 32)
    (h : rotl32 x 13 = rotl32 y 13) : x = y := by
  simp only [rotl32] at h
  norm_num at h hx hy
  omega

theorem kmix_lt (k : Nat) : kmix k < 2 ^ 32 := by
  simp only [kmix]
  exact Nat.mod_lt _ (by norm_num)

theorem mstep_lt (h k : Nat) : mstep h k < 2 ^ 32 := by
  simp only [mstep]
  exact Nat.mod_lt _ (by norm_num)

theorem kmix_inj (k1 k2 : Nat) (h1 : k1 < 2 ^ 32) (h2 : k2 < 2 ^ 32)
    (h : kmix k1 = kmix k2) : k1 = k2 := by
  simp only [kmix] at h
  have hr : rotl32 (k1 * 0xcc9e2d51 % 2 ^ 32) 15 = rotl32 (k2 * 0xcc9e2d51 % 2 ^ 32) 15 := by
    have hb1 : rotl32 (k1 * 0xcc9e2d51 % 2 ^ 32) 15 < 2 ^ 32 := by
      simp only [rotl32]
      norm_num
      omega
    have hb2 : rotl32 (k2 * 0xcc9e2d51 % 2 ^ 32) 15 < 2 ^ 32 := by
      simp only [rotl32]
      norm_num
      omega
    exact mulMod_inj 0x1b873593 (by norm_num) _ _ hb1 hb2 h
  have hm : k1 * 0xcc9e2d51 % 2 ^ 32 = k2 * 0xcc9e2d51 % 2 ^ 32 :=
    rotl15_inj _ _ (Nat.mod_lt _ (by norm_num)) (Nat.mod_lt _ (by norm_num)) hr
  exact mulMod_inj 0xcc9e2d51 (by norm_num) k1 k2 h1 h2 hm

theorem mstep_inj_h (h1 h2 k : Nat) (hb1 : h1 < 2 ^ 32) (hb2 : h2 < 2 ^ 32)
    (h : mstep h1 k = mstep h2 k) : h1 = h2 := by
  simp only [mstep] at h
  have hx1 : h1 ^^^ kmix k < 2 ^ 32 := Nat.xor_lt_two_pow hb1 (kmix_lt k)
  have hx2 : h2 ^^^ kmix k < 2 ^ 32 := Nat.xor_lt_two_pow hb2 (kmix_lt k)
  have hr1 : rotl32 (h1 ^^^ kmix k) 13 < 2 ^ 32 := by
    simp only [rotl32]
    norm_num at hx1 ⊢
    omega
  have hr2 : rotl32 (h2 ^^^ kmix k) 13 < 2 ^ 32 := by
    simp only [rotl32]
    norm_num at hx2 ⊢
    omega
  have hmul : rotl32 (h1 ^^^ kmix k) 13 * 5 ≡ rotl32 (h2 ^^^ kmix k) 13 * 5 [MOD 2 ^ 32] := by
    have := Nat.ModEq.add_right_cancel (Nat.ModEq.refl 0xe6546b64) h
    exact this
  have h5 : rotl32 (h1 ^^^ kmix k) 13 = rotl32 (h2 ^^^ kmix k) 13 := by
    have hcan := Nat.ModEq.cancel_right_of_coprime (coprime_pow32_of_odd 5 (by norm_num)) hmul
    have h6 : rotl32 (h1 ^^^ kmix k) 13 % 2 ^ 32 = rotl32 (h2 ^^^ kmix k) 13 % 2 ^ 32 := hcan
    rw [Nat.mod_eq_of_lt hr1, Nat.mod_eq_of_lt hr2] at h6
    exact h6
  have h7 := rotl13_inj _ _ hx1 hx2 h5
  exact xor_cancel_right_nat (kmix k) h1 h2 h7

theorem mstep_ne_k (h k1 k2 : Nat) (hb : h < 2 ^ 32)
    (h1 : k1 < 2 ^ 32) (h2 : k2 < 2 ^ 32) (hne : k1 ≠ k2) :
    mstep h k1 ≠ mstep h k2 := by
  intro heq
  simp only [mstep] at heq
  have hx1 : h ^^^ kmix k1 < 2 ^ 32 := Nat.xor_lt_two_pow hb (kmix_lt k1)
  have hx2 : h ^^^ kmix k2 < 2 ^ 32 := Nat.xor_lt_two_pow hb (kmix_lt k2)
  have hr1 : rotl32 (h ^^^ kmix k1) 13 < 2 ^ 32 := by
    simp only [rotl32]
    norm_num at hx1 ⊢
    omega
  have hr2 : rotl32 (h ^^^ kmix k2) 13 < 2 ^ 32 := by
    simp only [rotl32]
    norm_num at hx2 ⊢
    omega
  have hmul : rotl32 (h ^^^ kmix k1) 13 * 5 ≡ rotl32 (h ^^^ kmix k2) 13 * 5 [MOD 2 ^ 32] :=
    Nat.ModEq.add_right_cancel (Nat.ModEq.refl 0xe6546b64) heq
  have h5 : rotl32 (h ^^^ kmix k1) 13 = rotl32 (h ^^^ kmix k2) 13 := by
    have hcan := Nat.ModEq.cancel_right_of_coprime (coprime_pow32_of_odd 5 (by norm_num)) hmul
    have h6 : rotl32 (h ^^^ kmix k1) 13 % 2 ^ 32 = rotl32 (h ^^^ kmix k2) 13 % 2 ^ 32 := hcan
    rw [Nat.mod_eq_of_lt hr1, Nat.mod_eq_of_lt hr2] at h6
    exact h6
  have h7 := rotl13_inj _ _ hx1 hx2 h5
  have h8 := xor_cancel_left_nat h _ _ h7
  exact hne (kmix_inj k1 k2 h1 h2 h8)

theorem murmurBody_lt (blocks : List Nat) (h : Nat) (hh : h < 2 ^ 32) :
    murmurBody h blocks < 2 ^ 32 := by
  induction blocks generalizing h with
  | nil => rw [murmurBody_nil]; exact hh
  | cons k ks ih =>
    rw [murmurBody_cons]
    exact ih (mstep h k) (mstep_lt h k)

theorem murmurBody_inj_h (blocks : List Nat) (h1 h2 : Nat)
    (hb1 : h1 < 2 ^ 32) (hb2 : h2 < 2 ^ 32) (hne : h1 ≠ h2) :
    murmurBody h1 blocks ≠ murmurBody h2 blocks := by
  induction blocks generalizing h1 h2 with
  | nil =>
    rw [murmurBody_nil, murmurBody_nil]
    exact hne
  | cons k ks ih =>
    rw [murmurBody_cons, murmurBody_cons]
    apply ih (mstep h1 k) (mstep h2 k) (mstep_lt h1 k) (mstep_lt h2 k)
    intro heq
    exact hne (mstep_inj_h h1 h2 k hb1 hb2 heq)

theorem leBlocks_cons4 (b0 b1 b2 b3 : Nat) (rest : List Nat) :
    leBlocks (b0 :: b1 :: b2 :: b3 :: rest) =
      ((b0 + 256 * b1 + 65536 * b2 + 16777216 * b3) :: (leBlocks rest).1,
        (leBlocks rest).2) := by
  rw [leBlocks]


theorem leBlocks_snd_nil (d : List Nat) (h : d.length % 4 = 0) :
    (leBlocks d).2 = [] := by
  induction d using leBlocks.induct with
  | case1 b0 b1 b2 b3 rest bs t heq ih =>
    rw [leBlocks_cons4]
    apply ih
    simp at h
    omega
  | case2 r hr =>
    match r, hr with
    | [], _ => rfl
    | [a], _ => simp at h
    | [a, b], _ => simp at h
    | [a, b, c], _ => simp at h
    | a :: b :: c :: e :: rs, hr => exact absurd rfl (fun heq => hr a b c e rs heq)

theorem flipBit_length (d : List Nat) (i j : Nat) :
    (flipBit d i j).length = d.length := by
  simp [flipBit]

theorem flipBit_cons4 (b0 b1 b2 b3 : Nat) (rest : List Nat) (m j : Nat) :
    flipBit (b0 :: b1 :: b2 :: b3 :: rest) (m + 4) j =
      b0 :: b1 :: b2 :: b3 :: flipBit rest m j := by
  simp only [flipBit]
  have e1 : m + 4 = (m + 3) + 1 := by omega
  have e2 : m + 3 = (m + 2) + 1 := by omega
  have e3 : m + 2 = (m + 1) + 1 := by omega
  rw [e1, List.set_cons_succ, List.getD_cons_succ, e2, List.set_cons_succ,
    List.getD_cons_succ, e3, List.set_cons_succ, List.getD_cons_succ,
    List.set_cons_succ, List.getD_cons_succ]

theorem byte_flip_lt (b j : Nat) (hb : b < 256) (hj : j < 8) :
    b ^^^ (1 <<< j) < 256 := by
  have h1 : (1 <<< j) < 256 := by
    rw [Nat.one_shiftLeft]
    calc 2 ^ j < 2 ^ 8 := Nat.pow_lt_pow_right (by omega) hj
    _ = 256 := by norm_num
  exact Nat.xor_lt_two_pow (n := 8) (by norm_num at hb ⊢; omega)
    (by norm_num at h1 ⊢; omega)

theorem murmurBody_flip_ne : ∀ (d : List Nat), (∀ x ∈ d, x < 256) →
    d.length % 4 = 0 → ∀ (i j h : Nat), i < d.length → j < 8 → h < 2 ^ 32 →
    murmurBody h (leBlocks (flipBit d i j)).1 ≠ murmurBody h (leBlocks d).1 := by
  intro d
  induction d using leBlocks.induct with
  | case1 b0 b1 b2 b3 rest bs t heq ih =>
    intro hb h4 i j h hi hj hh
    have hb0 : b0 < 256 := hb b0 (by simp)
    have hb1 : b1 < 256 := hb b1 (by simp)
    have hb2 : b2 < 256 := hb b2 (by simp)
    have hb3 : b3 < 256 := hb b3 (by simp)
    have hk : b0 + 256 * b1 + 65536 * b2 + 16777216 * b3 < 2 ^ 32 := by
      norm_num
      omega
    by_cases hi4 : i < 4
    · have hcases : i = 0 ∨ i = 1 ∨ i = 2 ∨ i = 3 := by omega
      have hflip := fun (b : Nat) => xor_flip_ne b j
      rcases hcases with rfl | rfl | rfl | rfl
      · have he : flipBit (b0 :: b1 :: b2 :: b3 :: rest) 0 j =
            (b0 ^^^ (1 <<< j)) :: b1 :: b2 :: b3 :: rest := by
          simp [flipBit]
        rw [he, leBlocks_cons4, leBlocks_cons4]
        rw [murmurBody_cons, murmurBody_cons]
        apply murmurBody_inj_h
        · exact mstep_lt h _
        · exact mstep_lt h _
        · apply mstep_ne_k h _ _ hh
          · have := byte_flip_lt b0 j hb0 hj
            norm_num
            omega
          · exact hk
          · intro heq2
            apply hflip b0
            omega
      · have he : flipBit (b0 :: b1 :: b2 :: b3 :: rest) 1 j =
            b0 :: (b1 ^^^ (1 <<< j)) :: b2 :: b3 :: rest := by
          simp [flipBit]
        rw [he, leBlocks_cons4, leBlocks_cons4]
        rw [murmurBody_cons, murmurBody_cons]
        apply murmurBody_inj_h
        · exact mstep_lt h _
        · exact mstep_lt h _
        · apply mstep_ne_k h _ _ hh
          · have := byte_flip_lt b1 j hb1 hj
            norm_num
            omega
          · exact hk
          · intro heq2
            apply hflip b1
            omega
      · have he : flipBit (b0 :: b1 :: b2 :: b3 :: rest) 2 j =
            b0 :: b1 :: (b2 ^^^ (1 <<< j)) :: b3 :: rest := by
          simp [flipBit]
        rw [he, leBlocks_cons4, leBlocks_cons4]
        rw [murmurBody_cons, murmurBody_cons]
        apply murmurBody_inj_h
        · exact mstep_lt h _
        · exact mstep_lt h _
        · apply mstep_ne_k h _ _ hh
          · have := byte_flip_lt b2 j hb2 hj
            norm_num
            omega
          · exact hk
          · intro heq2
            apply hflip b2
            omega
      · have he : flipBit (b0 :: b1 :: b2 :: b3 :: rest) 3 j =
            b0 :: b1 :: b2 :: (b3 ^^^ (1 <<< j)) :: rest := by
          simp [flipBit]
        rw [he, leBlocks_cons4, leBlocks_cons4]
        rw [murmurBody_cons, murmurBody_cons]
        apply murmurBody_inj_h
        · exact mstep_lt h _
        · exact mstep_lt h _
        · apply mstep_ne_k h _ _ hh
          · have := byte_flip_lt b3 j hb3 hj
            norm_num
            omega
          · exact hk
          · intro heq2
            apply hflip b3
            omega
    · obtain ⟨m, rfl⟩ : ∃ m, i = m + 4 := ⟨i - 4, by omega⟩
      rw [flipBit_cons4, leBlocks_cons4, leBlocks_cons4]
      rw [murmurBody_cons, murmurBody_cons]
      apply ih
      · intro x hx
        exact hb x (by simp [hx])
      · simp at h4
        omega
      · simp at hi
        omega
      · exact hj
      · exact mstep_lt h _
  | case2 r hr =>
    intro hb h4 i j h hi hj hh
    match r, hr with
    | [], _ => simp at hi
    | [a], _ => simp at h4
    | [a, b], _ => simp at h4
    | [a, b, c], _ => simp at h4
    | a :: b :: c :: e :: rs, hr => exact absurd rfl (fun heq => hr a b c e rs heq)

/-!
## `fmix32` is injective on 32-bit values
-/

theorem testBit_ge32 (x : Nat) (hx : x < 2 ^ 32) (m : Nat) (hm : 32 ≤ m) :
    x.testBit m = false :=
  Nat.testBit_lt_two_pow (lt_of_lt_of_le hx (Nat.pow_le_pow_right (by omega) hm))

theorem xs16_invol (x : Nat) (hx : x < 2 ^ 32) :
    (x ^^^ (x >>> 16)) ^^^ ((x ^^^ (x >>> 16)) >>> 16) = x := by
  apply Nat.eq_of_testBit_eq
  intro i
  simp only [Nat.testBit_xor, Nat.testBit_shiftRight]
  have h1 : x.testBit (16 + (16 + i)) = false := testBit_ge32 x hx _ (by omega)
  rw [h1]
  cases x.testBit i <;> cases x.testBit (16 + i) <;> rfl

theorem xs13_inv (x : Nat) (hx : x < 2 ^ 32) :
    ((x ^^^ (x >>> 13)) ^^^ ((x ^^^ (x >>> 13)) >>> 13)) ^^^
      ((x ^^^ (x >>> 13)) >>> 26) = x := by
  apply Nat.eq_of_testBit_eq
  intro i
  simp only [Nat.testBit_xor, Nat.testBit_shiftRight]
  have e1 : 13 + (13 + i) = 26 + i := by omega
  have e2 : 13 + (26 + i) = 39 + i := by omega
  rw [e1, e2]
  have h1 : x.testBit (39 + i) = false := testBit_ge32 x hx _ (by omega)
  rw [h1]
  cases x.testBit i <;> cases x.testBit (13 + i) <;> cases x.testBit (26 + i) <;> rfl

theorem xs16_inj (x y : Nat) (hx : x < 2 ^ 32) (hy : y < 2 ^ 32)
    (h : x ^^^ (x >>> 16) = y ^^^ (y >>> 16)) : x = y := by
  calc x = (x ^^^ (x >>> 16)) ^^^ ((x ^^^ (x >>> 16)) >>> 16) := (xs16_invol x hx).symm
  _ = (y ^^^ (y >>> 16)) ^^^ ((y ^^^ (y >>> 16)) >>> 16) := by rw [h]
  _ = y := xs16_invol y hy

theorem xs13_inj (x y : Nat) (hx : x < 2 ^ 32) (hy : y < 2 ^ 32)
    (h : x ^^^ (x >>> 13) = y ^^^ (y >>> 13)) : x = y := by
  calc x = ((x ^^^ (x >>> 13)) ^^^ ((x ^^^ (x >>> 13)) >>> 13)) ^^^
      ((x ^^^ (x >>> 13)) >>> 26) := (xs13_inv x hx).symm
  _ = ((y ^^^ (y >>> 13)) ^^^ ((y ^^^ (y >>> 13)) >>> 13)) ^^^
      ((y ^^^ (y >>> 13)) >>> 26) := by rw [h]
  _ = y := xs13_inv y hy

theorem shiftRight_lt_of_lt (x n : Nat) (hx : x < 2 ^ 32) : x >>> n < 2 ^ 32 := by
  rw [Nat.shiftRight_eq_div_pow]
  exact lt_of_le_of_lt (Nat.div_le_self x (2 ^ n)) hx

theorem xorshift_lt (x n : Nat) (hx : x < 2 ^ 32) : x ^^^ (x >>> n) < 2 ^ 32 :=
  Nat.xor_lt_two_pow hx (shiftRight_lt_of_lt x n hx)

theorem fmix32_inj (x y : Nat) (hx : x < 2 ^ 32) (hy : y < 2 ^ 32)
    (h : fmix32 x = fmix32 y) : x = y := by
  simp only [fmix32] at h
  have hax : x ^^^ (x >>> 16) < 2 ^ 32 := xorshift_lt x 16 hx
  have hay : y ^^^ (y >>> 16) < 2 ^ 32 := xorshift_lt y 16 hy
  have hbx : (x ^^^ (x >>> 16)) * 0x85ebca6b % 2 ^ 32 < 2 ^ 32 :=
    Nat.mod_lt _ (by norm_num)
  have hby : (y ^^^ (y >>> 16)) * 0x85ebca6b % 2 ^ 32 < 2 ^ 32 :=
    Nat.mod_lt _ (by norm_num)
  have hcx : ((x ^^^ (x >>> 16)) * 0x85ebca6b % 2 ^ 32) ^^^
      (((x ^^^ (x >>> 16)) * 0x85ebca6b % 2 ^ 32) >>> 13) < 2 ^ 32 :=
    xorshift_lt _ 13 hbx
  have hcy : ((y ^^^ (y >>> 16)) * 0x85ebca6b % 2 ^ 32) ^^^
      (((y ^^^ (y >>> 16)) * 0x85ebca6b % 2 ^ 32) >>> 13) < 2 ^ 32 :=
    xorshift_lt _ 13 hby
  have hdx : (((x ^^^ (x >>> 16)) * 0x85ebca6b % 2 ^ 32) ^^^
      (((x ^^^ (x >>> 16)) * 0x85ebca6b % 2 ^ 32) >>> 13)) * 0xc2b2ae35 % 2 ^ 32 <
      2 ^ 32 := Nat.mod_lt _ (by norm_num)
  have hdy : (((y ^^^ (y >>> 16)) * 0x85ebca6b % 2 ^ 32) ^^^
      (((y ^^^ (y >>> 16)) * 0x85ebca6b % 2 ^ 32) >>> 13)) * 0xc2b2ae35 % 2 ^ 32 <
      2 ^ 32 := Nat.mod_lt _ (by norm_num)
  have h1 := xs16_inj _ _ hdx hdy h
  have h2 := mulMod_inj 0xc2b2ae35 (by norm_num) _ _ hcx hcy h1
  have h3 := xs13_inj _ _ hbx hby h2
  have h4 := mulMod_inj 0x85ebca6b (by norm_num) _ _ hax hay h3
  exact xs16_inj x y hx hy h4

theorem toSigned32_inj (a b : Nat) (ha : a < 2 ^ 32) (hb : b < 2 ^ 32)
    (h : toSigned 32 a = toSigned 32 b) : a = b := by
  simp only [toSigned] at h
  norm_num at ha hb
  split at h <;> split at h <;> omega

/-- Flipping any single bit of a byte string whose length is a multiple of
four always changes `murmur32` (every stage of the hash is injective in
the evolving state). -/
theorem murmur32_flip_ne (d : List Nat) (hb : ∀ x ∈ d, x < 256)
    (h4 : d.length % 4 = 0) (i j : Nat) (hi : i < d.length) (hj : j < 8)
    (seed : Nat) (hs : seed < 2 ^ 32) :
    murmur32 (flipBit d i j) seed ≠ murmur32 d seed := by
  intro heq
  simp only [murmur32] at heq
  have ht1 : (leBlocks (flipBit d i j)).2 = [] := by
    apply leBlocks_snd_nil
    rw [flipBit_length]
    exact h4
  have ht2 : (leBlocks d).2 = [] := leBlocks_snd_nil d h4
  rw [show leBlocks (flipBit d i j) =
      ((leBlocks (flipBit d i j)).1, (leBlocks (flipBit d i j)).2) from rfl] at heq
  rw [show leBlocks d = ((leBlocks d).1, (leBlocks d).2) from rfl] at heq
  rw [ht1, ht2] at heq
  simp only [List.isEmpty_nil, if_pos, flipBit_length] at heq
  have hB1 : murmurBody seed (leBlocks (flipBit d i j)).1 < 2 ^ 32 :=
    murmurBody_lt _ seed hs
  have hB2 : murmurBody seed (leBlocks d).1 < 2 ^ 32 :=
    murmurBody_lt _ seed hs
  have hL : d.length % 2 ^ 32 < 2 ^ 32 := Nat.mod_lt _ (by norm_num)
  have hxor1 : murmurBody seed (leBlocks (flipBit d i j)).1 ^^^ d.length % 2 ^ 32 <
      2 ^ 32 := Nat.xor_lt_two_pow hB1 hL
  have hxor2 : murmurBody seed (leBlocks d).1 ^^^ d.length % 2 ^ 32 < 2 ^ 32 :=
    Nat.xor_lt_two_pow hB2 hL
  have h5 := fmix32_inj _ _ hxor1 hxor2 heq
  have h6 := xor_cancel_right_nat _ _ _ h5
  exact murmurBody_flip_ne d hb h4 i j seed hi hj hs h6

/-!
## Claim C6: the key integrity check
-/

theorem keyCheck_ok_elim (d : List Nat) (k s : List Nat)
    (h : decryptKeyCheck d = KeyResult.ok k s) :
    52 ≤ d.length ∧ k = d.take 32 ∧ s = (d.drop 32).take 16 ∧
      toSigned 32 (leNat ((d.drop 48).take 4)) =
        murmurTelegram (d.take 32 ++ (d.drop 32).take 16) := by
  simp only [decryptKeyCheck] at h
  split at h
  · next hlen =>
    have hd : 52 ≤ d.length := by
      simp only [List.length_take, List.length_drop] at hlen
      omega
    split at h
    · exact absurd h (by simp)
    · next hne =>
      push_neg at hne
      injection h with h1 h2
      exact ⟨hd, h1.symm, h2.symm, hne⟩
  · exact absurd h (by simp)

theorem keyCheck_integrity_iff (d : List Nat) (hd : 52 ≤ d.length) :
    decryptKeyCheck d = KeyResult.integrityError ↔
      toSigned 32 (leNat ((d.drop 48).take 4)) ≠
        murmurTelegram (d.take 32 ++ (d.drop 32).take 16) := by
  have h4 : ((d.drop 48).take 4).length = 4 := by
    simp only [List.length_take, List.length_drop]
    omega
  by_cases hne : toSigned 32 (leNat ((d.drop 48).take 4)) =
      murmurTelegram (d.take 32 ++ (d.drop 32).take 16)
  · simp [decryptKeyCheck, h4, hne]
  · simp [decryptKeyCheck, h4, hne]

theorem getD_take48 (d : List Nat) (i : Nat) (hi : i < 48) :
    (d.take 48).getD i 0 = d.getD i 0 := by
  simp [List.getD_eq_getElem?_getD, List.getElem?_take, hi]

theorem keySalt_eq_take48 (d : List Nat) :
    d.take 32 ++ (d.drop 32).take 16 = d.take 48 := by
  rw [show (48 : Nat) = 32 + 16 from rfl, List.take_add]

theorem fmix32_lt (h : Nat) : fmix32 h < 2 ^ 32 := by
  simp only [fmix32]
  exact xorshift_lt _ 16 (Nat.mod_lt _ (by norm_num))

theorem murmur32_lt (data : List Nat) (seed : Nat) : murmur32 data seed < 2 ^ 32 := by
  simp only [murmur32]
  rw [show leBlocks data = ((leBlocks data).1, (leBlocks data).2) from rfl]
  exact fmix32_lt _

theorem leNat_four_lt (x0 x1 x2 x3 : Nat) (h0 : x0 < 256) (h1 : x1 < 256)
    (h2 : x2 < 256) (h3 : x3 < 256) : leNat [x0, x1, x2, x3] < 2 ^ 32 := by
  simp only [leNat]
  norm_num
  omega

/-- C6 (amended, part of the machinery): flipping a bit among the first
48 bytes (key or salt) of a valid decrypted blob makes the check fail. -/
theorem keyCheck_flip_keysalt (d : List Nat) (i j : Nat) (k s : List Nat)
    (hb : ∀ x ∈ d, x < 256) (hi : i < 48) (hj : j < 8)
    (hok : decryptKeyCheck d = KeyResult.ok k s) :
    decryptKeyCheck (flipBit d i j) = KeyResult.integrityError := by
  obtain ⟨hd, -, -, hstored⟩ := keyCheck_ok_elim d k s hok
  have hlen : (flipBit d i j).length = d.length := flipBit_length d i j
  rw [keyCheck_integrity_iff _ (by omega)]
  have hdrop : (flipBit d i j).drop 48 = d.drop 48 := by
    simp only [flipBit]
    exact List.drop_set_of_lt _ d (by omega)
  have htake : (flipBit d i j).take 48 = flipBit (d.take 48) i j := by
    simp only [flipBit, List.set_take, getD_take48 d i hi]
  rw [hdrop, keySalt_eq_take48, htake]
  rw [keySalt_eq_take48] at hstored
  rw [hstored]
  intro heq
  simp only [murmurTelegram, mmh3hash] at heq
  have hseed : (murmurSeed % 2 ^ 32).toNat < 2 ^ 32 := by decide
  have hmur := toSigned32_inj _ _ (murmur32_lt _ _) (murmur32_lt _ _) heq
  have hlen48 : (d.take 48).length = 48 := by
    simp
    omega
  exact murmur32_flip_ne (d.take 48)
    (fun x hx => hb x (List.mem_of_mem_take hx))
    (by rw [hlen48]) i j (by omega) hj _ hseed hmur.symm

/-- C6 (amended, machinery): flipping a bit among bytes 48–51 (the stored
hash) of a valid decrypted blob makes the check fail. -/
theorem keyCheck_flip_hash (d : List Nat) (i j : Nat) (k s : List Nat)
    (hb : ∀ x ∈ d, x < 256) (hi48 : 48 ≤ i) (hi52 : i < 52) (hj : j < 8)
    (hok : decryptKeyCheck d = KeyResult.ok k s) :
    decryptKeyCheck (flipBit d i j) = KeyResult.integrityError := by
  obtain ⟨hd, -, -, hstored⟩ := keyCheck_ok_elim d k s hok
  have hlen := flipBit_length d i j
  rw [keyCheck_integrity_iff _ (by omega)]
  have htake48 : (flipBit d i j).take 48 = d.take 48 := by
    simp only [flipBit, List.set_take]
    exact List.set_eq_of_length_le (by simp; omega)
  have hsplit1 : (flipBit d i j).take 32 ++ ((flipBit d i j).drop 32).take 16 =
      d.take 32 ++ (d.drop 32).take 16 := by
    rw [keySalt_eq_take48, keySalt_eq_take48, htake48]
  have hhash : ((flipBit d i j).drop 48).take 4 =
      ((d.drop 48).take 4).set (i - 48) (d.getD i 0 ^^^ (1 <<< j)) := by
    simp only [flipBit, List.drop_set]
    rw [if_neg (by omega)]
    rw [List.set_take]
  rw [hsplit1, hhash, ← hstored]
  have h4 : ((d.drop 48).take 4).length = 4 := by
    simp only [List.length_take, List.length_drop]
    omega
  have hbyte : d.getD i 0 = ((d.drop 48).take 4).getD (i - 48) 0 := by
    have e1 : ((d.drop 48).take 4).getD (i - 48) 0 = (d.drop 48).getD (i - 48) 0 := by
      simp [List.getD_eq_getElem?_getD, List.getElem?_take, show i - 48 < 4 by omega]
    have e2 : (d.drop 48).getD (i - 48) 0 = d.getD (48 + (i - 48)) 0 := by
      simp [List.getD_eq_getElem?_getD, List.getElem?_drop]
    rw [e1, e2, show 48 + (i - 48) = i by omega]
  rcases hL : (d.drop 48).take 4 with - | ⟨x0, t0⟩
  · rw [hL] at h4
    simp at h4
  rcases t0 with - | ⟨x1, t1⟩
  · rw [hL] at h4
    simp at h4
  rcases t1 with - | ⟨x2, t2⟩
  · rw [hL] at h4
    simp at h4
  rcases t2 with - | ⟨x3, t3⟩
  · rw [hL] at h4
    simp at h4
  rcases t3 with - | ⟨x4, t4⟩
  · rw [hL] at hbyte
    have hx0 : x0 < 256 := hb x0 (List.mem_of_mem_drop (List.mem_of_mem_take (by rw [hL]; simp)))
    have hx1 : x1 < 256 := hb x1 (List.mem_of_mem_drop (List.mem_of_mem_take (by rw [hL]; simp)))
    have hx2 : x2 < 256 := hb x2 (List.mem_of_mem_drop (List.mem_of_mem_take (by rw [hL]; simp)))
    have hx3 : x3 < 256 := hb x3 (List.mem_of_mem_drop (List.mem_of_mem_take (by rw [hL]; simp)))
    rw [hbyte]
    intro heq
    have hm : i - 48 = 0 ∨ i - 48 = 1 ∨ i - 48 = 2 ∨ i - 48 = 3 := by omega
    rcases hm with hm | hm | hm | hm <;> rw [hm] at heq
    · have hlt1 : leNat [x0 ^^^ (1 <<< j), x1, x2, x3] < 2 ^ 32 :=
        leNat_four_lt _ _ _ _ (byte_flip_lt x0 j hx0 hj) hx1 hx2 hx3
      have hlt2 : leNat [x0, x1, x2, x3] < 2 ^ 32 := leNat_four_lt _ _ _ _ hx0 hx1 hx2 hx3
      have heq2 := toSigned32_inj _ _ (by simpa using hlt1) hlt2 (by simpa using heq)
      simp only [leNat] at heq2
      apply xor_flip_ne x0 j
      omega
    · have hlt1 : leNat [x0, x1 ^^^ (1 <<< j), x2, x3] < 2 ^ 32 :=
        leNat_four_lt _ _ _ _ hx0 (byte_flip_lt x1 j hx1 hj) hx2 hx3
      have hlt2 : leNat [x0, x1, x2, x3] < 2 ^ 32 := leNat_four_lt _ _ _ _ hx0 hx1 hx2 hx3
      have heq2 := toSigned32_inj _ _ (by simpa using hlt1) hlt2 (by simpa using heq)
      simp only [leNat] at heq2
      apply xor_flip_ne x1 j
      omega
    · have hlt1 : leNat [x0, x1, x2 ^^^ (1 <<< j), x3] < 2 ^ 32 :=
        leNat_four_lt _ _ _ _ hx0 hx1 (byte_flip_lt x2 j hx2 hj) hx3
      have hlt2 : leNat [x0, x1, x2, x3] < 2 ^ 32 := leNat_four_lt _ _ _ _ hx0 hx1 hx2 hx3
      have heq2 := toSigned32_inj _ _ (by simpa using hlt1) hlt2 (by simpa using heq)
      simp only [leNat] at heq2
      apply xor_flip_ne x2 j
      omega
    · have hlt1 : leNat [x0, x1, x2, x3 ^^^ (1 <<< j)] < 2 ^ 32 :=
        leNat_four_lt _ _ _ _ hx0 hx1 hx2 (byte_flip_lt x3 j hx3 hj)
      have hlt2 : leNat [x0, x1, x2, x3] < 2 ^ 32 := leNat_four_lt _ _ _ _ hx0 hx1 hx2 hx3
      have heq2 := toSigned32_inj _ _ (by simpa using hlt1) hlt2 (by simpa using heq)
      simp only [leNat] at heq2
      apply xor_flip_ne x3 j
      omega
  · rw [hL] at h4
    simp at h4

/-- The decrypted plaintext of a 64-byte wrapped-key blob: 32 key bytes
(0–31), 16 salt bytes (32–47), the correct stored hash, and 12 trailing
bytes in the AES padding region that the check never reads. -/
def c6blob : List Nat :=
  List.range 48 ++ [91, 111, 208, 71] ++ List.replicate 12 0

set_option maxRecDepth 100000 in
/-- C6 counterexample: the decrypted wrapped-key blob is longer than 52
bytes (AES-CBC pads to a block multiple), and flipping a bit in the
trailing region (byte 52) leaves the integrity check passing — so
"flipping any single bit in a valid wrapped-key blob makes the integrity
check fail" is false as stated. -/
theorem C6_counterexample :
    decryptKeyCheck c6blob =
      KeyResult.ok (c6blob.take 32) ((c6blob.drop 32).take 16) ∧
    flipBit c6blob 52 0 ≠ c6blob ∧
    decryptKeyCheck (flipBit c6blob 52 0) =
      KeyResult.ok (c6blob.take 32) ((c6blob.drop 32).take 16) :=
  ⟨by decide, by decide, by decide⟩

/-- C6 (amended): the check fails with an integrity error iff the stored
hash (4 bytes at offset 48 of the decrypted blob, signed little-endian)
differs from MurmurHash3_x86_32(key ∥ salt, seed −137723950); on success
it returns exactly that (key, salt) pair; and flipping any single bit in
the first 52 bytes of a valid decrypted blob makes the check fail (bits
beyond offset 52 are never read). -/
theorem C6_key_integrity :
    (∀ d : List Nat, 52 ≤ d.length →
      (decryptKeyCheck d = KeyResult.integrityError ↔
        toSigned 32 (leNat ((d.drop 48).take 4)) ≠
          murmurTelegram (d.take 32 ++ (d.drop 32).take 16))) ∧
    (∀ (d k s : List Nat), decryptKeyCheck d = KeyResult.ok k s →
      k = d.take 32 ∧ s = (d.drop 32).take 16 ∧
        toSigned 32 (leNat ((d.drop 48).take 4)) = murmurTelegram (k ++ s)) ∧
    (∀ (d : List Nat) (i j : Nat) (k s : List Nat), (∀ x ∈ d, x < 256) →
      i < 52 → j < 8 → decryptKeyCheck d = KeyResult.ok k s →
      decryptKeyCheck (flipBit d i j) = KeyResult.integrityError) := by
  refine ⟨?_, ?_, ?_⟩
  · intro d hd
    exact keyCheck_integrity_iff d hd
  · intro d k s h
    obtain ⟨-, h1, h2, h3⟩ := keyCheck_ok_elim d k s h
    refine ⟨h1, h2, ?_⟩
    rw [h1, h2]
    exact h3
  · intro d i j k s hb hi hj hok
    by_cases hi48 : i < 48
    · exact keyCheck_flip_keysalt d i j k s hb hi48 hj hok
    · exact keyCheck_flip_hash d i j k s hb (by omega) hi hj hok

set_option maxRecDepth 100000 in
theorem C6_key_integrity_witness :
    (∀ x ∈ c6blob, x < 256) ∧ (0 : Nat) < 52 ∧ (0 : Nat) < 8 ∧
    decryptKeyCheck c6blob =
      KeyResult.ok (c6blob.take 32) ((c6blob.drop 32).take 16) ∧
    decryptKeyCheck (flipBit c6blob 0 0) = KeyResult.integrityError :=
  ⟨by decide, by decide, by decide, by decide,
   C6_key_integrity.2.2 c6blob 0 0 (c6blob.take 32) ((c6blob.drop 32).take 16)
     (by decide) (by decide) (by decide) (by decide)⟩

/-!
## Chat lookup (`find_chats`, `find_peer_by_phone`, `resolve_identifier`)

Python strings are byte lists; `str.lower`, `str.strip`, `str.isdigit` and
the regex digit class act ASCII-wise here, which is exact on ASCII content
(every concrete input below is ASCII).
-/

/-- ASCII decimal digit (the regex class `\d`, `str.isdigit` per byte). -/
def isDigitB (b : Nat) : Bool := decide (48 ≤ b ∧ b ≤ 57)

/-- `re.sub(r"\D", "", s)`: keep only the digits of `s`. -/
def digitsOf (s : List Nat) : List Nat := s.filter isDigitB

/-- `re.search(r"\d", s) is not None`: does `s` contain a digit? -/
def hasDigit (s : List Nat) : Bool := s.any isDigitB

/-- `s.isdigit()`: nonempty and all digits. -/
def isDigits (s : List Nat) : Bool := !s.isEmpty && s.all isDigitB

/-- `int(s)` on a digit string. -/
def strToNat (s : List Nat) : Nat := s.foldl (fun a b => a * 10 + (b - 48)) 0

/-- ASCII whitespace, as stripped by `str.strip()`. -/
def isSpaceB (b : Nat) : Bool := b == 32 || decide (9 ≤ b ∧ b ≤ 13)

/-- `s.strip()`: drop leading and trailing whitespace. -/
def pyStrip (s : List Nat) : List Nat :=
  ((s.dropWhile isSpaceB).reverse.dropWhile isSpaceB).reverse

/-- `s.lower()` (ASCII case folding). -/
def asciiLower (s : List Nat) : List Nat :=
  s.map fun b => if 65 ≤ b ∧ b ≤ 90 then b + 32 else b

/-- Python truthiness of a decoded field value (`if peer.get("title")`,
`if peer_phone`, ...): zero numbers, empty strings/bytes/lists and `None`
are falsy.  A decoded `Double` is `0.0` exactly when its bit pattern is
`+0.0` or `-0.0`. -/
def pvTruthy : PValue → Bool
  | .int32 v => !(v == 0)
  | .int64 v => !(v == 0)
  | .bool b => b
  | .double bits => !(bits == 0 || bits == 2 ^ 63)
  | .str s => !s.isEmpty
  | .object d => !d.isEmpty
  | .int32Array xs => !xs.isEmpty
  | .int64Array xs => !xs.isEmpty
  | .objectArray xs => !xs.isEmpty
  | .objectDict ps => !ps.isEmpty
  | .bytes bs => !bs.isEmpty
  | .nil => false
  | .strArray xs => !xs.isEmpty
  | .bytesArray xs => !xs.isEmpty

/-- Decimal digits of a natural number, as ASCII bytes (`str(n)`). -/
def natDecRepr (n : Nat) : List Nat := (Nat.toDigits 10 n).map Char.toNat

/-- `str(v)` for a Python int. -/
def intRepr (v : Int) : List Nat :=
  if v < 0 then 45 :: natDecRepr (-v).toNat else natDecRepr v.toNat

/-- Python `str()` of a decoded field value, as applied by the f-string
interpolations of `find_chats` and `_peer_display_name`.  Strings are
themselves; ints, bools and `None` render as Python renders them.  The
Python repr of floats, bytes and lists is an algorithm of its own and is
given a fixed marker rendering here: no theorem below depends on those
cases (each is either independent of this function or applied to
string-valued fields only). -/
def pvToStr : PValue → List Nat
  | .str s => s
  | .int32 v => intRepr v
  | .int64 v => intRepr v
  | .bool b => if b then [84, 114, 117, 101] else [70, 97, 108, 115, 101]
  | .nil => [78, 111, 110, 101]
  | .double _ => [60, 102, 108, 111, 97, 116, 62]
  | .object _ => [60, 98, 121, 116, 101, 115, 62]
  | .bytes _ => [60, 98, 121, 116, 101, 115, 62]
  | .int32Array _ => [60, 108, 105, 115, 116, 62]
  | .int64Array _ => [60, 108, 105, 115, 116, 62]
  | .objectArray _ => [60, 108, 105, 115, 116, 62]
  | .objectDict _ => [60, 108, 105, 115, 116, 62]
  | .strArray _ => [60, 108, 105, 115, 116, 62]
  | .bytesArray _ => [60, 108, 105, 115, 116, 62]

/-- `_peer_display_name`: title if truthy, else `f"{first} {last}".strip()`
if nonempty, else `@username` if truthy, else `"Unknown"`. -/
def displayName (p : Peer) : List Nat :=
  if pvTruthy p.title then pvToStr p.title
  else if !(pyStrip (pvToStr p.first_name ++ [32] ++ pvToStr p.last_name)).isEmpty then
    pyStrip (pvToStr p.first_name ++ [32] ++ pvToStr p.last_name)
  else if pvTruthy p.username then 64 :: pvToStr p.username
  else [85, 110, 107, 110, 111, 119, 110]

/-- Does `hay` start with `needle`? -/
def startsWith : List Nat → List Nat → Bool
  | _, [] => true
  | [], _ :: _ => false
  | a :: as, b :: bs => a == b && startsWith as bs

/-- Python substring containment `needle in hay` (the empty needle is
always contained). -/
def containsSub : List Nat → List Nat → Bool
  | [], needle => needle.isEmpty
  | a :: rest, needle => startsWith (a :: rest) needle || containsSub rest needle

/-- One result row of `find_chats` (`{"peer_id", "name", "username",
"phone"}`; the last two are the raw decoded field values). -/
structure ChatHit where
  peer_id : Int
  name : List Nat
  username : PValue
  phone : PValue
  deriving DecidableEq, Repr

/-- `re.sub(r"\D", "", v)` applied to a raw decoded field value: Python's
`re.sub` accepts only strings, so a non-string phone field raises an
uncaught `TypeError`, embedded as `none`. -/
def phoneDigits : PValue → Option (List Nat)
  | .str s => some (digitsOf s)
  | _ => none

/-- The filter of `find_chats`: text substring on
`f"{name} {username} {phone}".lower()`, or phone-digit substring (`pd` is
the peer's already-extracted phone digits) when the query contains a
digit. -/
def chatAccept (qlower qdigits pd : List Nat) (p : Peer) : Bool :=
  containsSub
      (asciiLower (displayName p ++ [32] ++ pvToStr p.username ++ [32] ++
        pvToStr p.phone)) qlower ||
    (!qdigits.isEmpty && containsSub pd qdigits)

/-- The scanning loop of `find_chats`: unparsable peers are skipped, but
`re.sub` on a non-string phone field raises out of the whole call
(`none`); matches are kept in table order. -/
def findChatsGo (qlower qdigits : List Nat) :
    List (Int × List Nat) → Option (List ChatHit)
  | [] => some []
  | (pid, value) :: rest =>
    match parsePeer value with
    | none => findChatsGo qlower qdigits rest
    | some p =>
      match phoneDigits p.phone with
      | none => none
      | some pd =>
        (findChatsGo qlower qdigits rest).map fun tail =>
          if chatAccept qlower qdigits pd p then
            ⟨pid, displayName p, p.username, p.phone⟩ :: tail
          else tail

/-- `find_chats`: `none` when a scanned peer's phone field is not a
string (uncaught `TypeError`). -/
def findChats (rows2 : List (Int × List Nat)) (query : List Nat) :
    Option (List ChatHit) :=
  findChatsGo (asciiLower query) (digitsOf query) rows2

/-- The scanning loop of `find_peer_by_phone`: the first peer whose phone
digits are nonempty and contain the query digits.  The outer `Option` is
the uncaught `TypeError` on a non-string phone field; the inner one is the
function's own `None` result. -/
def findPhoneGo (digits : List Nat) : List (Int × List Nat) → Option (Option Int)
  | [] => some none
  | (pid, value) :: rest =>
    match parsePeer value with
    | none => findPhoneGo digits rest
    | some p =>
      match phoneDigits p.phone with
      | none => none
      | some pd =>
        if !pd.isEmpty && containsSub pd digits then some (some pid)
        else findPhoneGo digits rest

/-- `find_peer_by_phone`: no digits in the query means no scan at all. -/
def findPeerByPhone (rows2 : List (Int × List Nat)) (phone : List Nat) :
    Option (Option Int) :=
  if (digitsOf phone).isEmpty then some none
  else findPhoneGo (digitsOf phone) rows2

/-- `resolve_identifier`: all-digits and `> 100000` is taken as a peer id
directly; otherwise a digit-containing string first tries the phone lookup
and, when that misses, falls through (like a digit-free string) to the
first `find_chats` match; inner `none` when nothing matches; outer `none`
when a lookup raised (nothing in `resolve_identifier` catches). -/
def resolveIdentifier (rows2 : List (Int × List Nat)) (idf : List Nat) :
    Option (Option Int) :=
  if isDigits (pyStrip idf) = true ∧ 100000 < strToNat (pyStrip idf) then
    some (some (Int.ofNat (strToNat (pyStrip idf))))
  else
    match (if hasDigit (pyStrip idf) = true
        then findPeerByPhone rows2 (pyStrip idf) else some none) with
    | none => none
    | some (some pid) => some (some pid)
    | some none =>
      match findChats rows2 (pyStrip idf) with
      | none => none
      | some hits => some (hits.head?.map ChatHit.peer_id)

theorem findPeerByPhone_some_hasDigit (rows2 : List (Int × List Nat))
    (s : List Nat) (pid : Int)
    (h : findPeerByPhone rows2 s = some (some pid)) :
    hasDigit s = true := by
  rw [findPeerByPhone] at h
  by_cases he : (digitsOf s).isEmpty
  · rw [if_pos he] at h
    injection h with h2
    exact Option.noConfusion h2
  · have hne : digitsOf s ≠ [] := by
      intro hc
      rw [hc] at he
      exact he rfl
    rcases List.exists_mem_of_ne_nil (digitsOf s) hne with ⟨x, hx⟩
    rw [digitsOf, List.mem_filter] at hx
    rw [hasDigit]
    exact List.any_eq_true.2 ⟨x, hx.1, hx.2⟩

/-- Phones that parse as strings keep `find_peer_by_phone` from raising. -/
theorem findPhoneGo_isSome (digits : List Nat) (rows2 : List (Int × List Nat))
    (h : ∀ r ∈ rows2, ∀ p : Peer, parsePeer r.2 = some p →
      ∃ s, p.phone = PValue.str s) :
    (findPhoneGo digits rows2).isSome = true := by
  induction rows2 with
  | nil => rfl
  | cons r rest ih =>
    obtain ⟨pid, value⟩ := r
    have ihr := ih fun g hg p hp => h g (by simp [hg]) p hp
    simp only [findPhoneGo]
    cases hp : parsePeer value with
    | none => exact ihr
    | some p =>
      rcases h (pid, value) (by simp) p hp with ⟨s, hs⟩
      simp only [hs, phoneDigits]
      by_cases hc : (!(digitsOf s).isEmpty && containsSub (digitsOf s) digits) = true
      · rw [if_pos hc]
        rfl
      · rw [if_neg hc]
        exact ihr

/-- Phones that parse as strings keep `find_chats` from raising. -/
theorem findChatsGo_isSome (ql qd : List Nat) (rows2 : List (Int × List Nat))
    (h : ∀ r ∈ rows2, ∀ p : Peer, parsePeer r.2 = some p →
      ∃ s, p.phone = PValue.str s) :
    (findChatsGo ql qd rows2).isSome = true := by
  induction rows2 with
  | nil => rfl
  | cons r rest ih =>
    obtain ⟨pid, value⟩ := r
    have ihr := ih fun g hg p hp => h g (by simp [hg]) p hp
    simp only [findChatsGo]
    cases hp : parsePeer value with
    | none => exact ihr
    | some p =>
      rcases h (pid, value) (by simp) p hp with ⟨s, hs⟩
      simp only [hs, phoneDigits]
      rcases Option.isSome_iff_exists.1 ihr with ⟨tail, htail⟩
      rw [htail]
      rfl

/-- A peer blob whose only populated field is the username `"a1"`. -/
def c7inner : List Nat := encStream [([117, 110], PValue.str [97, 49])]

/-- The full peer value blob: root object `"_"` wrapping `c7inner`. -/
def c7blob : List Nat := encStream [([95], PValue.object c7inner)]

/-- The peer decoded from `c7blob`. -/
def c7peer : Peer :=
  ⟨PValue.str [], PValue.str [], PValue.str [97, 49], PValue.str [],
    PValue.str []⟩

/-- The one-row peer table used for the C7 counterexample. -/
def c7rows : List (Int × List Nat) := [(500, c7blob)]

theorem parsePeer_c7blob : parsePeer c7blob = some c7peer := by
  have hfields : decodeAllFields c7inner = [([117, 110], PValue.str [97, 49])] := by
    simp only [decodeAllFields]
    have he : c7inner = encField ([117, 110], PValue.str [97, 49]) ++ [] := by
      simp [c7inner, encStream, concatMap]
    rw [he, decodeAllGo_encField _ _ _ _ (by decide) (by decide), decodeAllGo_nil]
    decide
  rw [parsePeer, if_neg (by decide)]
  have he2 : c7blob = encField ([95], PValue.object c7inner) ++ [] := by
    simp [c7blob, encStream, concatMap]
  rw [he2, parsePeerGo_match c7inner [] (by decide), hfields]
  decide

theorem findPeerByPhone_c7 : findPeerByPhone c7rows [97, 49] = some none := by
  rw [findPeerByPhone, if_neg (by decide)]
  show findPhoneGo [49] c7rows = some none
  simp only [c7rows, findPhoneGo, parsePeer_c7blob]
  decide

theorem findChats_c7 :
    findChats c7rows [97, 49] =
      some [⟨500, [64, 97, 49], PValue.str [97, 49], PValue.str []⟩] := by
  simp only [findChats, c7rows, findChatsGo, parsePeer_c7blob]
  decide

/-- A peer blob whose only populated field is a phone that decodes to the
integer 5 (a well-formed TaggedStream, but `re.sub` raises on it). -/
def c7badInner : List Nat := encStream [([112], PValue.int64 5)]

/-- The full bad-phone peer value blob. -/
def c7badBlob : List Nat := encStream [([95], PValue.object c7badInner)]

/-- The peer decoded from `c7badBlob`. -/
def c7badPeer : Peer :=
  ⟨PValue.str [], PValue.str [], PValue.str [], PValue.str [],
    PValue.int64 5⟩

theorem parsePeer_c7badBlob : parsePeer c7badBlob = some c7badPeer := by
  have hfields : decodeAllFields c7badInner = [([112], PValue.int64 5)] := by
    simp only [decodeAllFields]
    have he : c7badInner = encField ([112], PValue.int64 5) ++ [] := by
      simp [c7badInner, encStream, concatMap]
    rw [he, decodeAllGo_encField _ _ _ _ (by decide) (by decide), decodeAllGo_nil]
    decide
  rw [parsePeer, if_neg (by decide)]
  have he2 : c7badBlob = encField ([95], PValue.object c7badInner) ++ [] := by
    simp [c7badBlob, encStream, concatMap]
  rw [he2, parsePeerGo_match c7badInner [] (by decide), hfields]
  decide

theorem findPeerByPhone_c7bad :
    findPeerByPhone [(600, c7badBlob)] [97, 49] = none := by
  rw [findPeerByPhone, if_neg (by decide)]
  show findPhoneGo [49] [(600, c7badBlob)] = none
  simp only [findPhoneGo, parsePeer_c7badBlob]
  decide

/-!
## Claim C7: `resolve_identifier` branch structure
-/

/-- C7 counterexample: the identifier `"a1"` contains a digit and is not
an all-digits peer id, so per the claim it should resolve via the
phone-digit match only and never raise; yet (a) on a table where the phone
lookup misses, `resolve_identifier` falls through to `find_chats` and
resolves to peer 500 by username, and (b) on a table holding a well-formed
peer blob whose phone field decodes to an integer, the phone lookup raises
an uncaught `TypeError` out of `resolve_identifier`. -/
theorem C7_counterexample :
    hasDigit (pyStrip [97, 49]) = true ∧
    ¬(isDigits (pyStrip [97, 49]) = true ∧ 100000 < strToNat (pyStrip [97, 49])) ∧
    findPeerByPhone c7rows (pyStrip [97, 49]) = some none ∧
    resolveIdentifier c7rows [97, 49] = some (some 500) ∧
    findPeerByPhone [(600, c7badBlob)] (pyStrip [97, 49]) = none ∧
    resolveIdentifier [(600, c7badBlob)] [97, 49] = none := by
  have hs : pyStrip [97, 49] = [97, 49] := by decide
  refine ⟨by decide, by decide, by rw [hs]; exact findPeerByPhone_c7, ?_,
    by rw [hs]; exact findPeerByPhone_c7bad, ?_⟩
  · rw [resolveIdentifier, if_neg (by decide), hs,
      if_pos (show hasDigit [97, 49] = true by decide), findPeerByPhone_c7]
    rw [findChats_c7]
    rfl
  · rw [resolveIdentifier, if_neg (by decide), hs,
      if_pos (show hasDigit [97, 49] = true by decide), findPeerByPhone_c7bad]

/-- C7 (amended): after stripping, an all-digits identifier above 100000
is returned directly (independently of the tables); otherwise a hit of the
phone-digit lookup — only possible when the identifier contains a digit —
is returned; when the phone lookup returns `None` (including when it was
never tried for digit-free identifiers) the result is the peer id of the
first `find_chats` match, inner `none` when there is no match; an uncaught
`TypeError` from either lookup (a scanned peer whose phone field decodes
to a non-string) propagates out; when every parsed peer's phone field is a
string, no branch raises. -/
theorem C7_resolve_branches (rows2 : List (Int × List Nat)) (idf : List Nat) :
    (isDigits (pyStrip idf) = true ∧ 100000 < strToNat (pyStrip idf) →
      resolveIdentifier rows2 idf =
        some (some (Int.ofNat (strToNat (pyStrip idf))))) ∧
    (¬(isDigits (pyStrip idf) = true ∧ 100000 < strToNat (pyStrip idf)) →
      ∀ pid : Int, findPeerByPhone rows2 (pyStrip idf) = some (some pid) →
        hasDigit (pyStrip idf) = true ∧
          resolveIdentifier rows2 idf = some (some pid)) ∧
    (¬(isDigits (pyStrip idf) = true ∧ 100000 < strToNat (pyStrip idf)) →
      findPeerByPhone rows2 (pyStrip idf) = some none →
      resolveIdentifier rows2 idf =
        (findChats rows2 (pyStrip idf)).map fun hits =>
          hits.head?.map ChatHit.peer_id) ∧
    (¬(isDigits (pyStrip idf) = true ∧ 100000 < strToNat (pyStrip idf)) →
      hasDigit (pyStrip idf) = true →
      findPeerByPhone rows2 (pyStrip idf) = none →
      resolveIdentifier rows2 idf = none) ∧
    ((∀ r ∈ rows2, ∀ p : Peer, parsePeer r.2 = some p →
        ∃ s, p.phone = PValue.str s) →
      (resolveIdentifier rows2 idf).isSome = true) := by
  refine ⟨?_, ?_, ?_, ?_, ?_⟩
  · intro h
    rw [resolveIdentifier, if_pos h]
  · intro hno pid hp
    have hd : hasDigit (pyStrip idf) = true :=
      findPeerByPhone_some_hasDigit rows2 (pyStrip idf) pid hp
    refine ⟨hd, ?_⟩
    rw [resolveIdentifier, if_neg hno, if_pos hd, hp]
  · intro hno hp
    rw [resolveIdentifier, if_neg hno]
    by_cases hd : hasDigit (pyStrip idf) = true
    · rw [if_pos hd, hp]
      cases hfc : findChats rows2 (pyStrip idf) <;> rfl
    · rw [if_neg hd]
      cases hfc : findChats rows2 (pyStrip idf) <;> rfl
  · intro hno hd hp
    rw [resolveIdentifier, if_neg hno, if_pos hd, hp]
  · intro hstr
    rw [resolveIdentifier]
    by_cases hbig : isDigits (pyStrip idf) = true ∧ 100000 < strToNat (pyStrip idf)
    · rw [if_pos hbig]
      rfl
    · rw [if_neg hbig]
      have hph : (findPeerByPhone rows2 (pyStrip idf)).isSome = true := by
        rw [findPeerByPhone]
        by_cases he : (digitsOf (pyStrip idf)).isEmpty
        · rw [if_pos he]
          rfl
        · rw [if_neg he]
          exact findPhoneGo_isSome _ rows2 hstr
      have hfc : (findChats rows2 (pyStrip idf)).isSome = true :=
        findChatsGo_isSome _ _ rows2 hstr
      rcases Option.isSome_iff_exists.1 hfc with ⟨hits, hh⟩
      by_cases hd : hasDigit (pyStrip idf) = true
      · rw [if_pos hd]
        rcases Option.isSome_iff_exists.1 hph with ⟨o, ho⟩
        rw [ho]
        cases o with
        | none =>
          rw [hh]
          rfl
        | some pid => rfl
      · rw [if_neg hd]
        rw [hh]
        rfl

theorem C7_resolve_branches_witness :
    resolveIdentifier [] [50, 48, 48, 48, 48, 48] =
      some (some (Int.ofNat (strToNat (pyStrip [50, 48, 48, 48, 48, 48])))) :=
  (C7_resolve_branches [] [50, 48, 48, 48, 48, 48]).1 (by decide)

/-!
## `read_messages` and the `t7` row selection

The SQL layer (`WHERE substr(key, 1, 8) = ?`, `ORDER BY key DESC`,
`LIMIT ?`) is embedded as filter, sort by SQLite's binary blob comparison
(bytewise, a strict prefix sorting first), and take.  `datetime.strftime`
formatting of timestamps is not modeled: records keep the raw epoch
value it is computed from.
-/

/-- SQLite binary blob order (memcmp; a strict prefix is smaller). -/
def blobLe : List Nat → List Nat → Bool
  | [], _ => true
  | _ :: _, [] => false
  | a :: as, b :: bs => if a < b then true else if b < a then false else blobLe as bs

theorem blobLe_total : ∀ a b : List Nat, blobLe a b = true ∨ blobLe b a = true := by
  intro a
  induction a with
  | nil =>
    intro b
    left
    rfl
  | cons x xs ih =>
    intro b
    cases b with
    | nil =>
      right
      rfl
    | cons y ys =>
      simp only [blobLe]
      by_cases h1 : x < y
      · left
        rw [if_pos h1]
      · rw [if_neg h1]
        by_cases h2 : y < x
        · right
          rw [if_pos h2]
        · rw [if_neg h2, if_neg h2, if_neg h1]
          exact ih ys

theorem blobLe_trans : ∀ a b c : List Nat, blobLe a b = true →
    blobLe b c = true → blobLe a c = true := by
  intro a
  induction a with
  | nil => intro b c _ _; rfl
  | cons x xs ih =>
    intro b c hab hbc
    cases b with
    | nil => exact absurd hab (by simp [blobLe])
    | cons y ys =>
      cases c with
      | nil => exact absurd hbc (by simp [blobLe])
      | cons z zs =>
        simp only [blobLe] at hab hbc ⊢
        by_cases h1 : x < y
        · rw [if_pos h1] at hab
          by_cases h2 : y < z
          · rw [if_pos (by omega : x < z)]
          · rw [if_neg h2] at hbc
            by_cases h3 : z < y
            · rw [if_pos h3] at hbc
              exact absurd hbc (by simp)
            · rw [if_pos (by omega : x < z)]
        · rw [if_neg h1] at hab
          by_cases h4 : y < x
          · rw [if_pos h4] at hab
            exact absurd hab (by simp)
          · rw [if_neg h4] at hab
            by_cases h2 : y < z
            · rw [if_pos (by omega : x < z)]
            · rw [if_neg h2] at hbc
              by_cases h3 : z < y
              · rw [if_pos h3] at hbc
                exact absurd hbc (by simp)
              · rw [if_neg h3] at hbc
                rw [if_neg (by omega : ¬ x < z), if_neg (by omega : ¬ z < x)]
                exact ih ys zs hab hbc

/-- `ORDER BY key DESC` as a relation on `(key, value)` rows. -/
def keyDesc (a b : List Nat × List Nat) : Prop := blobLe b.1 a.1 = true

instance : DecidableRel keyDesc :=
  fun a b => inferInstanceAs (Decidable (blobLe b.1 a.1 = true))

instance : IsTotal (List Nat × List Nat) keyDesc :=
  ⟨fun a b => blobLe_total b.1 a.1⟩

instance : IsTrans (List Nat × List Nat) keyDesc :=
  ⟨fun _ b _ hab hbc => blobLe_trans _ b.1 _ hbc hab⟩

/-- `ORDER BY key ASC` as a relation on `(key, value)` rows. -/
def keyAsc (a b : List Nat × List Nat) : Prop := blobLe a.1 b.1 = true

instance : DecidableRel keyAsc :=
  fun a b => inferInstanceAs (Decidable (blobLe a.1 b.1 = true))

/-- The row set of `read_messages`: keys whose first 8 bytes are the
big-endian peer id, newest key first, at most `lim` rows. -/
def selectRows (rows7 : List (List Nat × List Nat)) (pid : Int) (lim : Nat) :
    List (List Nat × List Nat) :=
  (List.insertionSort keyDesc
    (rows7.filter fun r => r.1.take 8 == intBE 8 pid)).take lim

/-- `_get_peer`: first `t2` row with the given key, all-empty default when
the row is missing or its blob has no root object. -/
def getPeer (rows2 : List (Int × List Nat)) (pid : Int) : Peer :=
  match rows2.find? fun r => r.1 == pid with
  | none => emptyPeer
  | some r => (parsePeer r.2).getD emptyPeer

/-- `msg["author_id"] or idx["peer_id"]` (Python `or`: `None` and `0` both
fall back to the peer id). -/
def authorOf (idx : MsgKey) (msg : MsgVal) : Int :=
  match msg.author_id with
  | none => idx.peer_id
  | some a => if a = 0 then idx.peer_id else a

/-- The sender column: the author's display name for incoming messages,
`"Me"` otherwise. -/
def mkSender (rows2 : List (Int × List Nat)) (idx : MsgKey) (msg : MsgVal) :
    List Nat :=
  if msg.incoming then displayName (getPeer rows2 (authorOf idx msg))
  else [77, 101]

/-- One result row of `read_messages` (with the raw epoch timestamp the
formatted column is computed from). -/
structure MsgOut where
  timestamp : Int
  sender : List Nat
  text : List Nat
  edited : Bool
  peer_id : Int
  message_id : Int
  deriving DecidableEq, Repr

/-- The per-row body of the `read_messages` loop after the key has been
parsed: records with unparsable values or empty text are dropped. -/
def rowOutIdx (rows2 : List (Int × List Nat)) (idx : MsgKey)
    (value : List Nat) : Option MsgOut :=
  match parseMessageValue value with
  | none => none
  | some msg =>
    if msg.text.isEmpty then none
    else some ⟨idx.timestamp, mkSender rows2 idx msg, msg.text, false,
      idx.peer_id, idx.message_id⟩

/-- The full per-row function of `read_messages`. -/
def rowOut (rows2 : List (Int × List Nat)) (r : List Nat × List Nat) :
    Option MsgOut :=
  (parseMessageKey r.1).bind fun idx => rowOutIdx rows2 idx r.2

/-- The `read_messages` loop: `_parse_message_key` is called first on every
row and its `EOFError` is not caught, so one short key fails the whole
call (`none`). -/
def readMessagesGo (rows2 : List (Int × List Nat)) :
    List (List Nat × List Nat) → Option (List MsgOut)
  | [] => some []
  | r :: rest =>
    (parseMessageKey r.1).bind fun idx =>
      (readMessagesGo rows2 rest).map fun tail =>
        match rowOutIdx rows2 idx r.2 with
        | none => tail
        | some m => m :: tail

/-- `read_messages` over given `t7` and `t2` tables. -/
def readMessages (rows7 : List (List Nat × List Nat))
    (rows2 : List (Int × List Nat)) (pid : Int) (lim : Nat) :
    Option (List MsgOut) :=
  readMessagesGo rows2 (selectRows rows7 pid lim)

theorem parseMessageKey_isSome (key : List Nat) (h : 20 ≤ key.length) :
    (parseMessageKey key).isSome = true := by
  rw [parseMessageKey, readI64be, readExact, if_pos (by omega)]
  simp only [Option.map_some', Option.some_bind]
  rw [readI32be, readExact, if_pos (by simp only [List.length_drop]; omega)]
  simp only [Option.map_some', Option.some_bind]
  rw [readI32be, readExact,
    if_pos (by simp only [List.length_drop]; omega)]
  simp only [Option.map_some', Option.some_bind]
  rw [readI32be, readExact,
    if_pos (by simp only [List.length_drop]; omega)]
  rfl

theorem selectRows_subset (rows7 : List (List Nat × List Nat)) (pid : Int)
    (lim : Nat) (r : List Nat × List Nat) (hr : r ∈ selectRows rows7 pid lim) :
    r ∈ rows7 :=
  List.mem_of_mem_filter
    ((List.perm_insertionSort keyDesc _).mem_iff.1 (List.mem_of_mem_take hr))

theorem selectRows_key (rows7 : List (List Nat × List Nat)) (pid : Int)
    (lim : Nat) (r : List Nat × List Nat) (hr : r ∈ selectRows rows7 pid lim) :
    r.1.take 8 = intBE 8 pid := by
  have h3 := List.mem_filter.1
    ((List.perm_insertionSort keyDesc _).mem_iff.1 (List.mem_of_mem_take hr))
  simpa using h3.2

theorem selectRows_sorted (rows7 : List (List Nat × List Nat)) (pid : Int)
    (lim : Nat) : (selectRows rows7 pid lim).Pairwise keyDesc := by
  have hs : List.Pairwise keyDesc (List.insertionSort keyDesc
      (rows7.filter fun r => r.1.take 8 == intBE 8 pid)) :=
    List.sorted_insertionSort keyDesc _
  exact hs.sublist (List.take_sublist _ _)

theorem readMessagesGo_eq_filterMap (rows2 : List (Int × List Nat))
    (rs : List (List Nat × List Nat)) (hk : ∀ r ∈ rs, 20 ≤ r.1.length) :
    readMessagesGo rows2 rs = some (rs.filterMap (rowOut rows2)) := by
  induction rs with
  | nil => rfl
  | cons r rest ih =>
    have h1 : (parseMessageKey r.1).isSome = true :=
      parseMessageKey_isSome r.1 (hk r (by simp))
    rcases Option.isSome_iff_exists.1 h1 with ⟨idx, hidx⟩
    simp only [readMessagesGo]
    rw [hidx, Option.some_bind, ih (fun g hg => hk g (by simp [hg])),
      Option.map_some', List.filterMap_cons, rowOut, hidx, Option.some_bind]
    cases hro : rowOutIdx rows2 idx r.2 <;> simp [hro]

/-- A `t7` key for the synthetic tables: peer id, namespace `0`, timestamp,
message id, all big-endian. -/
def c8key (pid ts mid : Int) : List Nat :=
  intBE 8 pid ++ intBE 4 0 ++ intBE 4 ts ++ intBE 4 mid

/-- A minimal parsable message value with the given text: zero
discriminator, empty flag sets, no forward info, no author (outgoing). -/
def c8val (t : List Nat) : List Nat :=
  List.replicate 20 0 ++ intLE 4 (t.length : Int) ++ t

/-- The synthetic message table: 3 records for peer 42, 2 for peer 7, in
scrambled order. -/
def c8rows7 : List (List Nat × List Nat) :=
  [(c8key 42 100 1, c8val [111, 110, 101]),
   (c8key 7 500 4, c8val [121, 49]),
   (c8key 42 300 3, c8val [116, 104, 114]),
   (c8key 7 600 5, c8val [121, 50]),
   (c8key 42 200 2, c8val [116, 119, 111])]

set_option maxRecDepth 100000 in
/-- C8: with well-formed (20-byte-or-longer) keys, `read_messages` returns
exactly the per-row outputs of the selected rows: only keys whose first
8 bytes are the big-endian peer id, in descending key order, at most
`limit` rows, and every kept record has nonempty text.  On the synthetic
table with 3 records for peer 42 and 2 for peer 7, `read_messages(42, 10)`
returns exactly the 3 records of peer 42 in descending timestamp order. -/
theorem C8_read_messages :
    (∀ (rows7 : List (List Nat × List Nat)) (rows2 : List (Int × List Nat))
        (pid : Int) (lim : Nat), (∀ r ∈ rows7, 20 ≤ r.1.length) →
      readMessages rows7 rows2 pid lim =
          some ((selectRows rows7 pid lim).filterMap (rowOut rows2)) ∧
        ((selectRows rows7 pid lim).filterMap (rowOut rows2)).length ≤ lim ∧
        (∀ r ∈ selectRows rows7 pid lim, r.1.take 8 = intBE 8 pid) ∧
        (selectRows rows7 pid lim).Pairwise keyDesc ∧
        (∀ m ∈ (selectRows rows7 pid lim).filterMap (rowOut rows2),
          m.text ≠ [])) ∧
    readMessages c8rows7 [] 42 10 =
      some [⟨300, [77, 101], [116, 104, 114], false, 42, 3⟩,
        ⟨200, [77, 101], [116, 119, 111], false, 42, 2⟩,
        ⟨100, [77, 101], [111, 110, 101], false, 42, 1⟩] := by
  refine ⟨?_, by decide⟩
  intro rows7 rows2 pid lim hk
  refine ⟨?_, ?_, selectRows_key rows7 pid lim, selectRows_sorted rows7 pid lim, ?_⟩
  · rw [readMessages]
    exact readMessagesGo_eq_filterMap rows2 _
      (fun r hr => hk r (selectRows_subset rows7 pid lim r hr))
  · calc ((selectRows rows7 pid lim).filterMap (rowOut rows2)).length
        ≤ (selectRows rows7 pid lim).length := List.length_filterMap_le _ _
      _ ≤ lim := by rw [selectRows]; exact List.length_take_le _ _
  · intro m hm
    rcases List.mem_filterMap.1 hm with ⟨r, _, hro⟩
    rw [rowOut] at hro
    rcases Option.bind_eq_some.1 hro with ⟨idx, _, hro2⟩
    rw [rowOutIdx] at hro2
    cases hpv : parseMessageValue r.2 with
    | none =>
      rw [hpv] at hro2
      exact Option.noConfusion hro2
    | some msg =>
      rw [hpv] at hro2
      simp only [] at hro2
      by_cases ht : msg.text.isEmpty
      · rw [if_pos ht] at hro2
        exact Option.noConfusion hro2
      · rw [if_neg ht] at hro2
        injection hro2 with hm2
        rw [← hm2]
        simpa [List.isEmpty_iff] using ht

set_option maxRecDepth 100000 in
theorem C8_read_messages_witness :
    readMessages c8rows7 [] 42 10 =
        some ((selectRows c8rows7 42 10).filterMap (rowOut [])) ∧
      ((selectRows c8rows7 42 10).filterMap (rowOut [])).length ≤ 10 ∧
      (∀ r ∈ selectRows c8rows7 42 10, r.1.take 8 = intBE 8 42) ∧
      (selectRows c8rows7 42 10).Pairwise keyDesc ∧
      (∀ m ∈ (selectRows c8rows7 42 10).filterMap (rowOut []), m.text ≠ []) :=
  C8_read_messages.1 c8rows7 [] 42 10 (by decide)

/-!
## The remaining bulk scans: `recent_chats`, `search_messages`,
`get_all_messages`
-/

/-- The `peer_latest` dict update: keep the larger timestamp per peer
(Python dicts keep first-seen key order). -/
def updLatest (acc : List (Int × Int)) (pid ts : Int) : List (Int × Int) :=
  match acc with
  | [] => [(pid, ts)]
  | (p, t) :: rest =>
    if p = pid then (if t < ts then (p, ts) else (p, t)) :: rest
    else (p, t) :: updLatest rest pid ts

/-- The key-scanning fold of `recent_chats`: `_parse_message_key` raises
uncaught on every row, so one short key fails the whole call. -/
def collectLatest : List (List Nat) → List (Int × Int) → Option (List (Int × Int))
  | [], acc => some acc
  | k :: ks, acc =>
    (parseMessageKey k).bind fun idx =>
      collectLatest ks (updLatest acc idx.peer_id idx.timestamp)

/-- One result row of `recent_chats` (raw epoch in `last_message`). -/
structure ChatOut where
  peer_id : Int
  name : List Nat
  username : PValue
  phone : PValue
  last_message : Int
  deriving DecidableEq, Repr

/-- `sorted(..., key=lambda x: x[1], reverse=True)` on `(peer, ts)`. -/
def tsDesc (a b : Int × Int) : Prop := b.2 ≤ a.2

instance : DecidableRel tsDesc :=
  fun a b => inferInstanceAs (Decidable (b.2 ≤ a.2))

/-- `recent_chats` over the `t7` key column and the `t2` table. -/
def recentChats (keys7 : List (List Nat)) (rows2 : List (Int × List Nat))
    (lim : Nat) : Option (List ChatOut) :=
  (collectLatest keys7 []).map fun latest =>
    ((List.insertionSort tsDesc latest).take lim).map fun pl =>
      ⟨pl.1, displayName (getPeer rows2 pl.1), (getPeer rows2 pl.1).username,
        (getPeer rows2 pl.1).phone, pl.2⟩

/-- One result row of `search_messages`. -/
structure SearchOut where
  timestamp : Int
  chat_name : List Nat
  sender : List Nat
  text : List Nat
  peer_id : Int
  deriving DecidableEq, Repr

/-- The record built for an accepted `search_messages` row. -/
def mkSearchOut (rows2 : List (Int × List Nat)) (idx : MsgKey) (msg : MsgVal) :
    SearchOut :=
  ⟨idx.timestamp, displayName (getPeer rows2 idx.peer_id),
    mkSender rows2 idx msg, msg.text, idx.peer_id⟩

/-- The `search_messages` loop: the limit is checked against the number of
accepted results before each row; the value is filtered before the key is
parsed, so a bad value is skipped but a bad key on an accepted row fails
the whole call. -/
def searchGo (rows2 : List (Int × List Nat)) (qlower : List Nat) (lim : Nat) :
    List (List Nat × List Nat) → Nat → Option (List SearchOut)
  | [], _ => some []
  | (key, value) :: rest, cnt =>
    if lim ≤ cnt then some []
    else
      match parseMessageValue value with
      | none => searchGo rows2 qlower lim rest cnt
      | some msg =>
        if msg.text.isEmpty then searchGo rows2 qlower lim rest cnt
        else if !containsSub (asciiLower msg.text) qlower then
          searchGo rows2 qlower lim rest cnt
        else
          (parseMessageKey key).bind fun idx =>
            (searchGo rows2 qlower lim rest (cnt + 1)).map fun tail =>
              mkSearchOut rows2 idx msg :: tail

/-- `search_messages` over given tables. -/
def searchMessages (rows7 : List (List Nat × List Nat))
    (rows2 : List (Int × List Nat)) (query : List Nat) (lim : Nat) :
    Option (List SearchOut) :=
  searchGo rows2 (asciiLower query) lim (List.insertionSort keyDesc rows7) 0

/-- One result row of `get_all_messages`. -/
structure ExportOut where
  peer_id : Int
  peer_name : List Nat
  message_id : Int
  timestamp : Int
  text : List Nat
  is_from_me : Bool
  sender_name : Option (List Nat)
  deriving DecidableEq, Repr

/-- The record built for a kept `get_all_messages` row (empty text is
kept here, unlike `read_messages`). -/
def mkExportOut (rows2 : List (Int × List Nat)) (idx : MsgKey) (msg : MsgVal) :
    ExportOut :=
  ⟨idx.peer_id, displayName (getPeer rows2 idx.peer_id), idx.message_id,
    idx.timestamp, msg.text, !msg.incoming,
    if msg.incoming then some (displayName (getPeer rows2 (authorOf idx msg)))
    else none⟩

/-- The `get_all_messages` loop: the key is parsed first on every row
(uncaught on failure), the timestamp filter applies, then unparsable
values are skipped. -/
def getAllGo (rows2 : List (Int × List Nat)) (since : Int) :
    List (List Nat × List Nat) → Option (List ExportOut)
  | [] => some []
  | (key, value) :: rest =>
    (parseMessageKey key).bind fun idx =>
      if idx.timestamp < since then getAllGo rows2 since rest
      else
        match parseMessageValue value with
        | none => getAllGo rows2 since rest
        | some msg =>
          (getAllGo rows2 since rest).map fun tail =>
            mkExportOut rows2 idx msg :: tail

/-- `get_all_messages` over given tables. -/
def getAllMessages (rows7 : List (List Nat × List Nat))
    (rows2 : List (Int × List Nat)) (since : Int) : Option (List ExportOut) :=
  getAllGo rows2 since (List.insertionSort keyAsc rows7)

theorem collectLatest_isSome (ks : List (List Nat))
    (hk : ∀ k ∈ ks, 20 ≤ k.length) :
    ∀ acc, (collectLatest ks acc).isSome = true := by
  induction ks with
  | nil => intro acc; rfl
  | cons k rest ih =>
    intro acc
    rcases Option.isSome_iff_exists.1
      (parseMessageKey_isSome k (hk k (by simp))) with ⟨idx, hidx⟩
    simp only [collectLatest]
    rw [hidx, Option.some_bind]
    exact ih (fun g hg => hk g (by simp [hg])) _

theorem searchGo_isSome (rows2 : List (Int × List Nat)) (ql : List Nat)
    (lim : Nat) (rs : List (List Nat × List Nat))
    (hk : ∀ r ∈ rs, 20 ≤ r.1.length) :
    ∀ cnt, (searchGo rows2 ql lim rs cnt).isSome = true := by
  induction rs with
  | nil => intro cnt; rfl
  | cons r rest ih =>
    intro cnt
    obtain ⟨key, value⟩ := r
    have ihr := ih fun g hg => hk g (by simp [hg])
    simp only [searchGo]
    by_cases hc : lim ≤ cnt
    · rw [if_pos hc]
      rfl
    · rw [if_neg hc]
      cases hpv : parseMessageValue value with
      | none => exact ihr cnt
      | some msg =>
        simp only []
        by_cases ht : msg.text.isEmpty
        · rw [if_pos ht]
          exact ihr cnt
        · rw [if_neg ht]
          by_cases hq : (!containsSub (asciiLower msg.text) ql) = true
          · rw [if_pos hq]
            exact ihr cnt
          · rw [if_neg hq]
            rcases Option.isSome_iff_exists.1
              (parseMessageKey_isSome key (hk (key, value) (by simp))) with ⟨idx, hidx⟩
            rw [hidx, Option.some_bind]
            rcases Option.isSome_iff_exists.1 (ihr (cnt + 1)) with ⟨out, hout⟩
            rw [hout]
            rfl

theorem getAllGo_isSome (rows2 : List (Int × List Nat)) (since : Int)
    (rs : List (List Nat × List Nat)) (hk : ∀ r ∈ rs, 20 ≤ r.1.length) :
    (getAllGo rows2 since rs).isSome = true := by
  induction rs with
  | nil => rfl
  | cons r rest ih =>
    obtain ⟨key, value⟩ := r
    have ihr := ih fun g hg => hk g (by simp [hg])
    rcases Option.isSome_iff_exists.1
      (parseMessageKey_isSome key (hk (key, value) (by simp))) with ⟨idx, hidx⟩
    simp only [getAllGo]
    rw [hidx, Option.some_bind]
    by_cases hts : idx.timestamp < since
    · rw [if_pos hts]
      exact ihr
    · rw [if_neg hts]
      cases hpv : parseMessageValue value with
      | none => exact ihr
      | some msg =>
        simp only []
        rcases Option.isSome_iff_exists.1 ihr with ⟨out, hout⟩
        rw [hout]
        rfl

/-!
## Claim C9: per-record failure tolerance of the bulk scans
-/

set_option maxRecDepth 10000 in
/-- C9 counterexample: one row with a malformed (too short) KEY blob
aborts each of the four bulk scans entirely — `_parse_message_key` raises
an uncaught `EOFError` — even though every other row is valid, so
per-record parse failures are not always swallowed. -/
theorem C9_counterexample :
    recentChats [c8key 42 100 1, []] [] 20 = none ∧
    readMessages [(intBE 8 0 ++ [0], c8val [104, 105]),
      (c8key 0 5 6, c8val [104, 105])] [] 0 20 = none ∧
    searchMessages [([], c8val [104, 105]),
      (c8key 1 2 3, c8val [104, 105])] [] [104] 50 = none ∧
    getAllMessages [([], c8val [104, 105]),
      (c8key 1 2 3, c8val [104, 105])] [] 0 = none :=
  ⟨by decide, by decide, by decide, by decide⟩

/-- C9 (amended): malformed VALUE blobs never abort a scan: with
well-formed keys (at least 20 bytes) every one of the four bulk scans
completes for arbitrary value blobs and peer tables.  But the key blobs
are not protected: `_parse_message_key` raises an uncaught `EOFError` on a
key shorter than 20 bytes, aborting the whole scan. -/
theorem C9_scans_complete (rows7 : List (List Nat × List Nat))
    (rows2 : List (Int × List Nat)) (q : List Nat) (lim : Nat)
    (pid since : Int) (hkeys : ∀ r ∈ rows7, 20 ≤ r.1.length) :
    (recentChats (rows7.map Prod.fst) rows2 lim).isSome = true ∧
    (readMessages rows7 rows2 pid lim).isSome = true ∧
    (searchMessages rows7 rows2 q lim).isSome = true ∧
    (getAllMessages rows7 rows2 since).isSome = true := by
  refine ⟨?_, ?_, ?_, ?_⟩
  · rw [recentChats]
    rcases Option.isSome_iff_exists.1
      (collectLatest_isSome (rows7.map Prod.fst)
        (by
          intro k hk
          rcases List.mem_map.1 hk with ⟨r, hr, hrk⟩
          rw [← hrk]
          exact hkeys r hr) []) with ⟨latest, hl⟩
    rw [hl]
    rfl
  · rw [readMessages, readMessagesGo_eq_filterMap rows2 _
      (fun r hr => hkeys r (selectRows_subset rows7 pid lim r hr))]
    rfl
  · rw [searchMessages]
    exact searchGo_isSome rows2 (asciiLower q) lim _
      (fun r hr => hkeys r ((List.perm_insertionSort keyDesc rows7).mem_iff.1 hr)) 0
  · rw [getAllMessages]
    exact getAllGo_isSome rows2 since _
      (fun r hr => hkeys r ((List.perm_insertionSort keyAsc rows7).mem_iff.1 hr))

theorem C9_scans_complete_witness :
    (recentChats ([(c8key 1 2 3, ([] : List Nat))].map Prod.fst) [] 20).isSome = true ∧
    (readMessages [(c8key 1 2 3, [])] [] 0 20).isSome = true ∧
    (searchMessages [(c8key 1 2 3, [])] [] [] 20).isSome = true ∧
    (getAllMessages [(c8key 1 2 3, [])] [] 0).isSome = true :=
  C9_scans_complete [(c8key 1 2 3, [])] [] [] 20 0 0 (by decide)

/-!
## Claim C10: how the two limits count
-/

/-- Does a `t7` row pass the text filter of `search_messages`
(parsable value, nonempty text, query substring)? -/
def acceptRow (qlower : List Nat) (r : List Nat × List Nat) : Bool :=
  match parseMessageValue r.2 with
  | none => false
  | some msg => !msg.text.isEmpty && containsSub (asciiLower msg.text) qlower

theorem searchGo_length (rows2 : List (Int × List Nat)) (ql : List Nat)
    (lim : Nat) (rs : List (List Nat × List Nat))
    (hk : ∀ r ∈ rs, 20 ≤ r.1.length) :
    ∀ cnt out, cnt ≤ lim → searchGo rows2 ql lim rs cnt = some out →
      out.length = min (lim - cnt) (rs.countP (acceptRow ql)) := by
  induction rs with
  | nil =>
    intro cnt out _ h
    simp only [searchGo] at h
    injection h with h2
    subst h2
    simp
  | cons r rest ih =>
    intro cnt out hcnt h
    obtain ⟨key, value⟩ := r
    have ihr := ih fun g hg => hk g (by simp [hg])
    simp only [searchGo] at h
    by_cases hc : lim ≤ cnt
    · rw [if_pos hc] at h
      injection h with h2
      subst h2
      have h0 : lim - cnt = 0 := by omega
      simp [h0]
    · rw [if_neg hc] at h
      cases hpv : parseMessageValue value with
      | none =>
        rw [hpv] at h
        simp only [] at h
        have hacc : acceptRow ql (key, value) = false := by
          simp [acceptRow, hpv]
        rw [List.countP_cons, hacc]
        simpa using ihr cnt out hcnt h
      | some msg =>
        rw [hpv] at h
        simp only [] at h
        by_cases ht : msg.text.isEmpty
        · rw [if_pos ht] at h
          have hacc : acceptRow ql (key, value) = false := by
            simp [acceptRow, hpv, ht]
          rw [List.countP_cons, hacc]
          simpa using ihr cnt out hcnt h
        · rw [if_neg ht] at h
          by_cases hq : (!containsSub (asciiLower msg.text) ql) = true
          · rw [if_pos hq] at h
            have hcq : containsSub (asciiLower msg.text) ql = false := by
              revert hq
              cases containsSub (asciiLower msg.text) ql <;> simp
            have hacc : acceptRow ql (key, value) = false := by
              simp [acceptRow, hpv, hcq]
            rw [List.countP_cons, hacc]
            simpa using ihr cnt out hcnt h
          · rw [if_neg hq] at h
            have hcq : containsSub (asciiLower msg.text) ql = true := by
              revert hq
              cases containsSub (asciiLower msg.text) ql <;> simp
            have hacc : acceptRow ql (key, value) = true := by
              simp only [acceptRow, hpv]
              rw [hcq]
              revert ht
              cases msg.text.isEmpty <;> simp
            rcases Option.isSome_iff_exists.1
              (parseMessageKey_isSome key (hk (key, value) (by simp))) with ⟨idx, hidx⟩
            rw [hidx, Option.some_bind] at h
            rcases Option.map_eq_some'.1 h with ⟨tail, htail, hout⟩
            have h1 := ihr (cnt + 1) tail (by omega) htail
            rw [← hout, List.countP_cons, hacc]
            simp only [List.length_cons, if_pos]
            omega

/-- The message table for the C10 shortfall: four records for peer 42,
three with parsable nonempty text and the newest (timestamp 400) with an
unparsable value blob. -/
def c10rows7 : List (List Nat × List Nat) :=
  [(c8key 42 100 1, c8val [111, 110, 101]),
   (c8key 42 400 4, [5]),
   (c8key 42 300 3, c8val [116, 104, 114]),
   (c8key 42 200 2, c8val [116, 119, 111])]

set_option maxRecDepth 100000 in
/-- C10: `read_messages` caps the raw row fetch at `limit` and filters
afterwards: with 3 readable messages for peer 42 and an unparsable newest
row, `limit = 2` yields a single message while `limit = 4` yields all 3 —
so fewer than `limit` even though more than `limit` readable messages
exist.  `search_messages` instead counts only accepted matches: with
well-formed keys it returns exactly `min limit (number of accepted
rows)` results. -/
theorem C10_limit_semantics :
    (readMessages c10rows7 [] 42 2 =
        some [⟨300, [77, 101], [116, 104, 114], false, 42, 3⟩] ∧
      readMessages c10rows7 [] 42 4 =
        some [⟨300, [77, 101], [116, 104, 114], false, 42, 3⟩,
          ⟨200, [77, 101], [116, 119, 111], false, 42, 2⟩,
          ⟨100, [77, 101], [111, 110, 101], false, 42, 1⟩]) ∧
    (∀ (rows7 : List (List Nat × List Nat)) (rows2 : List (Int × List Nat))
        (q : List Nat) (lim : Nat), (∀ r ∈ rows7, 20 ≤ r.1.length) →
      (searchMessages rows7 rows2 q lim).map List.length =
        some (min lim (rows7.countP (acceptRow (asciiLower q))))) := by
  refine ⟨⟨by decide, by decide⟩, ?_⟩
  intro rows7 rows2 q lim hkeys
  have hk : ∀ r ∈ List.insertionSort keyDesc rows7, 20 ≤ r.1.length :=
    fun r hr => hkeys r ((List.perm_insertionSort keyDesc rows7).mem_iff.1 hr)
  rcases Option.isSome_iff_exists.1
    (searchGo_isSome rows2 (asciiLower q) lim _ hk 0) with ⟨out, hout⟩
  rw [searchMessages, hout, Option.map_some']
  have h1 := searchGo_length rows2 (asciiLower q) lim _ hk 0 out (by omega) hout
  rw [h1, Nat.sub_zero,
    (List.perm_insertionSort keyDesc rows7).countP_eq (acceptRow (asciiLower q))]

set_option maxRecDepth 10000 in
theorem C10_limit_semantics_witness :
    (searchMessages c10rows7 [] [] 2).map List.length =
      some (min 2 (c10rows7.countP (acceptRow (asciiLower [])))) :=
  C10_limit_semantics.2 c10rows7 [] [] 2 (by decide)

end MessagesCli
